import Mathlib

/-!
# MarkersSymbolizer::build — a shallow embedding

Source: `libs-carto/mapnikvt/src/mapnikvt/MarkersSymbolizer.cpp`.

Conventions of the embedding
* `float` values are rationals (`ℚ`). The running offset of the line-spacing walk (`lineLen`
  and `linePos`, lines 175, 177, 193 and 196), which decides how often the `while` loop runs,
  is rounded to binary32 after every operation (`roundFloat`: round to nearest, ties to even,
  gradual underflow). A value of magnitude `2^128` or more (an infinity of the program) and
  NaN are outside the model. All other float arithmetic (sizes, scale factors, the position
  of line 180, matrices) is exact; a quotient by zero is 0 in `ℚ` (the walk divides by
  `lineLen` only when `linePos < lineLen`; the scale factors of a bitmap of width or height
  0, which the program computes as infinities or NaN, are 0 here).
* `long long` identifiers are integers (`Int`); no arithmetic is done on them.
* `std::shared_ptr<const T>` that may be null is `Option T`.
* Everything `build` calls that is declared outside `MarkersSymbolizer.cpp` (cglib, the
  `Symbolizer` base class, the settings, the constants of the header) is a field of `Env`.
* The tile-layer builder, the logger and the bitmap manager are external objects; the calls
  `build` makes to them are recorded, in order, in `BuildState`.
* The `while` loop of the line-spacing walk takes a fuel argument; `Outcome.outOfFuel` carries
  the state reached when the fuel ran out.
-/

namespace MarkersSymbolizer

/-! ## Geometry and linear algebra (cglib) -/

/-- A `cglib::vec2<float>`; component `0` is `x`, component `1` is `y`. -/
structure Vec2 where
  x : ℚ
  y : ℚ
  deriving DecidableEq, Repr

/-- Component-wise `operator+` of `cglib::vec2`. -/
def Vec2.add (a b : Vec2) : Vec2 := ⟨a.x + b.x, a.y + b.y⟩

/-- Component-wise `operator-` of `cglib::vec2`. -/
def Vec2.sub (a b : Vec2) : Vec2 := ⟨a.x - b.x, a.y - b.y⟩

/-- Multiplication of a `cglib::vec2` by a scalar. -/
def Vec2.smul (a : Vec2) (t : ℚ) : Vec2 := ⟨a.x * t, a.y * t⟩

/-- A `cglib::mat3x3<float>`, entry `(i, j)` being field `mij`. -/
structure Mat3 where
  m00 : ℚ
  m01 : ℚ
  m02 : ℚ
  m10 : ℚ
  m11 : ℚ
  m12 : ℚ
  m20 : ℚ
  m21 : ℚ
  m22 : ℚ
  deriving DecidableEq, Repr

/-- The value of `cglib::mat3x3<float>::identity()`. -/
def Mat3.identity : Mat3 := ⟨1, 0, 0, 0, 1, 0, 0, 0, 1⟩

/-- Matrix product, `operator*` of `cglib::mat3x3`. -/
def Mat3.mul (a b : Mat3) : Mat3 :=
  ⟨a.m00 * b.m00 + a.m01 * b.m10 + a.m02 * b.m20,
   a.m00 * b.m01 + a.m01 * b.m11 + a.m02 * b.m21,
   a.m00 * b.m02 + a.m01 * b.m12 + a.m02 * b.m22,
   a.m10 * b.m00 + a.m11 * b.m10 + a.m12 * b.m20,
   a.m10 * b.m01 + a.m11 * b.m11 + a.m12 * b.m21,
   a.m10 * b.m02 + a.m11 * b.m12 + a.m12 * b.m22,
   a.m20 * b.m00 + a.m21 * b.m10 + a.m22 * b.m20,
   a.m20 * b.m01 + a.m21 * b.m11 + a.m22 * b.m21,
   a.m20 * b.m02 + a.m21 * b.m12 + a.m22 * b.m22⟩

/-- The diagonal matrix `cglib::scale3_matrix(cglib::vec3<float>(sx, sy, sz))`. -/
def scale3_matrix (sx sy sz : ℚ) : Mat3 := ⟨sx, 0, 0, 0, sy, 0, 0, 0, sz⟩

/-- A `vt::TileLayerBuilder::Vertex`. -/
abbrev Vertex := Vec2

/-- A `vt::TileLayerBuilder::Vertices`. -/
abbrev Vertices := List Vec2

/-- The `boost::variant<Vertex, Vertices>` that `addPoint` takes as position. -/
inductive Position where
  | vertex (v : Vertex)
  | vertices (vs : Vertices)
  deriving DecidableEq, Repr

/-- The dynamic type of a feature geometry, as the `dynamic_pointer_cast` chain of the
geometry loop sees it. `other` stands for a null pointer or any further geometry class. -/
inductive Geometry where
  | point (vertices : List Vec2)
  | line (verticesList : List (List Vec2))
  | polygon (polygonList : List (List (List Vec2)))
  | other
  deriving DecidableEq, Repr

/-- One entry of a `FeatureCollection`: what `getLocalId`, `getGlobalId` and `getGeometry`
return at its index. -/
structure Feature where
  localId : Int
  globalId : Int
  geometry : Geometry
  deriving DecidableEq, Repr

/-- A `FeatureCollection`, indexed from `0` to `getSize() - 1`. -/
abbrev FeatureCollection := List Feature

/-! ## Styles, bitmaps and the symbolizer parameters -/

/-- The enumeration `vt::LabelOrientation`. -/
inductive LabelOrientation where
  | BILLBOARD_2D
  | BILLBOARD_3D
  | POINT
  | POINT_FLIPPING
  | LINE
  deriving DecidableEq, Repr

/-- The enumeration `vt::PointOrientation`. -/
inductive PointOrientation where
  | BILLBOARD_2D
  | BILLBOARD_3D
  | POINT
  deriving DecidableEq, Repr

/-- A `vt::CompOp`, kept as the number of the enumerator. -/
structure CompOp where
  code : Nat
  deriving DecidableEq, Repr

/-- A `vt::Color`, kept as the packed word that `value()` returns. -/
structure Color where
  value : Nat
  deriving DecidableEq, Repr

/-- One drawing command issued to a `vt::BitmapCanvas`. -/
inductive DrawOp where
  | setColor (c : Color)
  | drawEllipse (x0 y0 rx ry : ℚ)
  | drawRectangle (x0 y0 x1 y1 : ℚ)
  | drawTriangle (x0 y0 x1 y1 x2 y2 : ℚ)
  deriving DecidableEq, Repr

/-- A `vt::Bitmap`. The pixel buffer is represented by the drawing commands that produced
it (empty for a bitmap that was loaded from an asset). -/
structure Bitmap where
  width : Int
  height : Int
  drawn : List DrawOp
  deriving DecidableEq, Repr

/-- A `vt::BitmapCanvas` under construction: its size and the commands received so far. -/
structure BitmapCanvas where
  width : Int
  height : Int
  ops : List DrawOp
  deriving DecidableEq, Repr

/-- The constructor `vt::BitmapCanvas(width, height)`. -/
def BitmapCanvas.create (width height : Int) : BitmapCanvas := ⟨width, height, []⟩

/-- Append one drawing command to the canvas. -/
def BitmapCanvas.draw (c : BitmapCanvas) (op : DrawOp) : BitmapCanvas :=
  { c with ops := c.ops ++ [op] }

/-- Modelled from the spec: `BitmapCanvas::buildBitmap` (declared in `vt/BitmapCanvas.h`, not
part of the sources at hand). It yields a non-null bitmap of the size of the canvas. -/
def BitmapCanvas.buildBitmap (c : BitmapCanvas) : Bitmap := ⟨c.width, c.height, c.ops⟩

/-- A transform of a parsed transform list (`Transform.h`). -/
inductive Transform where
  | matrix (m : Mat3)
  | translate (dx dy : ℚ)
  | rotate (angle x y : ℚ)
  | scale (sx sy : ℚ)
  | skewX (angle : ℚ)
  | skewY (angle : ℚ)
  deriving DecidableEq, Repr

/-- A `Value` of the expression language (`Value.h`). -/
inductive Value where
  | blank
  | bool (b : Bool)
  | long (n : Int)
  | double (d : ℚ)
  | string (s : String)
  deriving DecidableEq, Repr

/-- A handle on a parsed expression (`std::shared_ptr<const Expression>`). -/
structure Expression where
  handle : Nat
  deriving DecidableEq, Repr

/-- The member variables of the symbolizer, as they stand after `updateBindings(exprContext)`. -/
structure Params where
  file : String
  placement : String
  markerType : String
  fill : Color
  fillOpacity : ℚ
  width : ℚ
  widthDefined : Bool
  height : ℚ
  heightDefined : Bool
  stroke : Color
  strokeOpacity : ℚ
  strokeWidth : ℚ
  spacing : ℚ
  allowOverlap : Bool
  ignorePlacement : Bool
  transform : Mat3
  transformExpression : Option Expression
  compOp : String

/-- Everything `build` uses that is declared outside `MarkersSymbolizer.cpp`. -/
structure Env where
  /-- Constant of `MarkersSymbolizer.h`. -/
  DEFAULT_CIRCLE_SIZE : ℚ
  /-- Constant of `MarkersSymbolizer.h`. -/
  DEFAULT_ARROW_WIDTH : ℚ
  /-- Constant of `MarkersSymbolizer.h`. -/
  DEFAULT_ARROW_HEIGHT : ℚ
  /-- Constant of `MarkersSymbolizer.h`. -/
  SUPERSAMPLING_FACTOR : ℚ
  /-- The value of `symbolizerContext.getSettings().getFontScale()`. -/
  fontScale : ℚ
  /-- The value of `symbolizerContext.getSettings().getTileSize()`. -/
  tileSize : ℚ
  /-- The function `Symbolizer::convertCompOp`. -/
  convertCompOp : String → CompOp
  /-- The function `Symbolizer::convertLabelPlacement`. -/
  convertLabelPlacement : String → LabelOrientation
  /-- The function `Symbolizer::convertLabelToPointOrientation`. -/
  convertLabelToPointOrientation : LabelOrientation → PointOrientation
  /-- The function `vt::Color::fromColorOpacity`. -/
  fromColorOpacity : Color → ℚ → Color
  /-- The function `Symbolizer::getBitmapId`. -/
  getBitmapId : Int → String → Int
  /-- The conversion `boost::lexical_cast<std::string>` at type `float`. -/
  floatToString : ℚ → String
  /-- The function `cglib::length` on `vec2`. -/
  length : Vec2 → ℚ
  /-- The function `cglib::unit` on `vec2`. -/
  unit : Vec2 → Vec2
  /-- The method `LineGeometry::getMidPoints`, as a function of the vertex lists. -/
  getMidPoints : List (List Vec2) → List Vec2
  /-- The method `PolygonGeometry::getSurfacePoints`, as a function of the polygon list. -/
  getSurfacePoints : List (List (List Vec2)) → List Vec2
  /-- The method `BitmapManager::loadBitmap`; `none` is the null pointer. -/
  loadBitmap : String → Option Bitmap
  /-- The method `Expression::evaluate` at the expression context of this call. -/
  evaluate : Expression → Value
  /-- The conversion `boost::lexical_cast<std::string>` at type `Value`. -/
  valueToString : Value → String
  /-- The function `parseTransformList`; `none` stands for a thrown `ParserException`. -/
  parseTransformList : String → Option (List Transform)

/-- The style `vt::PointStyle` built by a flush on the direct-point path. -/
structure PointStyle where
  compOp : CompOp
  orientation : PointOrientation
  fillFunc : String
  opacityFunc : ℚ
  bitmap : Option Bitmap
  transform : Mat3
  deriving DecidableEq, Repr

/-- The style `vt::BitmapLabelStyle` built by a flush on the label path. The colour is
`Color::fromColorOpacity(Color(0xffffffff), fillOpacity)`, kept as its two arguments. -/
structure BitmapLabelStyle where
  orientation : LabelOrientation
  colorValue : Nat
  colorOpacity : ℚ
  bitmap : Option Bitmap
  transform : Mat3
  deriving DecidableEq, Repr

/-- A `vt::TileLayerBuilder::BitmapLabelInfo(id, groupId, position, minimumGroupOpacity)`. -/
structure BitmapLabelInfo where
  id : Int
  groupId : Int
  position : Position
  minimumGroupOpacity : ℚ
  deriving DecidableEq, Repr

/-- One call received by the `vt::TileLayerBuilder`: the records its supplier callback
yields until it reports exhaustion, and the style. -/
inductive BuilderCall where
  | addPoints (records : List (Int × Vertex)) (style : PointStyle)
  | addBitmapLabels (records : List (Int × BitmapLabelInfo)) (style : BitmapLabelStyle)
  deriving DecidableEq, Repr

/-- The records of an `addPoints` call (none for a call on the label path). -/
def BuilderCall.pointRecords : BuilderCall → List (Int × Vertex)
  | .addPoints records _ => records
  | .addBitmapLabels _ _ => []

/-- The records of an `addBitmapLabels` call (none for a call on the point path). -/
def BuilderCall.labelRecords : BuilderCall → List (Int × BitmapLabelInfo)
  | .addPoints _ _ => []
  | .addBitmapLabels records _ => records

/-- The bitmap of the style of a builder call. -/
def BuilderCall.bitmap : BuilderCall → Option Bitmap
  | .addPoints _ style => style.bitmap
  | .addBitmapLabels _ style => style.bitmap

/-- The transform of the style of a builder call. -/
def BuilderCall.transform : BuilderCall → Mat3
  | .addPoints _ style => style.transform
  | .addBitmapLabels _ style => style.transform

/-- Whether the call went through `addPoints`. -/
def BuilderCall.isAddPoints : BuilderCall → Bool
  | .addPoints _ _ => true
  | .addBitmapLabels _ _ => false

/-- The severity of a log entry. -/
inductive Severity where
  | ERROR
  | WARNING
  deriving DecidableEq, Repr

/-- The arguments of one invocation of the `addPoint` lambda. -/
structure Placement where
  localId : Int
  globalId : Int
  position : Position
  deriving DecidableEq, Repr

/-- Modelled from the spec: the bitmap cache of the asset manager (`getBitmap`, `storeBitmap`;
the class `BitmapManager` is not part of the sources at hand). Keys are strings, the entry
stored last for a key is the one returned, a missing key gives the null pointer. -/
abbrev BitmapCache := List (String × Bitmap)

/-- Modelled from the spec: `BitmapManager::getBitmap`. -/
def getBitmap (cache : BitmapCache) (key : String) : Option Bitmap :=
  (cache.find? (fun e => e.1 == key)).map Prod.snd

/-- Modelled from the spec: `BitmapManager::storeBitmap`. -/
def storeBitmap (cache : BitmapCache) (key : String) (bitmap : Bitmap) : BitmapCache :=
  (key, bitmap) :: cache

/-- The state a `build` call works on: its two local queues, the calls it has made to the
tile-layer builder and to the logger (oldest first), the bitmap cache, and the trace of the
invocations of `addPoint` (oldest first; the trace is bookkeeping of the model, the program
keeps no such list). -/
structure BuildState where
  pointInfos : List (Int × Vertex)
  labelInfos : List (Int × BitmapLabelInfo)
  calls : List BuilderCall
  log : List (Severity × String)
  cache : BitmapCache
  handed : List Placement
  deriving DecidableEq, Repr

/-- The state at the entry of `build`: nothing queued, nothing sent. -/
def BuildState.initial (cache : BitmapCache) : BuildState :=
  ⟨[], [], [], [], cache, []⟩

/-- The result of a loop that runs on fuel. -/
inductive Outcome (α : Type) where
  | done (a : α)
  | outOfFuel (s : BuildState)

/-! ## Glyph resolution (lines 28 to 90) -/

/-- The method `makeEllipseBitmap` (lines 292 to 304). -/
def makeEllipseBitmap (width height : ℚ) (color : Color) (strokeWidth : ℚ)
    (strokeColor : Color) : Bitmap :=
  let canvasWidth : Int := ⌈width + strokeWidth⌉
  let canvasHeight : Int := ⌈height + strokeWidth⌉
  let canvas := BitmapCanvas.create canvasWidth canvasHeight
  let x0 : ℚ := canvasWidth * (1 / 2)
  let y0 : ℚ := canvasHeight * (1 / 2)
  let canvas :=
    if strokeWidth > 0 then
      (canvas.draw (.setColor strokeColor)).draw
        (.drawEllipse x0 y0 ((width + strokeWidth * (1 / 2)) * (1 / 2))
          ((height + strokeWidth * (1 / 2)) * (1 / 2)))
    else canvas
  let canvas := canvas.draw (.setColor color)
  let canvas := canvas.draw
    (.drawEllipse x0 y0 ((width - strokeWidth * (1 / 2)) * (1 / 2))
      ((height - strokeWidth * (1 / 2)) * (1 / 2)))
  canvas.buildBitmap

/-- The method `makeArrowBitmap` (lines 306 to 320). -/
def makeArrowBitmap (width height : ℚ) (color : Color) (strokeWidth : ℚ)
    (strokeColor : Color) : Bitmap :=
  let canvasWidth : Int := ⌈width + strokeWidth⌉
  let canvasHeight : Int := ⌈height + strokeWidth⌉
  let x0 : ℚ := strokeWidth * (1 / 2)
  let x1 : ℚ := ((⌈width - height * (1 / 2)⌉ : Int) : ℚ)
  let y1 : ℚ := height * 1 / 3
  let y2 : ℚ := height * 2 / 3
  let canvas := BitmapCanvas.create canvasWidth canvasHeight
  let canvas :=
    if strokeWidth > 0 then
      ((canvas.draw (.setColor strokeColor)).draw
        (.drawRectangle 0 (y1 - strokeWidth * (1 / 2)) x1 (y2 + strokeWidth * (1 / 2)))).draw
        (.drawTriangle (x1 - strokeWidth * (1 / 2)) 0 (x1 - strokeWidth * (1 / 2)) height
          width (height * (1 / 2)))
    else canvas
  let canvas := canvas.draw (.setColor color)
  let canvas := canvas.draw (.drawRectangle x0 y1 x1 y2)
  let canvas := canvas.draw
    (.drawTriangle x1 strokeWidth x1 (height - strokeWidth * (1 / 2))
      (width - strokeWidth * (1 / 2)) (height * (1 / 2)))
  canvas.buildBitmap

/-- The method `containsRotationTransform` (lines 277 to 290): a thrown `ParserException`
is caught and answered with `false`. -/
def containsRotationTransform (E : Env) (val : Value) : Bool :=
  match E.parseTransformList (E.valueToString val) with
  | some transforms =>
    transforms.any (fun t => match t with
      | .rotate _ _ _ => true
      | _ => false)
  | none => false

/-- The local `placement` (line 17). -/
def placementOf (E : Env) (P : Params) : LabelOrientation :=
  E.convertLabelPlacement P.placement

/-- The local `orientation` after lines 18 to 26. -/
def orientationOf (E : Env) (P : Params) : LabelOrientation :=
  let placement := placementOf E P
  let orientation := placement
  let orientation :=
    match P.transformExpression with
    | some e => if containsRotationTransform E (E.evaluate e) then .POINT else orientation
    | none => orientation
  if placement = .LINE ∧ P.spacing > 0 then .POINT else orientation

/-- The two procedural marker shapes. -/
inductive Shape where
  | ellipse
  | arrow
  deriving DecidableEq, Repr

/-- The branch taken at line 49 when no file is given: the ellipse branch when the condition
holds, the arrow branch (line 68) otherwise. -/
def selectShape (E : Env) (P : Params) : Shape :=
  if P.markerType = "ellipse" ∨ (P.markerType = "" ∧ placementOf E P ≠ .LINE) then .ellipse
  else .arrow

/-- The locals `width` and `height` of the ellipse branch after lines 50 to 58. -/
def ellipseSize (E : Env) (P : Params) : ℚ × ℚ :=
  if P.widthDefined then
    let width := |P.width|
    (width, if P.heightDefined then |P.height| else width)
  else if P.heightDefined then
    let height := |P.height|
    (height, height)
  else (E.DEFAULT_CIRCLE_SIZE, E.DEFAULT_CIRCLE_SIZE)

/-- The locals `width` and `height` of the arrow branch after lines 69 to 77. -/
def arrowSize (E : Env) (P : Params) : ℚ × ℚ :=
  if P.width > 0 then
    let width := P.width
    (width, if P.height > 0 then P.height
            else E.DEFAULT_ARROW_HEIGHT * width / E.DEFAULT_ARROW_WIDTH)
  else if P.height > 0 then
    let height := P.height
    (E.DEFAULT_ARROW_WIDTH * height / E.DEFAULT_ARROW_HEIGHT, height)
  else (E.DEFAULT_ARROW_WIDTH, E.DEFAULT_ARROW_HEIGHT)

/-- The cache key built at line 59 (`name` is `"ellipse"`) and at line 78 (`"arrow"`). -/
def markerKey (E : Env) (name : String) (width height : ℚ) (fill : Color) (strokeWidth : ℚ)
    (stroke : Color) : String :=
  "__default_marker_" ++ name ++ "_" ++ E.floatToString width ++ "_" ++ E.floatToString height
    ++ "_" ++ toString fill.value ++ "_" ++ E.floatToString strokeWidth ++ "_"
    ++ toString stroke.value ++ ".bmp"

/-- What lines 28 to 88 leave in the locals `file`, `bitmap`, `bitmapScaleX`, `bitmapScaleY`
and `fillOpacity`. -/
structure Glyph where
  file : String
  bitmap : Bitmap
  bitmapScaleX : ℚ
  bitmapScaleY : ℚ
  fillOpacity : ℚ
  deriving DecidableEq, Repr

/-- The procedural branch (lines 47 to 87): in the ellipse branch (lines 50 to 66) and in the
arrow branch (lines 69 to 85) the size, the cache key, the cache lookup, on a miss the
rasterization and the store, and the scale factors. Returns the glyph and the cache
afterwards. -/
def resolveProcedural (E : Env) (P : Params) (cache : BitmapCache) : Glyph × BitmapCache :=
  let fill := E.fromColorOpacity P.fill P.fillOpacity
  let stroke := E.fromColorOpacity P.stroke P.strokeOpacity
  match selectShape E P with
  | .ellipse =>
    let width := (ellipseSize E P).1
    let height := (ellipseSize E P).2
    let file := markerKey E "ellipse" width height fill P.strokeWidth stroke
    match getBitmap cache file with
    | some bitmap =>
      (⟨file, bitmap, width * E.fontScale / bitmap.width, height * E.fontScale / bitmap.height,
        1⟩, cache)
    | none =>
      let bitmap := makeEllipseBitmap (width * E.SUPERSAMPLING_FACTOR)
        (height * E.SUPERSAMPLING_FACTOR) fill (|P.strokeWidth| * E.SUPERSAMPLING_FACTOR) stroke
      (⟨file, bitmap, width * E.fontScale / bitmap.width, height * E.fontScale / bitmap.height,
        1⟩, storeBitmap cache file bitmap)
  | .arrow =>
    let width := (arrowSize E P).1
    let height := (arrowSize E P).2
    let file := markerKey E "arrow" width height fill P.strokeWidth stroke
    match getBitmap cache file with
    | some bitmap =>
      (⟨file, bitmap, width * E.fontScale / bitmap.width, height * E.fontScale / bitmap.height,
        1⟩, cache)
    | none =>
      let bitmap := makeArrowBitmap (width * E.SUPERSAMPLING_FACTOR)
        (height * E.SUPERSAMPLING_FACTOR) fill (|P.strokeWidth| * E.SUPERSAMPLING_FACTOR) stroke
      (⟨file, bitmap, width * E.fontScale / bitmap.width, height * E.fontScale / bitmap.height,
        1⟩, storeBitmap cache file bitmap)

/-- The file branch (lines 33 to 44), once the bitmap is loaded: the scale factors. -/
def resolveFile (E : Env) (P : Params) (bitmap : Bitmap) : Glyph :=
  let fontScale := E.fontScale
  if P.width > 0 then
    let bitmapScaleX := fontScale * P.width / bitmap.width
    let bitmapScaleY := if P.height > 0 then fontScale * P.height / bitmap.height else bitmapScaleX
    ⟨P.file, bitmap, bitmapScaleX, bitmapScaleY, P.fillOpacity⟩
  else if P.height > 0 then
    let scale := fontScale * P.height / bitmap.height
    ⟨P.file, bitmap, scale, scale, P.fillOpacity⟩
  else ⟨P.file, bitmap, fontScale, fontScale, P.fillOpacity⟩

/-- Lines 28 to 88. `none` is the early return of line 36 (the asset failed to load);
otherwise the glyph and the cache afterwards. -/
def resolveGlyph (E : Env) (P : Params) (cache : BitmapCache) : Option (Glyph × BitmapCache) :=
  if P.file ≠ "" then
    match E.loadBitmap P.file with
    | none => none
    | some bitmap => some (resolveFile E P bitmap, cache)
  else some (resolveProcedural E P cache)

/-- The local `bitmapSize` (line 90). -/
def bitmapSize (G : Glyph) : ℚ :=
  max (G.bitmap.width * G.bitmapScaleX) (G.bitmap.height * G.bitmapScaleY)

/-- The local `groupId` (line 91). -/
def groupIdOf (P : Params) : Int := if P.allowOverlap then -1 else 0

/-! ## The accumulate-and-flush protocol (lines 93 to 148) -/

/-- The `addPoint` lambda (lines 96 to 110). On the direct-point path a single vertex is
queued as it is, a polyline is queued as its first vertex, and an empty polyline is not
queued; on the label path a `BitmapLabelInfo` is queued. -/
def addPoint (E : Env) (P : Params) (G : Glyph) (s : BuildState) (localId globalId : Int)
    (position : Position) : BuildState :=
  let s := { s with handed := s.handed ++ [⟨localId, globalId, position⟩] }
  if P.allowOverlap then
    match position with
    | .vertex vertex => { s with pointInfos := s.pointInfos ++ [(localId, vertex)] }
    | .vertices vertices =>
      match vertices with
      | front :: _ => { s with pointInfos := s.pointInfos ++ [(localId, front)] }
      | [] => s
  else
    { s with labelInfos := s.labelInfos ++
        [(localId, ⟨E.getBitmapId globalId G.file, groupIdOf P, position, 0⟩)] }

/-- The `flushPoints` lambda (lines 112 to 148): one style, one builder call that drains the
queue of the active path through the supplier callback, then `clear()` on that queue. -/
def flushPoints (E : Env) (P : Params) (G : Glyph) (s : BuildState) (transform : Mat3) :
    BuildState :=
  let styleTransform := transform.mul (scale3_matrix G.bitmapScaleX G.bitmapScaleY 1)
  if P.allowOverlap then
    let style : PointStyle :=
      ⟨E.convertCompOp P.compOp, E.convertLabelToPointOrientation (orientationOf E P), "#ffffff",
        G.fillOpacity, some G.bitmap, styleTransform⟩
    { s with calls := s.calls ++ [.addPoints s.pointInfos style], pointInfos := [] }
  else
    let style : BitmapLabelStyle :=
      ⟨orientationOf E P, 0xffffffff, G.fillOpacity, some G.bitmap, styleTransform⟩
    { s with calls := s.calls ++ [.addBitmapLabels s.labelInfos style], labelInfos := [] }

/-- The `Logger::write` call of line 35 or 212. -/
def logWrite (s : BuildState) (severity : Severity) (message : String) : BuildState :=
  { s with log := s.log ++ [(severity, message)] }

/-! ## Binary32 arithmetic of the running offset -/

/-- The number of binary digits of `n`, found by halving at most `fuel` times. -/
def bitLengthAux : Nat → Nat → Nat
  | 0, _ => 0
  | fuel + 1, n => if n = 0 then 0 else bitLengthAux fuel (n / 2) + 1

/-- The number of binary digits of `n` (0 for 0). -/
def bitLength (n : Nat) : Nat := bitLengthAux n n

/-- The binade of a rational `x` other than 0: the exponent `e` with `2^e ≤ |x| < 2^(e+1)`. -/
def binade (x : ℚ) : ℤ :=
  let e : ℤ := (bitLength x.num.natAbs : ℤ) - (bitLength x.den : ℤ)
  if (2 : ℚ) ^ e ≤ |x| then e else e - 1

/-- Rounding to the nearest integer, a tie going to the even one. -/
def roundHalfEven (x : ℚ) : ℤ :=
  if x - ⌊x⌋ < 1 / 2 then ⌊x⌋
  else if 1 / 2 < x - ⌊x⌋ then ⌊x⌋ + 1
  else if ⌊x⌋ % 2 = 0 then ⌊x⌋ else ⌊x⌋ + 1

/-- The distance between neighbouring binary32 values at `x`: `2^(e - 23)` in the binade `e`
of `x`, and `2^-149` below `2^-126`. -/
def ulp (x : ℚ) : ℚ := (2 : ℚ) ^ (max (binade x) (-126) - 23)

/-- Rounding of a non-negative rational to binary32. -/
def roundMagnitude (x : ℚ) : ℚ := roundHalfEven (x / ulp x) * ulp x

/-- Rounding to binary32: the nearest value with a significand of 24 binary digits and an
exponent of at least -126 (below `2^-126` the values are the multiples of `2^-149`), a tie
going to the value with the even significand. -/
def roundFloat (x : ℚ) : ℚ := if x < 0 then -roundMagnitude (-x) else roundMagnitude x

/-- The sum of two `float` values, as `operator+` computes it. -/
def floatAdd (a b : ℚ) : ℚ := roundFloat (a + b)

/-- The difference of two `float` values, as `operator-` computes it. -/
def floatSub (a b : ℚ) : ℚ := roundFloat (a - b)

/-- The product of two `float` values, as `operator*` computes it. -/
def floatMul (a b : ℚ) : ℚ := roundFloat (a * b)

/-! ## The geometry loop (lines 150 to 216) -/

/-- The matrix `dirTransform` of lines 185 to 189. -/
def dirTransform (dir : Vec2) : Mat3 :=
  { Mat3.identity with m00 := dir.x, m01 := -dir.y, m10 := dir.y, m11 := dir.x }

/-- The clip test of line 181: both coordinates strictly between 0 and 1. -/
def insideTile (pos : Vec2) : Bool :=
  decide (min pos.x pos.y > 0 ∧ max pos.x pos.y < 1)

/-- The body of the `while` loop without the step (lines 180 to 191). -/
def walkEmit (E : Env) (P : Params) (G : Glyph) (localId : Int) (v0 v1 : Vec2)
    (lineLen linePos : ℚ) (s : BuildState) : BuildState :=
  let pos := v0.add ((v1.sub v0).smul (linePos / lineLen))
  if insideTile pos then
    let s := addPoint E P G s localId 0 (.vertex pos)
    let dir := E.unit (v1.sub v0)
    flushPoints E P G s ((dirTransform dir).mul P.transform)
  else s

/-- The `while (linePos < lineLen)` loop (lines 179 to 194), at most `fuel` iterations.
Returns the value of `linePos` at the exit of the loop and the state. Line 193 adds the
binary32 sum `_spacing + bitmapSize` to `linePos` and rounds again. -/
def whileLoop (E : Env) (P : Params) (G : Glyph) (localId : Int) (v0 v1 : Vec2) (lineLen : ℚ) :
    Nat → ℚ → BuildState → Outcome (ℚ × BuildState)
  | 0, linePos, s => if linePos < lineLen then .outOfFuel s else .done (linePos, s)
  | fuel + 1, linePos, s =>
    if linePos < lineLen then
      whileLoop E P G localId v0 v1 lineLen fuel
        (floatAdd linePos (floatAdd P.spacing (bitmapSize G)))
        (walkEmit E P G localId v0 v1 lineLen linePos s)
    else .done (linePos, s)

/-- The `for (i = 1; i < vertices.size(); i++)` loop (lines 171 to 197), entered at index `i`
with `vertices[i - 1]` at the head of the list. Each `while` loop gets `fuel` iterations.
The product of line 175, the product of line 177 and the difference of line 196 are binary32
operations; the vector `v1 - v0` handed to `cglib::length` is the exact difference. -/
def segmentLoop (E : Env) (P : Params) (G : Glyph) (fuel : Nat) (localId : Int) :
    Nat → List Vec2 → ℚ → BuildState → Outcome BuildState
  | i, v0 :: v1 :: rest, linePos, s =>
    let lineLen := floatMul (E.length (v1.sub v0)) E.tileSize
    let linePos := if i = 1 then floatMul (min lineLen P.spacing) (1 / 2) else linePos
    match whileLoop E P G localId v0 v1 lineLen fuel linePos s with
    | .done (linePos, s) =>
      segmentLoop E P G fuel localId (i + 1) (v1 :: rest) (floatSub linePos lineLen) s
    | .outOfFuel s => .outOfFuel s
  | _, _, _, s => .done s

/-- The line-spacing walk over one vertex sequence (lines 168 to 197): the flush that
precedes the walk, then the segments. -/
def walkVertices (E : Env) (P : Params) (G : Glyph) (fuel : Nat) (localId : Int)
    (vertices : List Vec2) (s : BuildState) : Outcome BuildState :=
  segmentLoop E P G fuel localId 1 vertices 0 (flushPoints E P G s P.transform)

/-- The loop over `getVerticesList()` under line placement (lines 162 to 198). -/
def verticesListLoop (E : Env) (P : Params) (G : Glyph) (fuel : Nat) (localId globalId : Int) :
    List (List Vec2) → BuildState → Outcome BuildState
  | [], s => .done s
  | vertices :: rest, s =>
    if P.spacing ≤ 0 then
      verticesListLoop E P G fuel localId globalId rest
        (addPoint E P G s localId globalId (.vertices vertices))
    else
      match walkVertices E P G fuel localId vertices s with
      | .done s => verticesListLoop E P G fuel localId globalId rest s
      | .outOfFuel s => .outOfFuel s

/-- A range-based `for` loop that hands every vertex to `addPoint` (lines 156, 201, 207). -/
def addVertices (E : Env) (P : Params) (G : Glyph) (localId globalId : Int) :
    List Vec2 → BuildState → BuildState
  | [], s => s
  | vertex :: rest, s =>
    addVertices E P G localId globalId rest (addPoint E P G s localId globalId (.vertex vertex))

/-- The body of the geometry loop for one feature (lines 151 to 213). -/
def buildFeature (E : Env) (P : Params) (G : Glyph) (fuel : Nat) (f : Feature)
    (s : BuildState) : Outcome BuildState :=
  match f.geometry with
  | .point vertices => .done (addVertices E P G f.localId f.globalId vertices s)
  | .line verticesList =>
    if placementOf E P = .LINE then
      verticesListLoop E P G fuel f.localId f.globalId verticesList s
    else
      .done (addVertices E P G f.localId f.globalId (E.getMidPoints verticesList) s)
  | .polygon polygonList =>
    .done (addVertices E P G f.localId f.globalId (E.getSurfacePoints polygonList) s)
  | .other => .done (logWrite s .WARNING "Unsupported geometry for MarkersSymbolizer")

/-- The geometry loop over the feature collection (lines 150 to 214). -/
def featureLoop (E : Env) (P : Params) (G : Glyph) (fuel : Nat) :
    FeatureCollection → BuildState → Outcome BuildState
  | [], s => .done s
  | f :: rest, s =>
    match buildFeature E P G fuel f s with
    | .done s => featureLoop E P G fuel rest s
    | .outOfFuel s => .outOfFuel s

/-- The method `MarkersSymbolizer::build` (lines 9 to 217), started on a bitmap cache; the
bindings are those of `P`. -/
def build (E : Env) (P : Params) (fuel : Nat) (featureCollection : FeatureCollection)
    (cache : BitmapCache) : Outcome BuildState :=
  match resolveGlyph E P cache with
  | none =>
    .done (logWrite (BuildState.initial cache) .ERROR ("Failed to load marker bitmap " ++ P.file))
  | some (G, cache) =>
    match featureLoop E P G fuel featureCollection (BuildState.initial cache) with
    | .done s => .done (flushPoints E P G s P.transform)
    | .outOfFuel s => .outOfFuel s

/-- The state an outcome carries: the final state, or the state reached when the fuel ran
out. -/
def Outcome.state : Outcome BuildState → BuildState
  | .done s => s
  | .outOfFuel s => s

/-- Whether the run came to its end. -/
def Outcome.isDone {α : Type} : Outcome α → Bool
  | .done _ => true
  | .outOfFuel _ => false

/-- The state of an outcome of the `while` loop. -/
def Outcome.walkState : Outcome (ℚ × BuildState) → BuildState
  | .done (_, s) => s
  | .outOfFuel s => s

/-! ## Vocabulary of the properties -/

/-- A predicate on build states that each primitive step of the geometry loop keeps:
`addPoint`, `flushPoints` and the warning of line 212. -/
def Preserved (E : Env) (P : Params) (G : Glyph) (Inv : BuildState → Prop) : Prop :=
  (∀ s localId globalId position, Inv s → Inv (addPoint E P G s localId globalId position)) ∧
  (∀ s transform, Inv s → Inv (flushPoints E P G s transform)) ∧
  (∀ s severity message, Inv s → Inv (logWrite s severity message))

/-- The record under which a placement travels on the direct-point path: the vertex itself,
the first vertex of a polyline, nothing for an empty polyline. -/
def pointRecordOf (pl : Placement) : Option (Int × Vertex) :=
  match pl.position with
  | .vertex v => some (pl.localId, v)
  | .vertices (front :: _) => some (pl.localId, front)
  | .vertices [] => none

/-- The record under which a placement travels on the label path. -/
def labelRecordOf (E : Env) (P : Params) (G : Glyph) (pl : Placement) : Int × BitmapLabelInfo :=
  (pl.localId, ⟨E.getBitmapId pl.globalId G.file, groupIdOf P, pl.position, 0⟩)

/-- All point records the builder has received, batch after batch. -/
def deliveredPoints (s : BuildState) : List (Int × Vertex) :=
  s.calls.flatMap BuilderCall.pointRecords

/-- All label records the builder has received, batch after batch. -/
def deliveredLabels (s : BuildState) : List (Int × BitmapLabelInfo) :=
  s.calls.flatMap BuilderCall.labelRecords

/-- The vertices a point or polygon feature contributes: the vertices of a point geometry,
the sampled surface points of a polygon geometry. -/
def featureVertices (E : Env) (f : Feature) : List Vec2 :=
  match f.geometry with
  | .point vertices => vertices
  | .polygon polygonList => E.getSurfacePoints polygonList
  | _ => []

/-- Whether the geometry of a feature is a point or a polygon geometry. -/
def isPointOrPolygon (f : Feature) : Bool :=
  match f.geometry with
  | .point _ => true
  | .polygon _ => true
  | _ => false

/-- One placement per contributed vertex, in feature order, then vertex order. -/
def expectedPlacements (E : Env) (fc : FeatureCollection) : List Placement :=
  fc.flatMap (fun f => (featureVertices E f).map (fun v => ⟨f.localId, f.globalId, .vertex v⟩))

/-- The number of values `min(L, S)/2 + k S`, `k = 0, 1, 2, ...`, that lie strictly below `L`. -/
def walkCount (L S : ℚ) : Nat := ⌈(L - min L S / 2) / S⌉₊

/-! ## Sample inputs -/

/-- A stand-in for `cglib::length` in rational arithmetic: the Euclidean length, exact on
every vector that is parallel to an axis. -/
def sampleLength (v : Vec2) : ℚ :=
  if v.y = 0 then |v.x| else if v.x = 0 then |v.y| else Rat.sqrt (v.x * v.x + v.y * v.y)

/-- A sample environment: tile size 1, font scale 1, no loadable asset, an empty transform
parser, `"line"` as the only placement string converted to `LINE`. -/
def sampleEnv : Env where
  DEFAULT_CIRCLE_SIZE := 10
  DEFAULT_ARROW_WIDTH := 28
  DEFAULT_ARROW_HEIGHT := 14
  SUPERSAMPLING_FACTOR := 4
  fontScale := 1
  tileSize := 1
  convertCompOp := fun _ => ⟨0⟩
  convertLabelPlacement := fun s => if s = "line" then .LINE else .POINT
  convertLabelToPointOrientation := fun o => match o with
    | .BILLBOARD_2D => .BILLBOARD_2D
    | .BILLBOARD_3D => .BILLBOARD_3D
    | _ => .POINT
  fromColorOpacity := fun c _ => c
  getBitmapId := fun globalId _ => globalId
  floatToString := fun q => toString q
  length := sampleLength
  unit := fun v => v.smul (1 / sampleLength v)
  getMidPoints := fun _ => []
  getSurfacePoints := fun polygonList => polygonList.flatten.flatten
  loadBitmap := fun _ => none
  evaluate := fun _ => .blank
  valueToString := fun _ => ""
  parseTransformList := fun _ => none

/-- Sample parameters: point placement, no file, no marker type, nothing defined. -/
def sampleParams : Params where
  file := ""
  placement := "point"
  markerType := ""
  fill := ⟨255⟩
  fillOpacity := 1
  width := -1
  widthDefined := false
  height := -1
  heightDefined := false
  stroke := ⟨0⟩
  strokeOpacity := 1
  strokeWidth := 0
  spacing := 1 / 2
  allowOverlap := false
  ignorePlacement := false
  transform := Mat3.identity
  transformExpression := none
  compOp := "src-over"

/-- A glyph whose scale factors are zero, so that its footprint `bitmapSize` is zero. -/
def flatGlyph : Glyph := ⟨"marker", ⟨1, 1, []⟩, 0, 0, 1⟩

/-- Two features: a point geometry with two vertices and a polygon geometry with one sampled
surface point. -/
def samplePoints : FeatureCollection :=
  [⟨1, 101, .point [⟨1 / 4, 1 / 4⟩, ⟨1 / 2, 3 / 4⟩]⟩, ⟨2, 102, .polygon [[[⟨1 / 3, 1 / 3⟩]]]⟩]

/-- One line feature with a single straight segment across the tile. -/
def sampleLine : FeatureCollection :=
  [⟨7, 70, .line [[⟨0, 1 / 2⟩, ⟨1, 1 / 2⟩]]⟩]

/-- The sample parameters with `allow-overlap` set. -/
def overlapParams : Params := { sampleParams with allowOverlap := true }

/-- The sample parameters with a file reference (that the sample environment cannot load). -/
def fileParams : Params := { sampleParams with file := "missing.png" }

/-- The sample parameters with line placement (spacing 1/2). -/
def lineParams : Params := { sampleParams with placement := "line" }

/-- Line placement with spacing 0 under `allow-overlap`: every vertex sequence of a line is
handed to `addPoint` as a polyline. -/
def overlapLineParams : Params :=
  { sampleParams with placement := "line", spacing := 0, allowOverlap := true }

/-- One line feature whose only vertex sequence is empty. -/
def emptyLine : FeatureCollection := [⟨7, 70, .line [[]]⟩]


/-- Line placement with spacing 1. -/
def wideParams : Params := { sampleParams with placement := "line", spacing := 1 }

/-- A collinear line of three segments along `y = 1/2` with vertices at `x = 0`,
`5033165 / 2^24`, `5033165 / 2^23` and `1`: the second and the third are the binary32 values
nearest to 0.3 and 0.6, and the segment lengths `5033165 / 2^24` (twice) and
`3355443 / 2^23` are the binary32 differences of the vertices, 0.3, 0.3 and 0.4 to within
rounding. -/
def threeSegments : List Vec2 :=
  [⟨0, 1 / 2⟩, ⟨5033165 / 16777216, 1 / 2⟩, ⟨5033165 / 8388608, 1 / 2⟩, ⟨1, 1 / 2⟩]

/-- A single straight segment of length 1 along `y = 1/2`, starting at `x = 0`. -/
def oneSegment : List Vec2 := [⟨0, 1 / 2⟩, ⟨1, 1 / 2⟩]

/-- Line placement, no marker type, width explicitly bound to 10. -/
def definedLineParams : Params :=
  { sampleParams with placement := "line", width := 10, widthDefined := true }

/-- Marker type `arrow`, width explicitly bound to 10, height not bound. -/
def widthOnlyParams : Params :=
  { sampleParams with markerType := "arrow", width := 10, widthDefined := true }

/-- Marker type `ellipse`, width explicitly bound to -20, height not bound, stroke width -2. -/
def ellipseParams : Params :=
  { sampleParams with markerType := "ellipse", width := -20, widthDefined := true,
                      strokeWidth := -2 }

/-- A stand-in for `LineGeometry::getMidPoints`: the middle of every vertex sequence that
is a single segment. -/
def sampleMidPoints (verticesList : List (List Vec2)) : List Vec2 :=
  verticesList.filterMap (fun vertices => match vertices with
    | [a, b] => some ⟨(a.x + b.x) / 2, (a.y + b.y) / 2⟩
    | _ => none)

/-- The sample environment with a transform parser that answers every string with a list
holding one rotation, and with `sampleMidPoints` for the midpoints of a line. -/
def rotationEnv : Env :=
  { sampleEnv with parseTransformList := fun _ => some [.rotate 45 0 0],
                   getMidPoints := sampleMidPoints }

/-- Line placement (spacing 1/2) with a transform expression. -/
def rotatedLineParams : Params :=
  { sampleParams with placement := "line", transformExpression := some ⟨0⟩ }

/-- Line placement with spacing 0. -/
def zeroSpacingParams : Params := { sampleParams with placement := "line", spacing := 0 }

/-- The name of a procedural shape as it appears in the cache key. -/
def shapeName : Shape → String
  | .ellipse => "ellipse"
  | .arrow => "arrow"

/-- The size resolved for the selected procedural shape. -/
def shapeSize (E : Env) (P : Params) : ℚ × ℚ :=
  match selectShape E P with
  | .ellipse => ellipseSize E P
  | .arrow => arrowSize E P

/-- The cache key as a function of the shape parameter tuple: kind, width, height, fill,
stroke width, stroke colour. -/
def shapeKey (E : Env) (P : Params) : String :=
  markerKey E (shapeName (selectShape E P)) (shapeSize E P).1 (shapeSize E P).2
    (E.fromColorOpacity P.fill P.fillOpacity) P.strokeWidth
    (E.fromColorOpacity P.stroke P.strokeOpacity)

/-- Marker type `ellipse`, width bound to 20, stroke width 0, everything else as in the
sample parameters. -/
def redEllipseParams : Params :=
  { sampleParams with markerType := "ellipse", width := 20, widthDefined := true,
                      fill := ⟨0xffff0000⟩ }

/-- A collection of one point feature with one vertex. -/
def singlePoint : FeatureCollection := [⟨1, 101, .point [⟨1 / 2, 1 / 2⟩]⟩]

/-- Whether the geometry of a feature is of no supported class (or null). -/
def isUnsupported (f : Feature) : Bool :=
  match f.geometry with
  | .other => true
  | _ => false

/-- A state with its log forgotten. -/
def eraseLog (s : BuildState) : BuildState := { s with log := [] }

/-- Apply a function to the state an outcome carries. -/
def Outcome.mapState (f : BuildState → BuildState) : Outcome BuildState → Outcome BuildState
  | .done s => .done (f s)
  | .outOfFuel s => .outOfFuel (f s)

/-- Apply a function to the state an outcome of the `while` loop carries. -/
def Outcome.mapWalk (f : BuildState → BuildState) :
    Outcome (ℚ × BuildState) → Outcome (ℚ × BuildState)
  | .done (linePos, s) => .done (linePos, f s)
  | .outOfFuel s => .outOfFuel (f s)

/-- A point feature, a feature of unsupported geometry, a polygon feature. -/
def mixedFeatures : FeatureCollection :=
  [⟨1, 101, .point [⟨1 / 4, 1 / 4⟩]⟩, ⟨2, 102, .other⟩, ⟨3, 103, .polygon [[[⟨1 / 3, 1 / 3⟩]]]⟩]

/-! ## Vocabulary of the walk: the candidates it visits -/

/-- One evaluation of the body of the `while` loop: the segment, the cumulative scaled
length of the segments before it (a quantity the program does not keep; it is the exact sum
of the values of `lineLen`), the scaled length of the segment and the value of `linePos`. -/
structure Candidate where
  v0 : Vec2
  v1 : Vec2
  before : ℚ
  lineLen : ℚ
  linePos : ℚ
  deriving DecidableEq, Repr

/-- The position computed at line 180 for a candidate. -/
def Candidate.position (c : Candidate) : Vec2 :=
  c.v0.add ((c.v1.sub c.v0).smul (c.linePos / c.lineLen))

/-- The cumulative arc-length offset of a candidate along the vertex sequence. -/
def Candidate.offset (c : Candidate) : ℚ := c.before + c.linePos

/-- The values of `linePos` at which the `while` loop of lines 179 to 194 evaluates its
body, within `fuel` iterations: the loop without its effect on the state. `step` stands for
the binary32 sum `_spacing + bitmapSize`. -/
def whileCandidates (v0 v1 : Vec2) (before lineLen step : ℚ) : Nat → ℚ → List Candidate
  | 0, _ => []
  | fuel + 1, linePos =>
    if linePos < lineLen then
      ⟨v0, v1, before, lineLen, linePos⟩ ::
        whileCandidates v0 v1 before lineLen step fuel (floatAdd linePos step)
    else []

/-- The value of `linePos` with which the `while` loop is left, or `none` when `fuel`
iterations do not reach the exit. -/
def whileExit (lineLen step : ℚ) : Nat → ℚ → Option ℚ
  | 0, linePos => if linePos < lineLen then none else some linePos
  | fuel + 1, linePos =>
    if linePos < lineLen then whileExit lineLen step fuel (floatAdd linePos step)
    else some linePos

/-- One iteration of the `for` loop of lines 171 to 197: the segment, the cumulative scaled
length before it, its scaled length, and the value of `linePos` with which its `while` loop
is entered. -/
structure SegmentRun where
  v0 : Vec2
  v1 : Vec2
  before : ℚ
  lineLen : ℚ
  start : ℚ
  deriving DecidableEq, Repr

/-- The iterations of the `for` loop of lines 171 to 197 from index `i` on: the loop without
its effect on the state. The list ends early when a `while` loop runs out of fuel. -/
def segmentRuns (E : Env) (P : Params) (G : Glyph) (fuel : Nat) :
    Nat → List Vec2 → ℚ → ℚ → List SegmentRun
  | i, v0 :: v1 :: rest, before, linePos =>
    let lineLen := floatMul (E.length (v1.sub v0)) E.tileSize
    let linePos := if i = 1 then floatMul (min lineLen P.spacing) (1 / 2) else linePos
    ⟨v0, v1, before, lineLen, linePos⟩ ::
      match whileExit lineLen (floatAdd P.spacing (bitmapSize G)) fuel linePos with
      | some linePos =>
        segmentRuns E P G fuel (i + 1) (v1 :: rest) (before + lineLen) (floatSub linePos lineLen)
      | none => []
  | _, _, _, _ => []

/-- The candidates of one iteration of the `for` loop. -/
def runCandidates (P : Params) (G : Glyph) (fuel : Nat) (r : SegmentRun) : List Candidate :=
  whileCandidates r.v0 r.v1 r.before r.lineLen (floatAdd P.spacing (bitmapSize G)) fuel r.start

/-- The iterations of the `for` loop in the walk over one vertex sequence. -/
def walkRuns (E : Env) (P : Params) (G : Glyph) (fuel : Nat) (vertices : List Vec2) :
    List SegmentRun :=
  segmentRuns E P G fuel 1 vertices 0 0

/-- The candidates the walk over one vertex sequence visits, in order, before clipping. -/
def walkCandidates (E : Env) (P : Params) (G : Glyph) (fuel : Nat) (vertices : List Vec2) :
    List Candidate :=
  (walkRuns E P G fuel vertices).flatMap (runCandidates P G fuel)

/-- The effect of the body of the `while` loop at a candidate. -/
def emitCandidate (E : Env) (P : Params) (G : Glyph) (localId : Int) (s : BuildState)
    (c : Candidate) : BuildState :=
  walkEmit E P G localId c.v0 c.v1 c.lineLen c.linePos s

/-! ## Vocabulary of the walk: the walk in exact arithmetic

The quantities the claims about spacing speak of: what the walk would visit if the running
offset were computed without rounding. -/

/-- The values of `linePos` a `while` loop without rounding visits within `fuel` iterations. -/
def whileCandidatesExact (v0 v1 : Vec2) (before lineLen step : ℚ) : Nat → ℚ → List Candidate
  | 0, _ => []
  | fuel + 1, linePos =>
    if linePos < lineLen then
      ⟨v0, v1, before, lineLen, linePos⟩ ::
        whileCandidatesExact v0 v1 before lineLen step fuel (linePos + step)
    else []

/-- The value of `linePos` with which a `while` loop without rounding is left, or `none`
when `fuel` iterations do not reach the exit. -/
def whileExitExact (lineLen step : ℚ) : Nat → ℚ → Option ℚ
  | 0, linePos => if linePos < lineLen then none else some linePos
  | fuel + 1, linePos =>
    if linePos < lineLen then whileExitExact lineLen step fuel (linePos + step) else some linePos

/-- The iterations of the `for` loop from index `i` on, without rounding. -/
def segmentRunsExact (E : Env) (P : Params) (G : Glyph) (fuel : Nat) :
    Nat → List Vec2 → ℚ → ℚ → List SegmentRun
  | i, v0 :: v1 :: rest, before, linePos =>
    let lineLen := E.length (v1.sub v0) * E.tileSize
    let linePos := if i = 1 then min lineLen P.spacing * (1 / 2) else linePos
    ⟨v0, v1, before, lineLen, linePos⟩ ::
      match whileExitExact lineLen (P.spacing + bitmapSize G) fuel linePos with
      | some linePos =>
        segmentRunsExact E P G fuel (i + 1) (v1 :: rest) (before + lineLen) (linePos - lineLen)
      | none => []
  | _, _, _, _ => []

/-- The candidates of one iteration of the `for` loop, without rounding. -/
def runCandidatesExact (P : Params) (G : Glyph) (fuel : Nat) (r : SegmentRun) : List Candidate :=
  whileCandidatesExact r.v0 r.v1 r.before r.lineLen (P.spacing + bitmapSize G) fuel r.start

/-- The candidates a walk without rounding visits over one vertex sequence, in order. -/
def walkCandidatesExact (E : Env) (P : Params) (G : Glyph) (fuel : Nat) (vertices : List Vec2) :
    List Candidate :=
  (segmentRunsExact E P G fuel 1 vertices 0 0).flatMap (runCandidatesExact P G fuel)

/-- The scaled length of every segment of a vertex sequence is a whole multiple of `2^k`, and
together with one step of the walk it is at most `2^23` times `2^k`. -/
def ExactSegments (E : Env) (P : Params) (G : Glyph) (k : ℤ) : List Vec2 → Prop
  | v0 :: v1 :: rest =>
    ((∃ m : ℕ, E.length (v1.sub v0) * E.tileSize = (m : ℚ) * 2 ^ k) ∧
      E.length (v1.sub v0) * E.tileSize + (P.spacing + bitmapSize G) ≤ 2 ^ 23 * 2 ^ k) ∧
    ExactSegments E P G k (v1 :: rest)
  | _ => True

/-- A sufficient condition for the walk over a vertex sequence to be exact in binary32: the
spacing, the glyph footprint and the scaled length of every segment are whole multiples of
one power of two `2^k` with `k ≥ -148`, and no scaled length plus one step exceeds
`2^23` times `2^k`. Every value the running offset takes is then a multiple of `2^(k - 1)`
below `2^24` times `2^(k - 1)`, a binary32 value. -/
def ExactWalk (E : Env) (P : Params) (G : Glyph) (k : ℤ) (vertices : List Vec2) : Prop :=
  -148 ≤ k ∧ (∃ a : ℕ, P.spacing = (a : ℚ) * 2 ^ k) ∧ (∃ b : ℕ, bitmapSize G = (b : ℚ) * 2 ^ k) ∧
    ExactSegments E P G k vertices

/-- Every vertex sequence of every line feature of a collection satisfies `ExactWalk` for
some power of two. -/
def ExactWalks (E : Env) (P : Params) (G : Glyph) (fc : FeatureCollection) : Prop :=
  ∀ f ∈ fc, ∀ verticesList, f.geometry = .line verticesList →
    ∀ vertices ∈ verticesList, ∃ k, ExactWalk E P G k vertices

/-- The total scaled length of a vertex sequence (the exact sum of the exact products). -/
def totalLength (E : Env) : List Vec2 → ℚ
  | v0 :: v1 :: rest => E.length (v1.sub v0) * E.tileSize + totalLength E (v1 :: rest)
  | _ => 0

/-- The starting offset of the walk in exact arithmetic: half of the smaller of the first
segment length and the spacing (0 for a vertex sequence without a segment). -/
def startOffset (E : Env) (P : Params) : List Vec2 → ℚ
  | v0 :: v1 :: _ => min (E.length (v1.sub v0) * E.tileSize) P.spacing / 2
  | _ => 0

/-- The number of records of a builder call. -/
def BuilderCall.recordCount (c : BuilderCall) : Nat :=
  c.pointRecords.length + c.labelRecords.length

/-- The positions of the records of a builder call. -/
def BuilderCall.positions (c : BuilderCall) : List Position :=
  c.pointRecords.map (fun r => Position.vertex r.2) ++ c.labelRecords.map (fun r => r.2.position)

/-- The cumulative arc-length offsets of the placements the walk over one vertex sequence
emits: those of its candidates that pass the clip test, in order. -/
def emittedOffsets (E : Env) (P : Params) (G : Glyph) (fuel : Nat) (vertices : List Vec2) :
    List ℚ :=
  ((walkCandidates E P G fuel vertices).filter (fun c => insideTile c.position)).map
    Candidate.offset

/-- The active queue of a state is empty: the point queue under `allow-overlap`, the label
queue without it. -/
def QueueEmpty (P : Params) (s : BuildState) : Prop :=
  (P.allowOverlap = true → s.pointInfos = []) ∧ (P.allowOverlap = false → s.labelInfos = [])

/-- One line feature with two vertex sequences, the first of them empty. -/
def sparseLine : FeatureCollection :=
  [⟨7, 70, .line [[], [⟨1 / 4, 1 / 4⟩, ⟨3 / 4, 1 / 4⟩]]⟩]

/-- A collinear line of three segments of lengths 1/4, 1/4 and 1/2 along `y = 1/2`. -/
def dyadicSegments : List Vec2 := [⟨0, 1 / 2⟩, ⟨1 / 4, 1 / 2⟩, ⟨1 / 2, 1 / 2⟩, ⟨1, 1 / 2⟩]

/-- Line placement with spacing `13421773 / 2^26`, the binary32 value nearest to 0.2. -/
def fifthParams : Params :=
  { sampleParams with placement := "line", spacing := 13421773 / 67108864 }

/-- The segment from `(1/2, 1/2)` to `(13421773 / 2^24, 1/2)`; the second `x` is the binary32
value nearest to 0.8, and the length `5033165 / 2^24` is a binary32 value as well. -/
def shortSegment : List Vec2 := [⟨1 / 2, 1 / 2⟩, ⟨13421773 / 16777216, 1 / 2⟩]

/-- A segment of length 8388610 (`2^23 + 2`) along `y = 2`. -/
def longSegment : List Vec2 := [⟨0, 2⟩, ⟨8388610, 2⟩]

/-- A vertex sequence that starts on the left edge of the tile and leaves it on the right:
with spacing 1/2 and zero footprint its candidates are at `x = 0` (the first segment has
length 0), `1/2`, `1` and `3/2`. -/
def edgeSegments : List Vec2 := [⟨0, 1 / 2⟩, ⟨0, 1 / 2⟩, ⟨2, 1 / 2⟩]

end MarkersSymbolizer

/-! # Properties -/

namespace MarkersSymbolizer

/-! ## Binary32 rounding: the facts the walk needs -/

/-- Halving finds no digit in 0. -/
theorem bitLengthAux_zero (fuel : Nat) : bitLengthAux fuel 0 = 0 := by
  cases fuel <;> simp [bitLengthAux]

/-- With enough fuel, `n` has exactly `bitLengthAux fuel n` binary digits. -/
theorem bitLengthAux_spec : ∀ (fuel n : Nat), n ≤ fuel →
    n < 2 ^ bitLengthAux fuel n ∧ (n ≠ 0 → 2 ^ bitLengthAux fuel n ≤ 2 * n) := by
  intro fuel
  induction fuel with
  | zero =>
    intro n hn
    have h0 : n = 0 := by omega
    subst h0
    simp [bitLengthAux]
  | succ f ih =>
    intro n hn
    by_cases h0 : n = 0
    · subst h0
      simp [bitLengthAux]
    · have hn2 : n / 2 ≤ f := by omega
      obtain ⟨h1, h2⟩ := ih (n / 2) hn2
      simp only [bitLengthAux, h0, if_false, pow_succ]
      refine ⟨by omega, fun _ => ?_⟩
      by_cases h3 : n / 2 = 0
      · rw [h3, bitLengthAux_zero]
        simp only [pow_zero]
        omega
      · have := h2 h3
        omega

/-- A positive `n` lies between `2^(bitLength n - 1)` and `2^(bitLength n)`. -/
theorem bitLength_spec (n : Nat) :
    n < 2 ^ bitLength n ∧ (n ≠ 0 → 2 ^ bitLength n ≤ 2 * n) :=
  bitLengthAux_spec n n (le_refl n)

/-- The binade of a rational other than 0 brackets its magnitude. -/
theorem binade_spec (x : ℚ) (hx : x ≠ 0) :
    (2 : ℚ) ^ binade x ≤ |x| ∧ |x| < (2 : ℚ) ^ (binade x + 1) := by
  have habs : |x| = (x.num.natAbs : ℚ) / (x.den : ℚ) := by
    conv_lhs => rw [← Rat.num_div_den x]
    rw [abs_div, Nat.abs_cast, Nat.cast_natAbs, Int.cast_abs]
  have hn0 : x.num.natAbs ≠ 0 := by
    intro h
    exact hx (Rat.zero_of_num_zero (Int.natAbs_eq_zero.1 h))
  have hd0 : x.den ≠ 0 := x.den_nz
  obtain ⟨n1, n2⟩ := bitLength_spec x.num.natAbs
  obtain ⟨d1, d2⟩ := bitLength_spec x.den
  have n2 := n2 hn0
  have d2 := d2 hd0
  have N1 : (x.num.natAbs : ℚ) < (2 : ℚ) ^ bitLength x.num.natAbs := by exact_mod_cast n1
  have N2 : (2 : ℚ) ^ bitLength x.num.natAbs ≤ 2 * (x.num.natAbs : ℚ) := by exact_mod_cast n2
  have D1 : (x.den : ℚ) < (2 : ℚ) ^ bitLength x.den := by exact_mod_cast d1
  have D2 : (2 : ℚ) ^ bitLength x.den ≤ 2 * (x.den : ℚ) := by exact_mod_cast d2
  have hD : (0 : ℚ) < x.den := by exact_mod_cast Nat.pos_of_ne_zero hd0
  have hN : (0 : ℚ) < x.num.natAbs := by exact_mod_cast Nat.pos_of_ne_zero hn0
  have hA : (0 : ℚ) < (2 : ℚ) ^ bitLength x.num.natAbs := by positivity
  have hB : (0 : ℚ) < (2 : ℚ) ^ bitLength x.den := by positivity
  have he : (2 : ℚ) ^ ((bitLength x.num.natAbs : ℤ) - (bitLength x.den : ℤ)) =
      (2 : ℚ) ^ bitLength x.num.natAbs / (2 : ℚ) ^ bitLength x.den := by
    rw [zpow_sub₀ (by norm_num), zpow_natCast, zpow_natCast]
  have hlow : (2 : ℚ) ^ ((bitLength x.num.natAbs : ℤ) - (bitLength x.den : ℤ) - 1) ≤ |x| := by
    rw [zpow_sub_one₀ (by norm_num), he, habs, div_mul_eq_mul_div, div_le_div_iff₀ hB hD]
    have : (2 : ℚ) ^ bitLength x.num.natAbs * 2⁻¹ ≤ (x.num.natAbs : ℚ) := by linarith
    calc (2 : ℚ) ^ bitLength x.num.natAbs * 2⁻¹ * (x.den : ℚ)
        ≤ (x.num.natAbs : ℚ) * (x.den : ℚ) := mul_le_mul_of_nonneg_right this (le_of_lt hD)
      _ ≤ (x.num.natAbs : ℚ) * (2 : ℚ) ^ bitLength x.den :=
          mul_le_mul_of_nonneg_left (le_of_lt D1) (le_of_lt hN)
  have hup : |x| < (2 : ℚ) ^ ((bitLength x.num.natAbs : ℤ) - (bitLength x.den : ℤ) + 1) := by
    rw [zpow_add_one₀ (by norm_num), he, habs, div_mul_eq_mul_div, div_lt_div_iff₀ hD hB]
    calc (x.num.natAbs : ℚ) * (2 : ℚ) ^ bitLength x.den
        ≤ (x.num.natAbs : ℚ) * (2 * (x.den : ℚ)) := mul_le_mul_of_nonneg_left D2 (le_of_lt hN)
      _ < (2 : ℚ) ^ bitLength x.num.natAbs * (2 * (x.den : ℚ)) :=
          mul_lt_mul_of_pos_right N1 (by linarith)
      _ = (2 : ℚ) ^ bitLength x.num.natAbs * 2 * (x.den : ℚ) := by ring
  unfold binade
  simp only
  split
  · next h => exact ⟨h, hup⟩
  · next h =>
    refine ⟨hlow, ?_⟩
    rw [sub_add_cancel]
    exact lt_of_not_le h

/-- The rounded integer is the floor or the floor plus one. -/
theorem roundHalfEven_floor (x : ℚ) : ⌊x⌋ ≤ roundHalfEven x ∧ roundHalfEven x ≤ ⌊x⌋ + 1 := by
  unfold roundHalfEven
  split_ifs <;> omega

/-- An integer rounds to itself. -/
theorem roundHalfEven_intCast (n : ℤ) : roundHalfEven (n : ℚ) = n := by
  unfold roundHalfEven
  simp

/-- Rounding to the nearest integer is monotone. -/
theorem roundHalfEven_mono {x y : ℚ} (h : x ≤ y) : roundHalfEven x ≤ roundHalfEven y := by
  have hf : ⌊x⌋ ≤ ⌊y⌋ := Int.floor_mono h
  rcases lt_or_eq_of_le hf with hlt | heq
  · have h1 := (roundHalfEven_floor x).2
    have h2 := (roundHalfEven_floor y).1
    omega
  · unfold roundHalfEven
    rw [← heq]
    have hxy : x - ⌊x⌋ ≤ y - ⌊x⌋ := by linarith
    split_ifs <;> first | omega | (exfalso; linarith)

/-- The spacing of the binary32 values is positive. -/
theorem ulp_pos (x : ℚ) : 0 < ulp x := zpow_pos (by norm_num) _

/-- The spacing is at least `2^-149`, the smallest positive binary32 value. -/
theorem ulp_exponent (x : ℚ) : -149 ≤ max (binade x) (-126) - 23 := by
  have := le_max_right (binade x) (-126)
  omega

/-- A positive rational is less than `2^24` spacings. -/
theorem lt_ulp (x : ℚ) (hx : 0 < x) : x < 2 ^ 24 * ulp x := by
  have h1 := (binade_spec x (ne_of_gt hx)).2
  rw [abs_of_pos hx] at h1
  have h2 : (2 : ℚ) ^ (binade x + 1) ≤ (2 : ℚ) ^ (max (binade x) (-126) + 1) :=
    zpow_le_zpow_right₀ (by norm_num) (by have := le_max_left (binade x) (-126); omega)
  have h3 : (2 : ℚ) ^ 24 * ulp x = (2 : ℚ) ^ (max (binade x) (-126) + 1) := by
    unfold ulp
    rw [show max (binade x) (-126) + 1 = 24 + (max (binade x) (-126) - 23) by ring,
      zpow_add₀ (by norm_num)]
    norm_num
  rw [h3]
  exact lt_of_lt_of_le h1 h2

/-- A positive rational in the normal range is at least `2^23` spacings. -/
theorem ulp_le (x : ℚ) (hx : 0 < x) (hn : -126 ≤ binade x) :
    2 ^ 23 * ulp x = (2 : ℚ) ^ binade x ∧ 2 ^ 23 * ulp x ≤ x := by
  have h1 := (binade_spec x (ne_of_gt hx)).1
  rw [abs_of_pos hx] at h1
  have h3 : (2 : ℚ) ^ 23 * ulp x = (2 : ℚ) ^ binade x := by
    unfold ulp
    rw [max_eq_left hn]
    conv_rhs => rw [show binade x = 23 + (binade x - 23) by ring, zpow_add₀ (by norm_num)]
    norm_num
  exact ⟨h3, by rw [h3]; exact h1⟩

/-- The binade grows with the magnitude. -/
theorem binade_mono {x y : ℚ} (hx : 0 < x) (hxy : x ≤ y) : binade x ≤ binade y := by
  have h1 := (binade_spec x (ne_of_gt hx)).1
  have h2 := (binade_spec y (ne_of_gt (lt_of_lt_of_le hx hxy))).2
  rw [abs_of_pos hx] at h1
  rw [abs_of_pos (lt_of_lt_of_le hx hxy)] at h2
  have h3 : (2 : ℚ) ^ binade x < (2 : ℚ) ^ (binade y + 1) := by linarith
  have := (zpow_lt_zpow_iff_right₀ (by norm_num : (1 : ℚ) < 2)).1 h3
  omega

/-- Rounding a non-negative rational gives a non-negative rational. -/
theorem roundMagnitude_nonneg (x : ℚ) (hx : 0 ≤ x) : 0 ≤ roundMagnitude x := by
  unfold roundMagnitude
  have h0 : (0 : ℚ) ≤ x / ulp x := div_nonneg hx (le_of_lt (ulp_pos x))
  have h1 : (0 : ℤ) ≤ roundHalfEven (x / ulp x) := by
    have := roundHalfEven_mono h0
    rwa [show ((0 : ℚ)) = ((0 : ℤ) : ℚ) by norm_num, roundHalfEven_intCast] at this
  exact mul_nonneg (by exact_mod_cast h1) (le_of_lt (ulp_pos x))

/-- Zero rounds to zero. -/
theorem roundMagnitude_zero : roundMagnitude 0 = 0 := by
  unfold roundMagnitude
  rw [zero_div, show ((0 : ℚ)) = ((0 : ℤ) : ℚ) by norm_num, roundHalfEven_intCast]
  simp

/-- The significand of a rounded non-negative rational is at most `2^24`. -/
theorem roundHalfEven_ulp_le (x : ℚ) (hx : 0 ≤ x) : roundHalfEven (x / ulp x) ≤ 2 ^ 24 := by
  rcases eq_or_lt_of_le hx with h0 | h0
  · rw [← h0, zero_div, show ((0 : ℚ)) = ((0 : ℤ) : ℚ) by norm_num, roundHalfEven_intCast]
    norm_num
  · have h1 : x / ulp x ≤ ((2 ^ 24 : ℤ) : ℚ) := by
      rw [div_le_iff₀ (ulp_pos x)]
      push_cast
      exact le_of_lt (lt_ulp x h0)
    have := roundHalfEven_mono h1
    rwa [roundHalfEven_intCast] at this

/-- Rounding of non-negative rationals is monotone. -/
theorem roundMagnitude_mono {x y : ℚ} (hx : 0 ≤ x) (hxy : x ≤ y) :
    roundMagnitude x ≤ roundMagnitude y := by
  rcases eq_or_lt_of_le hx with h0 | h0
  · rw [← h0, roundMagnitude_zero]
    exact roundMagnitude_nonneg y (le_trans hx hxy)
  · have hy : 0 < y := lt_of_lt_of_le h0 hxy
    have hb := binade_mono h0 hxy
    have he : max (binade x) (-126) ≤ max (binade y) (-126) := max_le_max hb (le_refl _)
    rcases eq_or_lt_of_le he with heq | hlt
    · have hu : ulp x = ulp y := by unfold ulp; rw [heq]
      unfold roundMagnitude
      rw [hu]
      have h1 : x / ulp y ≤ y / ulp y := div_le_div_of_nonneg_right hxy (le_of_lt (ulp_pos y))
      have h2 := roundHalfEven_mono h1
      exact mul_le_mul_of_nonneg_right (by exact_mod_cast h2) (le_of_lt (ulp_pos y))
    · have hny : -126 ≤ binade y := by
        by_contra hc
        have h1 : max (binade y) (-126) = -126 := max_eq_right (by omega)
        have h2 := le_max_right (binade x) (-126)
        omega
      have hmy : max (binade y) (-126) = binade y := max_eq_left hny
      have h1 : roundMagnitude x ≤ 2 ^ 24 * ulp x := by
        unfold roundMagnitude
        have := roundHalfEven_ulp_le x hx
        have hc : ((roundHalfEven (x / ulp x) : ℤ) : ℚ) ≤ 2 ^ 24 := by exact_mod_cast this
        exact mul_le_mul_of_nonneg_right hc (le_of_lt (ulp_pos x))
      have h2 : (2 : ℚ) ^ 24 * ulp x ≤ 2 ^ 23 * ulp y := by
        have e1 : (2 : ℚ) ^ 24 * ulp x = (2 : ℚ) ^ (max (binade x) (-126) + 1) := by
          unfold ulp
          rw [show max (binade x) (-126) + 1 = 24 + (max (binade x) (-126) - 23) by ring,
            zpow_add₀ (by norm_num)]
          norm_num
        rw [e1, (ulp_le y hy hny).1]
        exact zpow_le_zpow_right₀ (by norm_num) (by omega)
      have h3 : 2 ^ 23 * ulp y ≤ roundMagnitude y := by
        unfold roundMagnitude
        have h4 : (((2 ^ 23 : ℤ)) : ℚ) ≤ y / ulp y := by
          rw [le_div_iff₀ (ulp_pos y)]
          push_cast
          exact (ulp_le y hy hny).2
        have h5 := roundHalfEven_mono h4
        rw [roundHalfEven_intCast] at h5
        have hc : (2 : ℚ) ^ 23 ≤ ((roundHalfEven (y / ulp y) : ℤ) : ℚ) := by exact_mod_cast h5
        exact mul_le_mul_of_nonneg_right hc (le_of_lt (ulp_pos y))
      linarith

/-- Zero is a binary32 value. -/
theorem roundFloat_zero : roundFloat 0 = 0 := by
  unfold roundFloat
  simp [roundMagnitude_zero]

/-- Rounding to binary32 keeps the sign. -/
theorem roundFloat_nonneg {x : ℚ} (hx : 0 ≤ x) : 0 ≤ roundFloat x := by
  unfold roundFloat
  rw [if_neg (not_lt.2 hx)]
  exact roundMagnitude_nonneg x hx

/-- Rounding to binary32 is monotone. -/
theorem roundFloat_mono {x y : ℚ} (hxy : x ≤ y) : roundFloat x ≤ roundFloat y := by
  unfold roundFloat
  by_cases hx : x < 0
  · by_cases hy : y < 0
    · rw [if_pos hx, if_pos hy]
      have := roundMagnitude_mono (x := -y) (y := -x) (by linarith) (by linarith)
      linarith
    · rw [if_pos hx, if_neg hy]
      have h1 := roundMagnitude_nonneg (-x) (by linarith)
      have h2 := roundMagnitude_nonneg y (not_lt.1 hy)
      linarith
  · have hy : ¬ y < 0 := by
      intro h
      exact hx (lt_of_le_of_lt hxy h)
    rw [if_neg hx, if_neg hy]
    exact roundMagnitude_mono (not_lt.1 hx) hxy

/-- A whole multiple `n 2^j` of a power of two with `n ≤ 2^24` and `j ≥ -149` is a binary32
value: rounding leaves it as it is. -/
theorem roundFloat_grid (j : ℤ) (hj : -149 ≤ j) (n : ℕ) (hn : n ≤ 2 ^ 24) :
    roundFloat ((n : ℚ) * 2 ^ j) = (n : ℚ) * 2 ^ j := by
  have h2 : (0 : ℚ) < (2 : ℚ) ^ j := zpow_pos (by norm_num) _
  rcases Nat.eq_zero_or_pos n with h0 | h0
  · subst h0
    simp [roundFloat_zero]
  · have hx : 0 < (n : ℚ) * 2 ^ j := mul_pos (by exact_mod_cast h0) h2
    unfold roundFloat
    rw [if_neg (not_lt.2 (le_of_lt hx))]
    have hz : ∃ z : ℤ, (n : ℚ) * 2 ^ j / ulp ((n : ℚ) * 2 ^ j) = (z : ℚ) := by
      unfold ulp
      rw [mul_div_assoc, ← zpow_sub₀ (by norm_num)]
      rcases le_or_lt (max (binade ((n : ℚ) * 2 ^ j)) (-126) - 23) j with hc | hc
      · obtain ⟨k, hk⟩ := Int.eq_ofNat_of_zero_le
          (show 0 ≤ j - (max (binade ((n : ℚ) * 2 ^ j)) (-126) - 23) by omega)
        refine ⟨(n : ℤ) * 2 ^ k, ?_⟩
        rw [hk, zpow_natCast]
        push_cast
        rfl
      · have hb : max (binade ((n : ℚ) * 2 ^ j)) (-126) = binade ((n : ℚ) * 2 ^ j) := by
          apply max_eq_left
          by_contra hcon
          have := max_eq_right (le_of_lt (not_le.1 hcon))
          omega
        rw [hb] at hc ⊢
        have h1 := (binade_spec _ (ne_of_gt hx)).1
        rw [abs_of_pos hx] at h1
        have hn' : (n : ℚ) ≤ 2 ^ 24 := by exact_mod_cast hn
        have h3 : (n : ℚ) * 2 ^ j ≤ (2 : ℚ) ^ (j + 24) := by
          rw [zpow_add₀ (by norm_num), mul_comm ((2 : ℚ) ^ j)]
          exact mul_le_mul_of_nonneg_right (by exact_mod_cast hn') (le_of_lt h2)
        have h4 : binade ((n : ℚ) * 2 ^ j) ≤ j + 24 :=
          (zpow_le_zpow_iff_right₀ (by norm_num : (1 : ℚ) < 2)).1 (le_trans h1 h3)
        have h5 : binade ((n : ℚ) * 2 ^ j) = j + 24 := by omega
        rw [h5] at h1 ⊢
        have h6 : (2 : ℚ) ^ 24 ≤ (n : ℚ) := by
          rw [zpow_add₀ (by norm_num), mul_comm ((2 : ℚ) ^ j)] at h1
          exact le_of_mul_le_mul_right (by exact_mod_cast h1) h2
        have h7 : (n : ℚ) = 2 ^ 24 := le_antisymm hn' h6
        refine ⟨2 ^ 23, ?_⟩
        rw [h7, show j - (j + 24 - 23) = -1 by ring]
        norm_num
    obtain ⟨z, hz⟩ := hz
    unfold roundMagnitude
    rw [hz, roundHalfEven_intCast, ← hz]
    exact div_mul_cancel₀ _ (ne_of_gt (ulp_pos _))

/-- The rounding of a non-negative rational is a binary32 value. -/
theorem roundFloat_roundMagnitude (x : ℚ) (hx : 0 ≤ x) :
    roundFloat (roundMagnitude x) = roundMagnitude x := by
  have h0 : (0 : ℤ) ≤ roundHalfEven (x / ulp x) := by
    have h0 : (0 : ℚ) ≤ x / ulp x := div_nonneg hx (le_of_lt (ulp_pos x))
    have := roundHalfEven_mono h0
    rwa [show ((0 : ℚ)) = ((0 : ℤ) : ℚ) by norm_num, roundHalfEven_intCast] at this
  obtain ⟨n, hn⟩ := Int.eq_ofNat_of_zero_le h0
  have hle := roundHalfEven_ulp_le x hx
  rw [hn] at hle
  have hn24 : n ≤ 2 ^ 24 := by exact_mod_cast hle
  have := roundFloat_grid (max (binade x) (-126) - 23) (ulp_exponent x) n hn24
  unfold roundMagnitude
  rw [hn]
  exact this

/-- The rounding at some known places: the binary32 values nearest to 0.1 and 0.3, a tie
at `2^23` (to the even neighbour below) and at `2^23 + 1` (to the even neighbour above), and
half and three halves of the smallest positive value `2^-149`. -/
theorem roundFloat_samples :
    roundFloat (1 / 10) = 13421773 / 134217728 ∧ roundFloat (3 / 10) = 5033165 / 16777216 ∧
    roundFloat (8388608 + 1 / 2) = 8388608 ∧ roundFloat (8388609 + 1 / 2) = 8388610 ∧
    roundFloat (-(3 / 10)) = -(5033165 / 16777216) ∧
    roundFloat (1 / 2 ^ 150) = 0 ∧ roundFloat (3 / 2 ^ 150) = 1 / 2 ^ 148 := by
  decide!

/-- Every rounded value is a binary32 value: rounding it again changes nothing. -/
theorem roundFloat_idem (x : ℚ) : roundFloat (roundFloat x) = roundFloat x := by
  by_cases hx : x < 0
  · have hr : roundFloat x = -roundMagnitude (-x) := by unfold roundFloat; rw [if_pos hx]
    rw [hr]
    have h0 := roundMagnitude_nonneg (-x) (by linarith)
    rcases eq_or_lt_of_le h0 with h1 | h1
    · rw [← h1, neg_zero, roundFloat_zero]
    · have h2 : -roundMagnitude (-x) < 0 := by linarith
      have h3 := roundFloat_roundMagnitude (-x) (by linarith)
      have h4 : roundFloat (roundMagnitude (-x)) = roundMagnitude (roundMagnitude (-x)) := by
        unfold roundFloat
        rw [if_neg (not_lt.2 h0)]
      conv_lhs => unfold roundFloat
      rw [if_pos h2, neg_neg, ← h4, h3]
  · have hr : roundFloat x = roundMagnitude x := by unfold roundFloat; rw [if_neg hx]
    rw [hr]
    exact roundFloat_roundMagnitude x (not_lt.1 hx)

end MarkersSymbolizer

namespace MarkersSymbolizer

/-! ## Invariants carried through the loops -/

/-- The body of the `while` loop keeps an invariant of the primitive steps. -/
theorem walkEmit_inv {E : Env} {P : Params} {G : Glyph} {Inv : BuildState → Prop}
    (h : Preserved E P G Inv) (localId : Int) (v0 v1 : Vec2) (lineLen linePos : ℚ)
    (s : BuildState) (hs : Inv s) : Inv (walkEmit E P G localId v0 v1 lineLen linePos s) := by
  unfold walkEmit
  by_cases hin : insideTile (v0.add ((v1.sub v0).smul (linePos / lineLen))) = true
  · simp only [hin, if_true]
    exact h.2.1 _ _ (h.1 _ _ _ _ hs)
  · simp only [hin]
    exact hs

/-- The `while` loop keeps an invariant of the primitive steps, also when it runs out of fuel. -/
theorem whileLoop_inv {E : Env} {P : Params} {G : Glyph} {Inv : BuildState → Prop}
    (h : Preserved E P G Inv) (localId : Int) (v0 v1 : Vec2) (lineLen : ℚ) (fuel : Nat) :
    ∀ (linePos : ℚ) (s : BuildState), Inv s →
      Inv (whileLoop E P G localId v0 v1 lineLen fuel linePos s).walkState := by
  induction fuel with
  | zero =>
    intro linePos s hs
    unfold whileLoop
    split <;> exact hs
  | succ n ih =>
    intro linePos s hs
    unfold whileLoop
    split
    · exact ih _ _ (walkEmit_inv h localId v0 v1 lineLen linePos s hs)
    · exact hs

/-- The segment loop keeps an invariant of the primitive steps. -/
theorem segmentLoop_inv {E : Env} {P : Params} {G : Glyph} {Inv : BuildState → Prop}
    (h : Preserved E P G Inv) (fuel : Nat) (localId : Int) (vertices : List Vec2) :
    ∀ (i : Nat) (linePos : ℚ) (s : BuildState), Inv s →
      Inv (segmentLoop E P G fuel localId i vertices linePos s).state := by
  induction vertices with
  | nil => intro i linePos s hs; simpa [segmentLoop, Outcome.state] using hs
  | cons v0 tl ih =>
    intro i linePos s hs
    cases tl with
    | nil => simpa [segmentLoop, Outcome.state] using hs
    | cons v1 rest =>
      simp only [segmentLoop]
      have hw := whileLoop_inv h localId v0 v1 (floatMul (E.length (v1.sub v0)) E.tileSize) fuel
        (if i = 1 then floatMul (min (floatMul (E.length (v1.sub v0)) E.tileSize) P.spacing)
          (1 / 2) else linePos)
        s hs
      revert hw
      cases whileLoop E P G localId v0 v1 (floatMul (E.length (v1.sub v0)) E.tileSize) fuel
        (if i = 1 then floatMul (min (floatMul (E.length (v1.sub v0)) E.tileSize) P.spacing)
          (1 / 2) else linePos)
        s with
      | done r =>
        obtain ⟨lp, s1⟩ := r
        intro hw
        exact ih (i + 1) _ s1 hw
      | outOfFuel s1 => intro hw; exact hw

/-- The walk over one vertex sequence keeps an invariant of the primitive steps. -/
theorem walkVertices_inv {E : Env} {P : Params} {G : Glyph} {Inv : BuildState → Prop}
    (h : Preserved E P G Inv) (fuel : Nat) (localId : Int) (vertices : List Vec2)
    (s : BuildState) (hs : Inv s) :
    Inv (walkVertices E P G fuel localId vertices s).state :=
  segmentLoop_inv h fuel localId vertices 1 0 _ (h.2.1 s P.transform hs)

/-- The loop over the vertex sequences keeps an invariant of the primitive steps. -/
theorem verticesListLoop_inv {E : Env} {P : Params} {G : Glyph} {Inv : BuildState → Prop}
    (h : Preserved E P G Inv) (fuel : Nat) (localId globalId : Int)
    (verticesList : List (List Vec2)) :
    ∀ (s : BuildState), Inv s →
      Inv (verticesListLoop E P G fuel localId globalId verticesList s).state := by
  induction verticesList with
  | nil => intro s hs; simpa [verticesListLoop, Outcome.state] using hs
  | cons vertices rest ih =>
    intro s hs
    unfold verticesListLoop
    split
    · exact ih _ (h.1 _ _ _ _ hs)
    · have hw := walkVertices_inv h fuel localId vertices s hs
      revert hw
      cases walkVertices E P G fuel localId vertices s with
      | done s1 => intro hw; exact ih s1 hw
      | outOfFuel s1 => intro hw; exact hw

/-- The loops over vertices keep an invariant of the primitive steps. -/
theorem addVertices_inv {E : Env} {P : Params} {G : Glyph} {Inv : BuildState → Prop}
    (h : Preserved E P G Inv) (localId globalId : Int) (vertices : List Vec2) :
    ∀ (s : BuildState), Inv s → Inv (addVertices E P G localId globalId vertices s) := by
  induction vertices with
  | nil => intro s hs; simpa [addVertices] using hs
  | cons v rest ih => intro s hs; exact ih _ (h.1 _ _ _ _ hs)

/-- The body of the geometry loop keeps an invariant of the primitive steps. -/
theorem buildFeature_inv {E : Env} {P : Params} {G : Glyph} {Inv : BuildState → Prop}
    (h : Preserved E P G Inv) (fuel : Nat) (f : Feature) (s : BuildState) (hs : Inv s) :
    Inv (buildFeature E P G fuel f s).state := by
  unfold buildFeature
  split
  · exact addVertices_inv h _ _ _ s hs
  · split
    · exact verticesListLoop_inv h fuel _ _ _ s hs
    · exact addVertices_inv h _ _ _ s hs
  · exact addVertices_inv h _ _ _ s hs
  · exact h.2.2 _ _ _ hs

/-- The geometry loop keeps an invariant of the primitive steps. -/
theorem featureLoop_inv {E : Env} {P : Params} {G : Glyph} {Inv : BuildState → Prop}
    (h : Preserved E P G Inv) (fuel : Nat) (fc : FeatureCollection) :
    ∀ (s : BuildState), Inv s → Inv (featureLoop E P G fuel fc s).state := by
  induction fc with
  | nil => intro s hs; simpa [featureLoop, Outcome.state] using hs
  | cons f rest ih =>
    intro s hs
    unfold featureLoop
    have hw := buildFeature_inv h fuel f s hs
    revert hw
    cases buildFeature E P G fuel f s with
    | done s1 => intro hw; exact ih s1 hw
    | outOfFuel s1 => intro hw; exact hw

/-- An invariant of the primitive steps that holds when the geometry loop is entered holds in
every state a `build` call that resolved its glyph reaches, finished or not. -/
theorem build_inv {E : Env} {P : Params} {G : Glyph} {Inv : BuildState → Prop}
    (fuel : Nat) (fc : FeatureCollection) (cache cache1 : BitmapCache)
    (hG : resolveGlyph E P cache = some (G, cache1)) (h : Preserved E P G Inv)
    (h0 : Inv (BuildState.initial cache1)) : Inv (build E P fuel fc cache).state := by
  simp only [build, hG]
  have hw := featureLoop_inv h fuel fc _ h0
  revert hw
  cases featureLoop E P G fuel fc (BuildState.initial cache1) with
  | done s1 => intro hw; exact h.2.1 _ _ hw
  | outOfFuel s1 => intro hw; exact hw

end MarkersSymbolizer

namespace MarkersSymbolizer

/-! ## Routing, delivery and glyph invariants -/

/-- The routing invariant: every builder call is on the path chosen by `allow-overlap`, the
queue of the other path is empty, and every label record carries group 0 when overlap is
not allowed. -/
theorem routing_preserved (E : Env) (P : Params) (G : Glyph) :
    Preserved E P G (fun s =>
      (∀ c ∈ s.calls, c.isAddPoints = P.allowOverlap ∧
        (P.allowOverlap = false → ∀ r ∈ c.labelRecords, r.2.groupId = 0)) ∧
      (P.allowOverlap = true → s.labelInfos = []) ∧
      (P.allowOverlap = false → s.pointInfos = [] ∧ ∀ r ∈ s.labelInfos, r.2.groupId = 0)) := by
  refine ⟨?_, ?_, ?_⟩
  · intro s localId globalId position hs
    obtain ⟨h1, h2, h3⟩ := hs
    cases hA : P.allowOverlap with
    | true =>
      refine ⟨?_, ?_, ?_⟩
      · intro c hc
        have hc1 : c ∈ s.calls := by
          unfold addPoint at hc
          simp only [hA, if_true] at hc
          split at hc
          · exact hc
          · split at hc <;> exact hc
        simpa [hA] using h1 c hc1
      · intro _
        unfold addPoint
        simp only [hA, if_true]
        split
        · exact h2 hA
        · split <;> exact h2 hA
      · intro hf; cases hf
    | false =>
      have h3a := h3 hA
      refine ⟨?_, ?_, ?_⟩
      · intro c hc
        have hc1 : c ∈ s.calls := by
          simpa [addPoint, hA] using hc
        simpa [hA] using h1 c hc1
      · intro hf; cases hf
      · intro _
        refine ⟨?_, ?_⟩
        · simpa [addPoint, hA] using h3a.1
        · intro r hr
          simp only [addPoint, hA, Bool.false_eq_true, if_false, List.mem_append,
            List.mem_singleton] at hr
          rcases hr with hr | hr
          · exact h3a.2 r hr
          · subst hr
            simp [groupIdOf, hA]
  · intro s transform hs
    obtain ⟨h1, h2, h3⟩ := hs
    cases hA : P.allowOverlap with
    | true =>
      refine ⟨?_, ?_, ?_⟩
      · intro c hc
        simp only [flushPoints, hA, if_true, List.mem_append, List.mem_singleton] at hc
        rcases hc with hc | hc
        · simpa [hA] using h1 c hc
        · subst hc
          simp [BuilderCall.isAddPoints]
      · intro _
        simpa [flushPoints, hA] using h2 hA
      · intro hf; cases hf
    | false =>
      have h3a := h3 hA
      refine ⟨?_, ?_, ?_⟩
      · intro c hc
        simp only [flushPoints, hA, Bool.false_eq_true, if_false, List.mem_append,
          List.mem_singleton] at hc
        rcases hc with hc | hc
        · simpa [hA] using h1 c hc
        · subst hc
          refine ⟨by simp [BuilderCall.isAddPoints], ?_⟩
          intro _ r hr
          exact h3a.2 r (by simpa [BuilderCall.labelRecords] using hr)
      · intro hf; cases hf
      · intro _
        refine ⟨?_, ?_⟩
        · simpa [flushPoints, hA] using h3a.1
        · intro r hr
          simp [flushPoints, hA] at hr
  · intro s severity message hs
    exact hs

/-- The delivery invariant: what the builder has received so far, followed by what is still
queued, is the list of records of the placements handed to `addPoint`, in order. -/
theorem delivery_preserved (E : Env) (P : Params) (G : Glyph) :
    Preserved E P G (fun s =>
      (P.allowOverlap = true →
        deliveredPoints s ++ s.pointInfos = s.handed.filterMap pointRecordOf) ∧
      (P.allowOverlap = false →
        deliveredLabels s ++ s.labelInfos = s.handed.map (labelRecordOf E P G))) := by
  refine ⟨?_, ?_, ?_⟩
  · intro s localId globalId position hs
    obtain ⟨h1, h2⟩ := hs
    cases hA : P.allowOverlap with
    | true =>
      refine ⟨fun _ => ?_, fun hf => by cases hf⟩
      have h := h1 hA
      unfold addPoint
      simp only [hA, if_true]
      cases position with
      | vertex v =>
        simp only [deliveredPoints, List.filterMap_append] at h ⊢
        rw [← List.append_assoc, h]
        simp [pointRecordOf]
      | vertices vs =>
        cases vs with
        | nil =>
          simp only [deliveredPoints, List.filterMap_append] at h ⊢
          rw [h]
          simp [pointRecordOf]
        | cons front rest =>
          simp only [deliveredPoints, List.filterMap_append] at h ⊢
          rw [← List.append_assoc, h]
          simp [pointRecordOf]
    | false =>
      refine ⟨fun hf => (by cases hf), fun _ => ?_⟩
      have h := h2 hA
      simp only [addPoint, hA, deliveredLabels, List.map_append] at h ⊢
      simp only [Bool.false_eq_true, if_false]
      rw [← List.append_assoc, h]
      simp [labelRecordOf]
  · intro s transform hs
    obtain ⟨h1, h2⟩ := hs
    cases hA : P.allowOverlap with
    | true =>
      refine ⟨fun _ => ?_, fun hf => by cases hf⟩
      have h := h1 hA
      simp only [flushPoints, hA, if_true, deliveredPoints, List.flatMap_append] at h ⊢
      simpa [BuilderCall.pointRecords] using h
    | false =>
      refine ⟨fun hf => (by cases hf), fun _ => ?_⟩
      have h := h2 hA
      simp only [flushPoints, hA, deliveredLabels, List.flatMap_append] at h ⊢
      simpa [BuilderCall.labelRecords] using h
  · intro s severity message hs
    exact hs

/-- Every style the builder receives carries the resolved bitmap. -/
theorem bitmap_preserved (E : Env) (P : Params) (G : Glyph) :
    Preserved E P G (fun s => ∀ c ∈ s.calls, c.bitmap = some G.bitmap) := by
  refine ⟨?_, ?_, ?_⟩
  · intro s localId globalId position hs c hc
    have hc1 : c ∈ s.calls := by
      unfold addPoint at hc
      split at hc
      · split at hc
        · exact hc
        · split at hc <;> exact hc
      · exact hc
    exact hs c hc1
  · intro s transform hs c hc
    unfold flushPoints at hc
    split at hc
    · simp only [List.mem_append, List.mem_singleton] at hc
      rcases hc with hc | hc
      · exact hs c hc
      · subst hc; rfl
    · simp only [List.mem_append, List.mem_singleton] at hc
      rcases hc with hc | hc
      · exact hs c hc
      · subst hc; rfl
  · intro s severity message hs
    exact hs

/-- After a flush the queue of the active path is empty. -/
theorem flushPoints_queue (E : Env) (P : Params) (G : Glyph) (s : BuildState)
    (transform : Mat3) :
    (P.allowOverlap = true → (flushPoints E P G s transform).pointInfos = []) ∧
    (P.allowOverlap = false → (flushPoints E P G s transform).labelInfos = []) := by
  constructor <;> intro hA <;> simp [flushPoints, hA]

/-- A `build` call whose asset fails to load returns at once. -/
theorem build_load_failure (E : Env) (P : Params) (fuel : Nat) (fc : FeatureCollection)
    (cache : BitmapCache) (hfile : P.file ≠ "") (hload : E.loadBitmap P.file = none) :
    build E P fuel fc cache = .done (logWrite (BuildState.initial cache) .ERROR
      ("Failed to load marker bitmap " ++ P.file)) := by
  have hG : resolveGlyph E P cache = none := by
    simp [resolveGlyph, hfile, hload]
  simp [build, hG]

end MarkersSymbolizer

namespace MarkersSymbolizer

/-- A finished `build` call that resolved its glyph leaves both queues empty, and the builder
has received exactly the records of the placements handed to `addPoint`, in order. -/
theorem build_done_delivery (E : Env) (P : Params) (G : Glyph) (fuel : Nat)
    (fc : FeatureCollection) (cache cache1 : BitmapCache) (s : BuildState)
    (hG : resolveGlyph E P cache = some (G, cache1))
    (hd : build E P fuel fc cache = .done s) :
    s.pointInfos = [] ∧ s.labelInfos = [] ∧
    (P.allowOverlap = true → deliveredPoints s = s.handed.filterMap pointRecordOf) ∧
    (P.allowOverlap = false → deliveredLabels s = s.handed.map (labelRecordOf E P G)) := by
  have hstate : (build E P fuel fc cache).state = s := by rw [hd]; rfl
  have hR := build_inv fuel fc cache cache1 hG (routing_preserved E P G)
    (by simp [BuildState.initial])
  have hD := build_inv fuel fc cache cache1 hG (delivery_preserved E P G)
    (by simp [BuildState.initial, deliveredPoints, deliveredLabels])
  rw [hstate] at hR hD
  have hflush : ∃ s1, s = flushPoints E P G s1 P.transform := by
    simp only [build, hG] at hd
    cases hf : featureLoop E P G fuel fc (BuildState.initial cache1) with
    | done s1 =>
      rw [hf] at hd
      injection hd with hd
      exact ⟨s1, hd.symm⟩
    | outOfFuel s1 =>
      rw [hf] at hd
      cases hd
  obtain ⟨s1, hs1⟩ := hflush
  have hq := flushPoints_queue E P G s1 P.transform
  rw [← hs1] at hq
  cases hA : P.allowOverlap with
  | true =>
    have hp := hq.1 hA
    have hl := hR.2.1 hA
    refine ⟨hp, hl, fun _ => ?_, fun hf => (by cases hf)⟩
    have h := hD.1 hA
    rwa [hp, List.append_nil] at h
  | false =>
    have hl := hq.2 hA
    have hp := (hR.2.2 hA).1
    refine ⟨hp, hl, fun hf => (by cases hf), fun _ => ?_⟩
    have h := hD.2 hA
    rwa [hl, List.append_nil] at h

/-- The only placement without a record on the direct-point path is the empty vertex
sequence. -/
theorem pointRecordOf_none (pl : Placement) :
    pointRecordOf pl = none ↔ pl.position = .vertices [] := by
  unfold pointRecordOf
  cases hp : pl.position with
  | vertex v => simp
  | vertices vs =>
    cases vs with
    | nil => simp
    | cons front rest => simp

/-- C1, as stated, fails: under `allow-overlap` with line placement and spacing 0, a line
feature with an empty vertex sequence and a vertex sequence of two vertices hands two
placements to `addPoint`, yet the finished `build` call has submitted one record through
`addPoints` and none through `addBitmapLabels`: the empty vertex sequence is submitted on
no path. -/
theorem overlap_mode_routing_counterexample :
    overlapLineParams.allowOverlap = true ∧
    (build sampleEnv overlapLineParams 0 sparseLine []).isDone = true ∧
    (build sampleEnv overlapLineParams 0 sparseLine []).state.handed =
      [⟨7, 70, .vertices []⟩, ⟨7, 70, .vertices [⟨1 / 4, 1 / 4⟩, ⟨3 / 4, 1 / 4⟩]⟩] ∧
    deliveredPoints (build sampleEnv overlapLineParams 0 sparseLine []).state =
      [(7, ⟨1 / 4, 1 / 4⟩)] ∧
    deliveredLabels (build sampleEnv overlapLineParams 0 sparseLine []).state = [] := by
  decide!

/-- C1, amended. Overlap mode routing. In every state a `build` call reaches (finished or
not), each call the tile-layer builder has received is an `addPoints` call when
`allow-overlap` is true and an `addBitmapLabels` call when it is false; under `allow-overlap`
no label record is queued or delivered; without it no point record is queued or delivered
and every label record carries `groupId = 0`; the two paths never both occur in one call of
`build`. When the call has finished, the records delivered on the active path are those of
the placements handed to `addPoint`, in order: under `allow-overlap` every placement except
the empty vertex sequence, which has no record, without it every placement. In every state
(finished or not) the records delivered followed by the records still queued are those
records. -/
theorem overlap_mode_routing (E : Env) (P : Params) (fuel : Nat) (fc : FeatureCollection)
    (cache : BitmapCache) :
    (∀ c ∈ (build E P fuel fc cache).state.calls, c.isAddPoints = P.allowOverlap) ∧
    (P.allowOverlap = true →
      (build E P fuel fc cache).state.labelInfos = [] ∧
      deliveredLabels (build E P fuel fc cache).state = [] ∧
      (∀ pl : Placement, pointRecordOf pl = none ↔ pl.position = .vertices []) ∧
      ∀ s, build E P fuel fc cache = .done s →
        deliveredPoints s = s.handed.filterMap pointRecordOf) ∧
    (P.allowOverlap = false →
      (build E P fuel fc cache).state.pointInfos = [] ∧
      deliveredPoints (build E P fuel fc cache).state = [] ∧
      (∀ r ∈ deliveredLabels (build E P fuel fc cache).state, r.2.groupId = 0) ∧
      ∀ G cache1 s, resolveGlyph E P cache = some (G, cache1) →
        build E P fuel fc cache = .done s →
        deliveredLabels s = s.handed.map (labelRecordOf E P G)) ∧
    ¬ (∃ c ∈ (build E P fuel fc cache).state.calls,
        ∃ d ∈ (build E P fuel fc cache).state.calls,
          c.isAddPoints = true ∧ d.isAddPoints = false) ∧
    (∀ G cache1, resolveGlyph E P cache = some (G, cache1) →
      (P.allowOverlap = true →
        deliveredPoints (build E P fuel fc cache).state ++
          (build E P fuel fc cache).state.pointInfos =
        (build E P fuel fc cache).state.handed.filterMap pointRecordOf) ∧
      (P.allowOverlap = false →
        deliveredLabels (build E P fuel fc cache).state ++
          (build E P fuel fc cache).state.labelInfos =
        (build E P fuel fc cache).state.handed.map (labelRecordOf E P G))) := by
  have key : (∀ c ∈ (build E P fuel fc cache).state.calls, c.isAddPoints = P.allowOverlap ∧
        (P.allowOverlap = false → ∀ r ∈ c.labelRecords, r.2.groupId = 0)) ∧
      (P.allowOverlap = true → (build E P fuel fc cache).state.labelInfos = []) ∧
      (P.allowOverlap = false → (build E P fuel fc cache).state.pointInfos = [] ∧
        ∀ r ∈ (build E P fuel fc cache).state.labelInfos, r.2.groupId = 0) := by
    cases hG : resolveGlyph E P cache with
    | none => simp [build, hG, Outcome.state, logWrite, BuildState.initial]
    | some r =>
      obtain ⟨G, cache1⟩ := r
      exact build_inv fuel fc cache cache1 hG (routing_preserved E P G)
        (by simp [BuildState.initial])
  obtain ⟨k1, k2, k3⟩ := key
  refine ⟨fun c hc => (k1 c hc).1, ?_, ?_, ?_, ?_⟩
  · intro hA
    refine ⟨k2 hA, ?_, pointRecordOf_none, ?_⟩
    · simp only [deliveredLabels, List.flatMap_eq_nil_iff]
      intro c hc
      have h := (k1 c hc).1
      rw [hA] at h
      cases c with
      | addPoints records style => rfl
      | addBitmapLabels records style => simp [BuilderCall.isAddPoints] at h
    · intro s hd
      cases hG : resolveGlyph E P cache with
      | none =>
        simp only [build, hG] at hd
        injection hd with hd
        subst hd
        simp [deliveredPoints, logWrite, BuildState.initial]
      | some r =>
        obtain ⟨G, cache1⟩ := r
        exact (build_done_delivery E P G fuel fc cache cache1 s hG hd).2.2.1 hA
  · intro hA
    refine ⟨(k3 hA).1, ?_, ?_, ?_⟩
    · simp only [deliveredPoints, List.flatMap_eq_nil_iff]
      intro c hc
      have h := (k1 c hc).1
      rw [hA] at h
      cases c with
      | addPoints records style => simp [BuilderCall.isAddPoints] at h
      | addBitmapLabels records style => rfl
    · intro r hr
      simp only [deliveredLabels, List.mem_flatMap] at hr
      obtain ⟨c, hc, hrc⟩ := hr
      exact (k1 c hc).2 hA r hrc
    · intro G cache1 s hG hd
      exact (build_done_delivery E P G fuel fc cache cache1 s hG hd).2.2.2 hA
  · rintro ⟨c, hc, d, hd, h1, h2⟩
    have hc1 := (k1 c hc).1
    have hd1 := (k1 d hd).1
    rw [h1] at hc1
    rw [h2] at hd1
    rw [← hc1] at hd1
    cases hd1
  · intro G cache1 hG
    exact build_inv fuel fc cache cache1 hG (delivery_preserved E P G)
      (by simp [BuildState.initial, deliveredPoints, deliveredLabels])

/-- C1 amended, at a sample input: for the sample point collection the one call `build` makes is an
`addBitmapLabels` call when `allow-overlap` is unset and an `addPoints` call when it is set. -/
theorem overlap_mode_routing_witness :
    (build sampleEnv sampleParams 0 samplePoints []).state.calls.map BuilderCall.isAddPoints
      = [false] ∧
    (build sampleEnv overlapParams 0 samplePoints []).state.calls.map BuilderCall.isAddPoints
      = [true] ∧
    (∀ c ∈ (build sampleEnv sampleParams 0 samplePoints []).state.calls,
      c.isAddPoints = sampleParams.allowOverlap) ∧
    (∀ c ∈ (build sampleEnv overlapParams 0 samplePoints []).state.calls,
      c.isAddPoints = overlapParams.allowOverlap) :=
  ⟨by decide!, by decide!, (overlap_mode_routing sampleEnv sampleParams 0 samplePoints []).1,
    (overlap_mode_routing sampleEnv overlapParams 0 samplePoints []).1⟩

/-- C3. Asset resolution failure. When the file parameter is not empty and `loadBitmap`
returns the null pointer, `build` returns (for every fuel) having handed no placement to
`addPoint`, queued nothing, called neither `addPoints` nor `addBitmapLabels`, and left the
bitmap cache as it was. Conversely, in every state any `build` call reaches, each call the
builder has received carries a non-null bitmap in its style. -/
theorem load_failure_draws_nothing (E : Env) (P : Params) (fuel : Nat)
    (fc : FeatureCollection) (cache : BitmapCache) :
    (P.file ≠ "" → E.loadBitmap P.file = none →
      ∃ s, build E P fuel fc cache = .done s ∧ s.handed = [] ∧ s.pointInfos = [] ∧
        s.labelInfos = [] ∧ s.calls = [] ∧ s.cache = cache) ∧
    (∀ c ∈ (build E P fuel fc cache).state.calls, c.bitmap ≠ none) := by
  constructor
  · intro hfile hload
    refine ⟨_, build_load_failure E P fuel fc cache hfile hload, ?_⟩
    simp [logWrite, BuildState.initial]
  · intro c hc
    cases hG : resolveGlyph E P cache with
    | none =>
      simp [build, hG, Outcome.state, logWrite, BuildState.initial] at hc
    | some r =>
      obtain ⟨G, cache1⟩ := r
      have h := build_inv fuel fc cache cache1 hG (bitmap_preserved E P G)
        (by simp [BuildState.initial]) c hc
      rw [h]
      simp

/-- C3, at a sample input: the sample environment loads no asset, so a `build` call with a
file reference draws nothing. -/
theorem load_failure_draws_nothing_witness :
    fileParams.file ≠ "" ∧ sampleEnv.loadBitmap fileParams.file = none ∧
    ∃ s, build sampleEnv fileParams 0 samplePoints [] = .done s ∧ s.handed = [] ∧
      s.pointInfos = [] ∧ s.labelInfos = [] ∧ s.calls = [] ∧ s.cache = [] :=
  ⟨by decide, rfl,
    (load_failure_draws_nothing sampleEnv fileParams 0 samplePoints []).1 (by decide) rfl⟩

end MarkersSymbolizer

namespace MarkersSymbolizer

/-! ## Point and polygon features (C4) -/

/-- What the range-based loops over vertices do to the state: one placement per vertex is
handed over and queued on the active path; the builder is not called. -/
theorem addVertices_fields (E : Env) (P : Params) (G : Glyph) (localId globalId : Int)
    (vertices : List Vec2) :
    ∀ s : BuildState,
      (addVertices E P G localId globalId vertices s).handed =
        s.handed ++ vertices.map (fun v => (⟨localId, globalId, .vertex v⟩ : Placement)) ∧
      (addVertices E P G localId globalId vertices s).calls = s.calls ∧
      (addVertices E P G localId globalId vertices s).pointInfos =
        s.pointInfos ++ (if P.allowOverlap then vertices.map (fun v => (localId, v)) else []) ∧
      (addVertices E P G localId globalId vertices s).labelInfos =
        s.labelInfos ++ (if P.allowOverlap then [] else vertices.map (fun v =>
          (localId, (⟨E.getBitmapId globalId G.file, groupIdOf P, .vertex v, 0⟩ :
            BitmapLabelInfo)))) := by
  induction vertices with
  | nil => intro s; simp [addVertices]
  | cons v rest ih =>
    intro s
    obtain ⟨h1, h2, h3, h4⟩ := ih (addPoint E P G s localId globalId (.vertex v))
    simp only [addVertices]
    rw [h1, h2, h3, h4]
    cases hA : P.allowOverlap <;> simp [addPoint, hA]

/-- The geometry loop over point and polygon features ends, for any fuel, having handed to
`addPoint` and queued one placement per contributed vertex, without calling the builder. -/
theorem featureLoop_points (E : Env) (P : Params) (G : Glyph) (fuel : Nat)
    (fc : FeatureCollection) (hfc : ∀ f ∈ fc, isPointOrPolygon f = true) :
    ∀ s : BuildState, ∃ s1, featureLoop E P G fuel fc s = .done s1 ∧
      s1.handed = s.handed ++ expectedPlacements E fc ∧
      s1.calls = s.calls ∧
      s1.pointInfos = s.pointInfos ++ (if P.allowOverlap then
        fc.flatMap (fun f => (featureVertices E f).map (fun v => (f.localId, v))) else []) ∧
      s1.labelInfos = s.labelInfos ++ (if P.allowOverlap then [] else
        fc.flatMap (fun f => (featureVertices E f).map (fun v =>
          (f.localId, (⟨E.getBitmapId f.globalId G.file, groupIdOf P, .vertex v, 0⟩ :
            BitmapLabelInfo))))) := by
  induction fc with
  | nil => intro s; exact ⟨s, by simp [featureLoop, expectedPlacements]⟩
  | cons f rest ih =>
    intro s
    have hf := hfc f (List.mem_cons_self _ _)
    have hrest : ∀ g ∈ rest, isPointOrPolygon g = true :=
      fun g hg => hfc g (List.mem_cons_of_mem _ hg)
    have hstep : buildFeature E P G fuel f s =
        .done (addVertices E P G f.localId f.globalId (featureVertices E f) s) := by
      unfold buildFeature featureVertices
      unfold isPointOrPolygon at hf
      cases hg : f.geometry with
      | point vertices => rfl
      | line verticesList => rw [hg] at hf; cases hf
      | polygon polygonList => rfl
      | other => rw [hg] at hf; cases hf
    obtain ⟨s1, hs1, h1, h2, h3, h4⟩ :=
      ih hrest (addVertices E P G f.localId f.globalId (featureVertices E f) s)
    obtain ⟨a1, a2, a3, a4⟩ :=
      addVertices_fields E P G f.localId f.globalId (featureVertices E f) s
    refine ⟨s1, by simp only [featureLoop, hstep]; exact hs1, ?_, ?_, ?_, ?_⟩
    · rw [h1, a1]; simp [expectedPlacements]
    · rw [h2, a2]
    · rw [h3, a3]; cases hA : P.allowOverlap <;> simp
    · rw [h4, a4]; cases hA : P.allowOverlap <;> simp

/-- C4. Point and polygon features. For a feature collection of point and polygon features
only, a `build` call that resolves its glyph returns for every fuel; it hands to `addPoint`
exactly one placement per vertex of each point geometry and per sampled surface point of
each polygon geometry, in feature order then vertex order, each with the ids of its feature;
and it delivers them in a single builder call (one flush), whose records carry the localId
of their feature and whose style transform is the base transform of the symbolizer times
the bitmap scale. -/
theorem point_polygon_placements (E : Env) (P : Params) (G : Glyph) (fuel : Nat)
    (fc : FeatureCollection) (cache cache1 : BitmapCache)
    (hG : resolveGlyph E P cache = some (G, cache1))
    (hfc : ∀ f ∈ fc, isPointOrPolygon f = true) :
    ∃ s call, build E P fuel fc cache = .done s ∧
      s.handed = expectedPlacements E fc ∧
      s.calls = [call] ∧
      call.isAddPoints = P.allowOverlap ∧
      call.transform = P.transform.mul (scale3_matrix G.bitmapScaleX G.bitmapScaleY 1) ∧
      call.bitmap = some G.bitmap ∧
      (P.allowOverlap = true → call.pointRecords =
        fc.flatMap (fun f => (featureVertices E f).map (fun v => (f.localId, v)))) ∧
      (P.allowOverlap = false → call.labelRecords =
        fc.flatMap (fun f => (featureVertices E f).map (fun v =>
          (f.localId, (⟨E.getBitmapId f.globalId G.file, 0, .vertex v, 0⟩ :
            BitmapLabelInfo))))) := by
  obtain ⟨s1, hs1, h1, h2, h3, h4⟩ :=
    featureLoop_points E P G fuel fc hfc (BuildState.initial cache1)
  have hb : build E P fuel fc cache = .done (flushPoints E P G s1 P.transform) := by
    simp only [build, hG, hs1]
  cases hA : P.allowOverlap with
  | true =>
    refine ⟨_, .addPoints s1.pointInfos
      ⟨E.convertCompOp P.compOp, E.convertLabelToPointOrientation (orientationOf E P),
        "#ffffff", G.fillOpacity, some G.bitmap,
        P.transform.mul (scale3_matrix G.bitmapScaleX G.bitmapScaleY 1)⟩, hb, ?_, ?_, rfl, rfl,
      rfl, ?_, ?_⟩
    · simpa [flushPoints, hA, BuildState.initial] using h1
    · simp [flushPoints, hA, h2, BuildState.initial]
    · intro _
      simpa [BuilderCall.pointRecords, hA, BuildState.initial] using h3
    · intro hf; cases hf
  | false =>
    refine ⟨_, .addBitmapLabels s1.labelInfos
      ⟨orientationOf E P, 0xffffffff, G.fillOpacity, some G.bitmap,
        P.transform.mul (scale3_matrix G.bitmapScaleX G.bitmapScaleY 1)⟩, hb, ?_, ?_, rfl, rfl,
      rfl, ?_, ?_⟩
    · simpa [flushPoints, hA, BuildState.initial] using h1
    · simp [flushPoints, hA, h2, BuildState.initial]
    · intro hf; cases hf
    · intro _
      simpa [BuilderCall.labelRecords, hA, BuildState.initial, groupIdOf] using h4

/-- C4, at a sample input: the sample point collection (two point vertices, one polygon
surface point) yields three placements in one `addBitmapLabels` call. -/
theorem point_polygon_placements_witness :
    resolveGlyph sampleEnv sampleParams [] = some (resolveProcedural sampleEnv sampleParams []) ∧
    (∀ f ∈ samplePoints, isPointOrPolygon f = true) ∧
    ∃ s call, build sampleEnv sampleParams 0 samplePoints [] = .done s ∧
      s.handed = [⟨1, 101, .vertex ⟨1 / 4, 1 / 4⟩⟩, ⟨1, 101, .vertex ⟨1 / 2, 3 / 4⟩⟩,
        ⟨2, 102, .vertex ⟨1 / 3, 1 / 3⟩⟩] ∧
      s.calls = [call] ∧ call.isAddPoints = false := by
  obtain ⟨s, call, h1, h2, h3, h4, _⟩ :=
    point_polygon_placements sampleEnv sampleParams (resolveProcedural sampleEnv sampleParams []).1
      0 samplePoints [] (resolveProcedural sampleEnv sampleParams []).2 rfl (by decide)
  refine ⟨rfl, by decide, s, call, h1, ?_, h3, h4⟩
  rw [h2]
  decide!

end MarkersSymbolizer

namespace MarkersSymbolizer

/-! ## Arithmetic and trace lemmas for the count of the walk -/

/-- Adding one to a rational above -1 adds one to its natural ceiling. -/
theorem ceil_add_one_of_gt (x : ℚ) (hx : -1 < x) : ⌈x + 1⌉₊ = ⌈x⌉₊ + 1 := by
  rcases le_or_lt 0 x with h | h
  · exact Nat.ceil_add_one h
  · have h0 : ⌈x⌉₊ = 0 := Nat.ceil_eq_zero.2 (le_of_lt h)
    rw [h0, Nat.ceil_eq_iff (by norm_num)]
    constructor
    · simp; linarith
    · simp; linarith

/-- The clip test holds along a segment whose end points pass it (before the far end). -/
theorem inside_segment (v0 v1 : Vec2) (t : ℚ) (h0 : insideTile v0 = true)
    (h1 : insideTile v1 = true) (ht0 : 0 ≤ t) (ht1 : t < 1) :
    insideTile (v0.add ((v1.sub v0).smul t)) = true := by
  simp only [insideTile, gt_iff_lt, lt_min_iff, max_lt_iff, decide_eq_true_eq, Vec2.add,
    Vec2.sub, Vec2.smul] at *
  obtain ⟨⟨a1, a2⟩, a3, a4⟩ := h0
  obtain ⟨⟨b1, b2⟩, b3, b4⟩ := h1
  have ht : 0 < 1 - t := by linarith
  refine ⟨⟨?_, ?_⟩, ?_, ?_⟩
  · nlinarith [mul_pos a1 ht, mul_nonneg (le_of_lt b1) ht0]
  · nlinarith [mul_pos a2 ht, mul_nonneg (le_of_lt b2) ht0]
  · nlinarith [mul_pos (sub_pos.2 a3) ht, mul_nonneg (le_of_lt (sub_pos.2 b3)) ht0]
  · nlinarith [mul_pos (sub_pos.2 a4) ht, mul_nonneg (le_of_lt (sub_pos.2 b4)) ht0]

/-- The value of `walkCount` in the four ranges of the length. -/
theorem walkCount_cases (L S : ℚ) (hS : 0 < S) :
    (S / 2 ≤ L → (¬ ∃ m : ℕ, 0 < m ∧ (L - S / 2) / S = m) →
      walkCount L S = ⌊(L - S / 2) / S⌋₊ + 1) ∧
    (∀ m : ℕ, 0 < m → (L - S / 2) / S = m → walkCount L S = m) ∧
    (0 < L → L < S / 2 → walkCount L S = 1) ∧
    (L ≤ 0 → walkCount L S = 0) := by
  refine ⟨?_, ?_, ?_, ?_⟩
  · intro hL hm
    unfold walkCount
    rw [Nat.ceil_eq_iff (by omega)]
    simp only [Nat.add_sub_cancel]
    have hx0 : 0 ≤ (L - S / 2) / S := div_nonneg (by linarith) (le_of_lt hS)
    rcases le_or_lt S L with h | h
    · rw [min_eq_right h]
      constructor
      · rcases lt_or_eq_of_le (Nat.floor_le hx0) with h1 | h1
        · exact h1
        · exfalso
          apply hm
          refine ⟨⌊(L - S / 2) / S⌋₊, ?_, h1.symm⟩
          apply Nat.pos_of_ne_zero
          intro hz
          rw [hz, Nat.cast_zero] at h1
          have hpos : 0 < (L - S / 2) / S := div_pos (by linarith) hS
          linarith
      · push_cast
        exact le_of_lt (Nat.lt_floor_add_one _)
    · rw [min_eq_left (le_of_lt h)]
      have hfl : ⌊(L - S / 2) / S⌋₊ = 0 := by
        rw [Nat.floor_eq_zero, div_lt_iff₀ hS]
        linarith
      rw [hfl]
      constructor
      · simp only [Nat.cast_zero]
        apply div_pos _ hS
        linarith
      · simp only [Nat.cast_zero, zero_add, Nat.cast_one]
        rw [div_le_iff₀ hS]
        linarith
  · intro m hm hx
    unfold walkCount
    have hL : S ≤ L := by
      have h1 : (1 : ℚ) ≤ (L - S / 2) / S := by
        rw [hx]; exact_mod_cast hm
      rw [le_div_iff₀ hS] at h1
      linarith
    rw [min_eq_right hL, hx, Nat.ceil_natCast]
  · intro h0 h1
    unfold walkCount
    rw [min_eq_left (by linarith), Nat.ceil_eq_iff (by norm_num)]
    constructor
    · simp only [Nat.sub_self, Nat.cast_zero]
      apply div_pos _ hS
      linarith
    · simp only [Nat.cast_one]
      rw [div_le_iff₀ hS]
      linarith
  · intro h0
    unfold walkCount
    rw [min_eq_left (by linarith), Nat.ceil_eq_zero]
    apply div_nonpos_of_nonpos_of_nonneg _ (le_of_lt hS)
    linarith

/-- The lambda `addPoint` records its arguments in the trace. -/
theorem addPoint_handed (E : Env) (P : Params) (G : Glyph) (s : BuildState)
    (localId globalId : Int) (position : Position) :
    (addPoint E P G s localId globalId position).handed =
      s.handed ++ [⟨localId, globalId, position⟩] := by
  unfold addPoint
  split
  · split
    · rfl
    · split <;> rfl
  · rfl

/-- A flush leaves the trace as it is. -/
theorem flushPoints_handed (E : Env) (P : Params) (G : Glyph) (s : BuildState)
    (transform : Mat3) : (flushPoints E P G s transform).handed = s.handed := by
  unfold flushPoints
  split <;> rfl

end MarkersSymbolizer

namespace MarkersSymbolizer

/-! ## Builder calls of the walk -/

/-- The lambda `addPoint` does not call the builder. -/
theorem addPoint_calls (E : Env) (P : Params) (G : Glyph) (s : BuildState)
    (localId globalId : Int) (position : Position) :
    (addPoint E P G s localId globalId position).calls = s.calls := by
  unfold addPoint
  split
  · split
    · rfl
    · split <;> rfl
  · rfl

/-- A flush is exactly one builder call. -/
theorem flushPoints_calls_length (E : Env) (P : Params) (G : Glyph) (s : BuildState)
    (transform : Mat3) :
    (flushPoints E P G s transform).calls.length = s.calls.length + 1 := by
  unfold flushPoints
  split <;> simp

/-- Each iteration of the walk adds as many builder calls as placements. -/
theorem walkEmit_counts (E : Env) (P : Params) (G : Glyph) (localId : Int) (v0 v1 : Vec2)
    (lineLen linePos : ℚ) (s : BuildState) :
    (walkEmit E P G localId v0 v1 lineLen linePos s).calls.length + s.handed.length =
      s.calls.length + (walkEmit E P G localId v0 v1 lineLen linePos s).handed.length := by
  by_cases hin : insideTile (v0.add ((v1.sub v0).smul (linePos / lineLen))) = true
  · simp only [walkEmit, hin, if_true, flushPoints_calls_length, flushPoints_handed,
      addPoint_calls, addPoint_handed, List.length_append, List.length_singleton]
    omega
  · simp only [walkEmit, hin]
    rfl

/-- The `while` loop adds as many builder calls as placements. -/
theorem whileLoop_counts (E : Env) (P : Params) (G : Glyph) (localId : Int) (v0 v1 : Vec2)
    (lineLen : ℚ) (fuel : Nat) :
    ∀ (linePos : ℚ) (s : BuildState),
      (whileLoop E P G localId v0 v1 lineLen fuel linePos s).walkState.calls.length +
          s.handed.length =
        s.calls.length +
          (whileLoop E P G localId v0 v1 lineLen fuel linePos s).walkState.handed.length := by
  induction fuel with
  | zero =>
    intro linePos s
    unfold whileLoop
    split <;> simp only [Outcome.walkState]
  | succ n ih =>
    intro linePos s
    unfold whileLoop
    split
    · have h1 := ih (floatAdd linePos (floatAdd P.spacing (bitmapSize G)))
        (walkEmit E P G localId v0 v1 lineLen linePos s)
      have h2 := walkEmit_counts E P G localId v0 v1 lineLen linePos s
      omega
    · simp only [Outcome.walkState]

/-- The segment loop adds as many builder calls as placements. -/
theorem segmentLoop_counts (E : Env) (P : Params) (G : Glyph) (fuel : Nat) (localId : Int)
    (vertices : List Vec2) :
    ∀ (i : Nat) (linePos : ℚ) (s : BuildState),
      (segmentLoop E P G fuel localId i vertices linePos s).state.calls.length +
          s.handed.length =
        s.calls.length +
          (segmentLoop E P G fuel localId i vertices linePos s).state.handed.length := by
  induction vertices with
  | nil => intro i linePos s; simp only [segmentLoop, Outcome.state]
  | cons v0 tl ih =>
    intro i linePos s
    cases tl with
    | nil => simp only [segmentLoop, Outcome.state]
    | cons v1 rest =>
      simp only [segmentLoop]
      have hw := whileLoop_counts E P G localId v0 v1
        (floatMul (E.length (v1.sub v0)) E.tileSize) fuel
        (if i = 1 then floatMul (min (floatMul (E.length (v1.sub v0)) E.tileSize) P.spacing)
          (1 / 2) else linePos)
        s
      revert hw
      cases whileLoop E P G localId v0 v1 (floatMul (E.length (v1.sub v0)) E.tileSize) fuel
        (if i = 1 then floatMul (min (floatMul (E.length (v1.sub v0)) E.tileSize) P.spacing)
          (1 / 2) else linePos)
        s with
      | done r =>
        obtain ⟨lp, s1⟩ := r
        intro hw
        simp only [Outcome.walkState] at hw
        have h2 := ih (i + 1) (floatSub lp (floatMul (E.length (v1.sub v0)) E.tileSize)) s1
        dsimp only
        omega
      | outOfFuel s1 =>
        intro hw
        simp only [Outcome.walkState] at hw
        simp only [Outcome.state]
        omega

/-- The flush count of a finished `build` over one line feature with one vertex sequence. -/
theorem single_line_flushes (E : Env) (P : Params) (G : Glyph) (fuel : Nat)
    (localId globalId : Int) (vertices : List Vec2) (cache cache1 : BitmapCache)
    (s : BuildState) (hG : resolveGlyph E P cache = some (G, cache1))
    (hline : placementOf E P = .LINE) (hS : 0 < P.spacing)
    (hd : build E P fuel [⟨localId, globalId, .line [vertices]⟩] cache = .done s) :
    s.calls.length = s.handed.length + 2 := by
  have hS1 : ¬ P.spacing ≤ 0 := not_le.2 hS
  simp only [build, hG, featureLoop, buildFeature, hline, if_true, verticesListLoop, hS1,
    if_false, walkVertices] at hd
  have hc := segmentLoop_counts E P G fuel localId vertices 1 0
    (flushPoints E P G (BuildState.initial cache1) P.transform)
  revert hd hc
  cases segmentLoop E P G fuel localId 1 vertices 0
    (flushPoints E P G (BuildState.initial cache1) P.transform) with
  | done s1 =>
    intro hd hc
    simp only [Outcome.state, flushPoints_calls_length, flushPoints_handed] at hc
    injection hd with hd
    rw [← hd, flushPoints_calls_length, flushPoints_handed]
    simp only [BuildState.initial, List.length_nil] at hc
    omega
  | outOfFuel s1 =>
    intro hd
    cases hd

end MarkersSymbolizer

namespace MarkersSymbolizer

/-! ## Glyph resolution (C8, C9, C10) -/

/-- Without a file reference the glyph is the procedural one. -/
theorem resolveGlyph_procedural (E : Env) (P : Params) (cache : BitmapCache)
    (hfile : P.file = "") : resolveGlyph E P cache = some (resolveProcedural E P cache) := by
  simp [resolveGlyph, hfile]

/-- The ellipse branch: the cache key, and on a cache miss the rasterization call. -/
theorem resolveProcedural_ellipse (E : Env) (P : Params) (cache : BitmapCache)
    (hshape : selectShape E P = .ellipse) :
    (resolveProcedural E P cache).1.file =
      markerKey E "ellipse" (ellipseSize E P).1 (ellipseSize E P).2
        (E.fromColorOpacity P.fill P.fillOpacity) P.strokeWidth
        (E.fromColorOpacity P.stroke P.strokeOpacity) ∧
    (getBitmap cache (markerKey E "ellipse" (ellipseSize E P).1 (ellipseSize E P).2
        (E.fromColorOpacity P.fill P.fillOpacity) P.strokeWidth
        (E.fromColorOpacity P.stroke P.strokeOpacity)) = none →
      (resolveProcedural E P cache).1.bitmap =
        makeEllipseBitmap ((ellipseSize E P).1 * E.SUPERSAMPLING_FACTOR)
          ((ellipseSize E P).2 * E.SUPERSAMPLING_FACTOR)
          (E.fromColorOpacity P.fill P.fillOpacity)
          (|P.strokeWidth| * E.SUPERSAMPLING_FACTOR)
          (E.fromColorOpacity P.stroke P.strokeOpacity)) := by
  constructor
  · simp only [resolveProcedural, hshape]
    split <;> rfl
  · intro hmiss
    simp only [resolveProcedural, hshape, hmiss]

/-- The arrow branch: the cache key, and on a cache miss the rasterization call. -/
theorem resolveProcedural_arrow (E : Env) (P : Params) (cache : BitmapCache)
    (hshape : selectShape E P = .arrow) :
    (resolveProcedural E P cache).1.file =
      markerKey E "arrow" (arrowSize E P).1 (arrowSize E P).2
        (E.fromColorOpacity P.fill P.fillOpacity) P.strokeWidth
        (E.fromColorOpacity P.stroke P.strokeOpacity) ∧
    (getBitmap cache (markerKey E "arrow" (arrowSize E P).1 (arrowSize E P).2
        (E.fromColorOpacity P.fill P.fillOpacity) P.strokeWidth
        (E.fromColorOpacity P.stroke P.strokeOpacity)) = none →
      (resolveProcedural E P cache).1.bitmap =
        makeArrowBitmap ((arrowSize E P).1 * E.SUPERSAMPLING_FACTOR)
          ((arrowSize E P).2 * E.SUPERSAMPLING_FACTOR)
          (E.fromColorOpacity P.fill P.fillOpacity)
          (|P.strokeWidth| * E.SUPERSAMPLING_FACTOR)
          (E.fromColorOpacity P.stroke P.strokeOpacity)) := by
  constructor
  · simp only [resolveProcedural, hshape]
    split <;> rfl
  · intro hmiss
    simp only [resolveProcedural, hshape, hmiss]

/-- C8. Ellipse sizing rule. The size resolved by the ellipse branch is `(|w|, |w|)` when
only the width is bound, `(|h|, |h|)` when only the height is bound, `(|w|, |h|)` when both
are, and `(DEFAULT_CIRCLE_SIZE, DEFAULT_CIRCLE_SIZE)` when neither is. When the ellipse
branch is taken (no file, ellipse shape), the glyph is keyed by that size, and on a cache
miss it is rasterized by `makeEllipseBitmap` from that size and from `|stroke-width|`: the
three lengths handed to the rasterizer are the resolved width, the resolved height and
`|stroke-width|`, each multiplied by `SUPERSAMPLING_FACTOR`. -/
theorem ellipse_sizing (E : Env) (P : Params) (cache : BitmapCache) :
    (P.widthDefined = true → P.heightDefined = false →
      ellipseSize E P = (|P.width|, |P.width|)) ∧
    (P.widthDefined = false → P.heightDefined = true →
      ellipseSize E P = (|P.height|, |P.height|)) ∧
    (P.widthDefined = true → P.heightDefined = true →
      ellipseSize E P = (|P.width|, |P.height|)) ∧
    (P.widthDefined = false → P.heightDefined = false →
      ellipseSize E P = (E.DEFAULT_CIRCLE_SIZE, E.DEFAULT_CIRCLE_SIZE)) ∧
    (P.file = "" → selectShape E P = .ellipse →
      ∃ G cache1, resolveGlyph E P cache = some (G, cache1) ∧
        G.file = markerKey E "ellipse" (ellipseSize E P).1 (ellipseSize E P).2
          (E.fromColorOpacity P.fill P.fillOpacity) P.strokeWidth
          (E.fromColorOpacity P.stroke P.strokeOpacity) ∧
        (getBitmap cache G.file = none →
          G.bitmap = makeEllipseBitmap ((ellipseSize E P).1 * E.SUPERSAMPLING_FACTOR)
            ((ellipseSize E P).2 * E.SUPERSAMPLING_FACTOR)
            (E.fromColorOpacity P.fill P.fillOpacity)
            (|P.strokeWidth| * E.SUPERSAMPLING_FACTOR)
            (E.fromColorOpacity P.stroke P.strokeOpacity))) := by
  refine ⟨?_, ?_, ?_, ?_, ?_⟩
  · intro hw hh; simp [ellipseSize, hw, hh]
  · intro hw hh; simp [ellipseSize, hw, hh]
  · intro hw hh; simp [ellipseSize, hw, hh]
  · intro hw hh; simp [ellipseSize, hw, hh]
  · intro hfile hshape
    obtain ⟨h1, h2⟩ := resolveProcedural_ellipse E P cache hshape
    refine ⟨(resolveProcedural E P cache).1, (resolveProcedural E P cache).2,
      resolveGlyph_procedural E P cache hfile, h1, ?_⟩
    intro hmiss
    rw [h1] at hmiss
    exact h2 hmiss

/-- C8, at a sample input: marker type `ellipse`, width bound to -20, height not bound,
stroke width -2, supersampling factor 4. The resolved size is 20 by 20 and the rasterizer
is called with 80, 80 and stroke width 8. -/
theorem ellipse_sizing_witness :
    ellipseParams.widthDefined = true ∧ ellipseParams.heightDefined = false ∧
    ellipseSize sampleEnv ellipseParams = (|ellipseParams.width|, |ellipseParams.width|) ∧
    ellipseSize sampleEnv ellipseParams = (20, 20) ∧
    (resolveProcedural sampleEnv ellipseParams []).1.bitmap =
      makeEllipseBitmap 80 80 ⟨255⟩ 8 ⟨0⟩ :=
  ⟨rfl, rfl, (ellipse_sizing sampleEnv ellipseParams []).1 rfl rfl, by decide!, by decide!⟩

/-- C9, as stated, fails: with no file, no marker type, line placement and the width
explicitly bound (to 10), the shape is the arrow, not the ellipse; the glyph is keyed as an
arrow. -/
theorem shape_selection_counterexample :
    definedLineParams.file = "" ∧ definedLineParams.markerType = "" ∧
    placementOf sampleEnv definedLineParams = .LINE ∧
    definedLineParams.widthDefined = true ∧
    selectShape sampleEnv definedLineParams = .arrow ∧
    (resolveProcedural sampleEnv definedLineParams []).1.file =
      markerKey sampleEnv "arrow" 10 5 ⟨255⟩ 0 ⟨0⟩ := by
  decide!

/-- C9, amended. Procedural shape selection. With no file reference, the marker type
`ellipse` selects the ellipse and any other non-empty marker type selects the arrow; when
the marker type is empty the shape is the arrow exactly when the placement is line, whether
or not width or height is bound, and the ellipse otherwise. The glyph `build` resolves is
keyed by the selected shape. -/
theorem shape_selection (E : Env) (P : Params) (cache : BitmapCache) :
    (P.markerType = "ellipse" → selectShape E P = .ellipse) ∧
    (P.markerType ≠ "" → P.markerType ≠ "ellipse" → selectShape E P = .arrow) ∧
    (P.markerType = "" → (selectShape E P = .arrow ↔ placementOf E P = .LINE)) ∧
    (P.markerType = "" → (selectShape E P = .ellipse ↔ placementOf E P ≠ .LINE)) ∧
    (P.file = "" →
      ∃ G cache1, resolveGlyph E P cache = some (G, cache1) ∧
        (selectShape E P = .ellipse →
          G.file = markerKey E "ellipse" (ellipseSize E P).1 (ellipseSize E P).2
            (E.fromColorOpacity P.fill P.fillOpacity) P.strokeWidth
            (E.fromColorOpacity P.stroke P.strokeOpacity)) ∧
        (selectShape E P = .arrow →
          G.file = markerKey E "arrow" (arrowSize E P).1 (arrowSize E P).2
            (E.fromColorOpacity P.fill P.fillOpacity) P.strokeWidth
            (E.fromColorOpacity P.stroke P.strokeOpacity))) := by
  refine ⟨?_, ?_, ?_, ?_, ?_⟩
  · intro h; simp [selectShape, h]
  · intro h1 h2; simp [selectShape, h1, h2]
  · intro h
    by_cases hp : placementOf E P = .LINE <;> simp [selectShape, h, hp]
  · intro h
    by_cases hp : placementOf E P = .LINE <;> simp [selectShape, h, hp]
  · intro hfile
    exact ⟨(resolveProcedural E P cache).1, (resolveProcedural E P cache).2,
      resolveGlyph_procedural E P cache hfile,
      fun h => (resolveProcedural_ellipse E P cache h).1,
      fun h => (resolveProcedural_arrow E P cache h).1⟩

/-- C9 amended, at a sample input: no marker type, line placement, width bound. -/
theorem shape_selection_witness :
    definedLineParams.markerType = "" ∧ placementOf sampleEnv definedLineParams = .LINE ∧
    selectShape sampleEnv definedLineParams = .arrow :=
  ⟨rfl, rfl, ((shape_selection sampleEnv definedLineParams []).2.2.1 rfl).2 rfl⟩

/-- C10, as stated, fails: with the arrow shape, the width bound to 10 and the height not
bound, the resolved height is 14 * 10 / 28 = 5, not the width. -/
theorem arrow_sizing_counterexample :
    selectShape sampleEnv widthOnlyParams = .arrow ∧
    widthOnlyParams.widthDefined = true ∧ widthOnlyParams.heightDefined = false ∧
    arrowSize sampleEnv widthOnlyParams = (10, 5) ∧
    (arrowSize sampleEnv widthOnlyParams).2 ≠ (arrowSize sampleEnv widthOnlyParams).1 := by
  decide!

/-- C10, amended. Arrow sizing rule. The arrow branch takes a dimension as set when its value
is greater than 0. If the width is set and the height is not, the resolved height is
`DEFAULT_ARROW_HEIGHT * width / DEFAULT_ARROW_WIDTH`; if only the height is set, the
resolved width is `DEFAULT_ARROW_WIDTH * height / DEFAULT_ARROW_HEIGHT`; if neither is set,
both are the arrow defaults; if both are set, both are used as given. When the arrow branch
is taken the glyph is keyed by that size and, on a cache miss, rasterized from it. -/
theorem arrow_sizing (E : Env) (P : Params) (cache : BitmapCache) :
    (0 < P.width → ¬ 0 < P.height →
      arrowSize E P = (P.width, E.DEFAULT_ARROW_HEIGHT * P.width / E.DEFAULT_ARROW_WIDTH)) ∧
    (¬ 0 < P.width → 0 < P.height →
      arrowSize E P = (E.DEFAULT_ARROW_WIDTH * P.height / E.DEFAULT_ARROW_HEIGHT, P.height)) ∧
    (¬ 0 < P.width → ¬ 0 < P.height →
      arrowSize E P = (E.DEFAULT_ARROW_WIDTH, E.DEFAULT_ARROW_HEIGHT)) ∧
    (0 < P.width → 0 < P.height → arrowSize E P = (P.width, P.height)) ∧
    (P.file = "" → selectShape E P = .arrow →
      ∃ G cache1, resolveGlyph E P cache = some (G, cache1) ∧
        G.file = markerKey E "arrow" (arrowSize E P).1 (arrowSize E P).2
          (E.fromColorOpacity P.fill P.fillOpacity) P.strokeWidth
          (E.fromColorOpacity P.stroke P.strokeOpacity) ∧
        (getBitmap cache G.file = none →
          G.bitmap = makeArrowBitmap ((arrowSize E P).1 * E.SUPERSAMPLING_FACTOR)
            ((arrowSize E P).2 * E.SUPERSAMPLING_FACTOR)
            (E.fromColorOpacity P.fill P.fillOpacity)
            (|P.strokeWidth| * E.SUPERSAMPLING_FACTOR)
            (E.fromColorOpacity P.stroke P.strokeOpacity))) := by
  refine ⟨?_, ?_, ?_, ?_, ?_⟩
  · intro hw hh; simp [arrowSize, hw, hh]
  · intro hw hh; simp [arrowSize, hw, hh]
  · intro hw hh; simp [arrowSize, hw, hh]
  · intro hw hh; simp [arrowSize, hw, hh]
  · intro hfile hshape
    obtain ⟨h1, h2⟩ := resolveProcedural_arrow E P cache hshape
    refine ⟨(resolveProcedural E P cache).1, (resolveProcedural E P cache).2,
      resolveGlyph_procedural E P cache hfile, h1, ?_⟩
    intro hmiss
    rw [h1] at hmiss
    exact h2 hmiss

/-- C10 amended, at a sample input: width 10, height not set, arrow defaults 28 by 14. -/
theorem arrow_sizing_witness :
    0 < widthOnlyParams.width ∧ ¬ 0 < widthOnlyParams.height ∧
    arrowSize sampleEnv widthOnlyParams =
      (widthOnlyParams.width,
        sampleEnv.DEFAULT_ARROW_HEIGHT * widthOnlyParams.width / sampleEnv.DEFAULT_ARROW_WIDTH) :=
  ⟨by decide!, by decide!,
    (arrow_sizing sampleEnv widthOnlyParams []).1 (by decide!) (by decide!)⟩

end MarkersSymbolizer

namespace MarkersSymbolizer

/-! ## Line features without a walk (C11) -/

/-- C11, as stated, fails (the sample line runs from (0, 1/2) to (1, 1/2), its midpoint is
(1/2, 1/2)). With line placement, spacing 1/2 and a transform expression that evaluates to a
list holding a rotation, `build` still performs the walk: it flushes three times and its
one placement lies at (1/4, 1/2). With line placement and spacing 0 there is no walk, but
the one placement carries the whole vertex sequence, not the midpoint. -/
theorem line_midpoints_counterexample :
    (rotationEnv.getMidPoints [oneSegment] = [⟨1 / 2, 1 / 2⟩] ∧
      containsRotationTransform rotationEnv (rotationEnv.evaluate ⟨0⟩) = true ∧
      (build rotationEnv rotatedLineParams 4 sampleLine []).isDone = true ∧
      (build rotationEnv rotatedLineParams 4 sampleLine []).state.handed =
        [⟨7, 0, .vertex ⟨1 / 4, 1 / 2⟩⟩] ∧
      (build rotationEnv rotatedLineParams 4 sampleLine []).state.calls.length = 3) ∧
    (zeroSpacingParams.spacing ≤ 0 ∧
      (build rotationEnv zeroSpacingParams 0 sampleLine []).isDone = true ∧
      (build rotationEnv zeroSpacingParams 0 sampleLine []).state.handed =
        [⟨7, 70, .vertices [⟨0, 1 / 2⟩, ⟨1, 1 / 2⟩]⟩]) := by
  decide!

/-- The loop over the vertex sequences at spacing at most 0: one polyline placement per
vertex sequence, no builder call. -/
theorem verticesListLoop_no_spacing (E : Env) (P : Params) (G : Glyph) (fuel : Nat)
    (localId globalId : Int) (hS : P.spacing ≤ 0) (verticesList : List (List Vec2)) :
    ∀ s : BuildState, ∃ s1,
      verticesListLoop E P G fuel localId globalId verticesList s = .done s1 ∧
      s1.handed = s.handed ++
        verticesList.map (fun vertices => (⟨localId, globalId, .vertices vertices⟩ : Placement)) ∧
      s1.calls = s.calls := by
  induction verticesList with
  | nil => intro s; exact ⟨s, by simp [verticesListLoop]⟩
  | cons vertices rest ih =>
    intro s
    obtain ⟨s1, h1, h2, h3⟩ := ih (addPoint E P G s localId globalId (.vertices vertices))
    refine ⟨s1, by simp only [verticesListLoop, hS, if_true]; exact h1, ?_, ?_⟩
    · rw [h2, addPoint_handed]; simp
    · rw [h3, addPoint_calls]

/-- Under line placement with spacing above 0 the orientation of the style is `POINT`,
whatever the transform expression. -/
theorem orientationOf_walk (E : Env) (P : Params) (hline : placementOf E P = .LINE)
    (hS : 0 < P.spacing) : orientationOf E P = .POINT := by
  unfold orientationOf
  simp [hline, hS]

/-- C11, amended. Midpoint placement for lines. For every line feature: whenever the
placement is not line, `build` performs no spacing walk for that feature (it makes no
builder call) and hands to `addPoint` exactly one placement per representative midpoint of
the line geometry, positioned at that midpoint. Under line placement with spacing at most
0 there is no walk either, but the placements are one per vertex sequence and carry the
vertex sequence itself. Under line placement with spacing above 0 every vertex sequence is
walked, whether or not the transform expression holds a rotation: a rotation only sets the
orientation of the style, which is `POINT` in that case anyway. -/
theorem line_midpoints (E : Env) (P : Params) (G : Glyph) (fuel : Nat) (localId globalId : Int)
    (verticesList : List (List Vec2)) (s : BuildState) :
    (placementOf E P ≠ .LINE →
      ∃ s1, buildFeature E P G fuel ⟨localId, globalId, .line verticesList⟩ s = .done s1 ∧
        s1.handed = s.handed ++ (E.getMidPoints verticesList).map
          (fun m => (⟨localId, globalId, .vertex m⟩ : Placement)) ∧
        s1.calls = s.calls) ∧
    (placementOf E P = .LINE → P.spacing ≤ 0 →
      ∃ s1, buildFeature E P G fuel ⟨localId, globalId, .line verticesList⟩ s = .done s1 ∧
        s1.handed = s.handed ++ verticesList.map
          (fun vertices => (⟨localId, globalId, .vertices vertices⟩ : Placement)) ∧
        s1.calls = s.calls) ∧
    (placementOf E P = .LINE → 0 < P.spacing →
      orientationOf E P = .POINT ∧
      ∀ vertices rest,
        buildFeature E P G fuel ⟨localId, globalId, .line (vertices :: rest)⟩ s =
          match walkVertices E P G fuel localId vertices s with
          | .done s1 => verticesListLoop E P G fuel localId globalId rest s1
          | .outOfFuel s1 => .outOfFuel s1) := by
  refine ⟨?_, ?_, ?_⟩
  · intro hp
    obtain ⟨a1, a2, _, _⟩ :=
      addVertices_fields E P G localId globalId (E.getMidPoints verticesList) s
    exact ⟨_, by simp only [buildFeature, hp, if_false], a1, a2⟩
  · intro hp hS
    obtain ⟨s1, h1, h2, h3⟩ :=
      verticesListLoop_no_spacing E P G fuel localId globalId hS verticesList s
    exact ⟨s1, by simp only [buildFeature, hp, if_true]; exact h1, h2, h3⟩
  · intro hp hS
    refine ⟨orientationOf_walk E P hp hS, ?_⟩
    intro vertices rest
    have hS1 : ¬ P.spacing ≤ 0 := not_le.2 hS
    simp only [buildFeature, hp, if_true, verticesListLoop, hS1, if_false]

/-- C11 amended, at a sample input: point placement, the sample line. -/
theorem line_midpoints_witness :
    placementOf rotationEnv sampleParams ≠ .LINE ∧
    ∃ s1, buildFeature rotationEnv sampleParams flatGlyph 0 ⟨7, 70, .line [oneSegment]⟩
        (BuildState.initial []) = .done s1 ∧
      s1.handed = (BuildState.initial []).handed ++
        (rotationEnv.getMidPoints [oneSegment]).map
          (fun m => (⟨7, 70, .vertex m⟩ : Placement)) ∧
      s1.calls = (BuildState.initial []).calls :=
  ⟨by decide,
    (line_midpoints rotationEnv sampleParams flatGlyph 0 7 70 [oneSegment]
      (BuildState.initial [])).1 (by decide)⟩

/-! ## The rotation test (C16) -/

/-- C16. The rotation test never propagates a parse error. For every value,
`containsRotationTransform` returns `true` if and only if the transform list parses and
holds at least one rotate transform; when the parser throws (`none`) it returns `false`.
In `build`, a transform expression whose value does not parse leaves the orientation as
the placement decides it. -/
theorem rotation_test (E : Env) (val : Value) :
    (containsRotationTransform E val = true ↔
      ∃ transforms, E.parseTransformList (E.valueToString val) = some transforms ∧
        ∃ angle x y, Transform.rotate angle x y ∈ transforms) ∧
    (E.parseTransformList (E.valueToString val) = none →
      containsRotationTransform E val = false) ∧
    (∀ (P : Params) (e : Expression), P.transformExpression = some e → E.evaluate e = val →
      E.parseTransformList (E.valueToString val) = none →
      orientationOf E P =
        if placementOf E P = .LINE ∧ P.spacing > 0 then .POINT else placementOf E P) := by
  refine ⟨?_, ?_, ?_⟩
  · unfold containsRotationTransform
    cases hp : E.parseTransformList (E.valueToString val) with
    | none => simp
    | some transforms =>
      simp only [List.any_eq_true, Option.some.injEq, exists_eq_left']
      constructor
      · rintro ⟨t, ht, hr⟩
        cases t with
        | rotate angle x y => exact ⟨angle, x, y, ht⟩
        | matrix m => cases hr
        | translate dx dy => cases hr
        | scale sx sy => cases hr
        | skewX a => cases hr
        | skewY a => cases hr
      · rintro ⟨angle, x, y, ht⟩
        exact ⟨_, ht, rfl⟩
  · intro hp
    simp [containsRotationTransform, hp]
  · intro P e he hv hp
    simp [orientationOf, he, hv, containsRotationTransform, hp]

/-- C16, at a sample input: the sample parser fails on every string. -/
theorem rotation_test_witness :
    sampleEnv.parseTransformList (sampleEnv.valueToString (.string "rotate(")) = none ∧
    containsRotationTransform sampleEnv (.string "rotate(") = false ∧
    containsRotationTransform rotationEnv (.string "rotate(45)") = true :=
  ⟨rfl, (rotation_test sampleEnv (.string "rotate(")).2.1 rfl,
    (rotation_test rotationEnv (.string "rotate(45)")).1.2 ⟨[.rotate 45 0 0], rfl, 45, 0, 0,
      by simp⟩⟩

end MarkersSymbolizer

namespace MarkersSymbolizer

/-! ## The bitmap cache (C13) -/

/-- The cache key of the procedural branch is `shapeKey`, whatever the cache holds. -/
theorem resolveProcedural_key (E : Env) (P : Params) (cache : BitmapCache) :
    (resolveProcedural E P cache).1.file = shapeKey E P := by
  unfold resolveProcedural shapeKey shapeSize
  cases hshape : selectShape E P with
  | ellipse => simp only [shapeName]; split <;> rfl
  | arrow => simp only [shapeName]; split <;> rfl

/-- The store law: `getBitmap` returns what `storeBitmap` stored last under the key. -/
theorem getBitmap_storeBitmap (cache : BitmapCache) (key : String) (bitmap : Bitmap) :
    getBitmap (storeBitmap cache key bitmap) key = some bitmap := by
  simp [getBitmap, storeBitmap]

/-- After the procedural branch the cache holds the glyph bitmap under the key. -/
theorem resolveProcedural_cached (E : Env) (P : Params) (cache : BitmapCache) :
    getBitmap (resolveProcedural E P cache).2 (shapeKey E P) =
      some (resolveProcedural E P cache).1.bitmap := by
  unfold resolveProcedural shapeKey shapeSize
  cases hshape : selectShape E P with
  | ellipse =>
    simp only [shapeName]
    split
    · next bitmap hb => simpa using hb
    · exact getBitmap_storeBitmap _ _ _
  | arrow =>
    simp only [shapeName]
    split
    · next bitmap hb => simpa using hb
    · exact getBitmap_storeBitmap _ _ _

/-- Resolving the same parameters again, on the cache the first resolution left, yields the
same glyph and leaves the cache as it is: the lookup hits, nothing is rasterized or stored. -/
theorem resolveProcedural_again (E : Env) (P : Params) (cache : BitmapCache) :
    resolveProcedural E P (resolveProcedural E P cache).2 =
      ((resolveProcedural E P cache).1, (resolveProcedural E P cache).2) := by
  cases hshape : selectShape E P with
  | ellipse =>
    simp only [resolveProcedural, hshape]
    cases hb : getBitmap cache (markerKey E "ellipse" (ellipseSize E P).1 (ellipseSize E P).2
        (E.fromColorOpacity P.fill P.fillOpacity) P.strokeWidth
        (E.fromColorOpacity P.stroke P.strokeOpacity)) with
    | some bitmap => simp only [hb]
    | none => simp only [getBitmap_storeBitmap]
  | arrow =>
    simp only [resolveProcedural, hshape]
    cases hb : getBitmap cache (markerKey E "arrow" (arrowSize E P).1 (arrowSize E P).2
        (E.fromColorOpacity P.fill P.fillOpacity) P.strokeWidth
        (E.fromColorOpacity P.stroke P.strokeOpacity)) with
    | some bitmap => simp only [hb]
    | none => simp only [getBitmap_storeBitmap]

/-- No step of the geometry loop touches the bitmap cache. -/
theorem cache_preserved (E : Env) (P : Params) (G : Glyph) (cache : BitmapCache) :
    Preserved E P G (fun s => s.cache = cache) := by
  refine ⟨?_, ?_, ?_⟩
  · intro s localId globalId position hs
    unfold addPoint
    split
    · split
      · exact hs
      · split <;> exact hs
    · exact hs
  · intro s transform hs
    unfold flushPoints
    split <;> exact hs
  · intro s severity message hs
    exact hs

/-- The cache a `build` call leaves is the cache after its glyph resolution. -/
theorem build_cache (E : Env) (P : Params) (G : Glyph) (fuel : Nat) (fc : FeatureCollection)
    (cache cache1 : BitmapCache) (hG : resolveGlyph E P cache = some (G, cache1)) :
    (build E P fuel fc cache).state.cache = cache1 :=
  build_inv fuel fc cache cache1 hG (cache_preserved E P G cache1) rfl

/-- C13. Cache reuse. With no file reference: the cache key is `shapeKey`, a function of the
shape tuple alone (kind, resolved width and height, fill, stroke width, stroke colour), so
parameters that agree on the tuple get the same key, whatever the caches hold. The cache
returns under a key what was stored last. A second `build` with the same parameters, run on
the cache the first one left (any feature collection, any fuel), finds the bitmap of the
first under the key: its glyph resolution yields the same glyph and leaves the cache
unchanged (the lookup hits, so the branch that rasterizes and stores is not taken), and
every batch it delivers carries the very bitmap of the first call. -/
theorem cache_reuse (E : Env) (P : Params) (fuel1 fuel2 : Nat) (fc1 fc2 : FeatureCollection)
    (cache : BitmapCache) (hfile : P.file = "") :
    (∀ cache1, (resolveProcedural E P cache1).1.file = shapeKey E P) ∧
    (∀ (P1 : Params), selectShape E P1 = selectShape E P → shapeSize E P1 = shapeSize E P →
      E.fromColorOpacity P1.fill P1.fillOpacity = E.fromColorOpacity P.fill P.fillOpacity →
      P1.strokeWidth = P.strokeWidth →
      E.fromColorOpacity P1.stroke P1.strokeOpacity =
        E.fromColorOpacity P.stroke P.strokeOpacity →
      shapeKey E P1 = shapeKey E P) ∧
    (∀ (c : BitmapCache) key bitmap, getBitmap (storeBitmap c key bitmap) key = some bitmap) ∧
    getBitmap (build E P fuel1 fc1 cache).state.cache (shapeKey E P) =
      some (resolveProcedural E P cache).1.bitmap ∧
    resolveGlyph E P (build E P fuel1 fc1 cache).state.cache =
      some ((resolveProcedural E P cache).1, (build E P fuel1 fc1 cache).state.cache) ∧
    (build E P fuel2 fc2 (build E P fuel1 fc1 cache).state.cache).state.cache =
      (build E P fuel1 fc1 cache).state.cache ∧
    (∀ c ∈ (build E P fuel2 fc2 (build E P fuel1 fc1 cache).state.cache).state.calls,
      c.bitmap = some (resolveProcedural E P cache).1.bitmap) := by
  have hG1 : resolveGlyph E P cache =
      some ((resolveProcedural E P cache).1, (resolveProcedural E P cache).2) :=
    resolveGlyph_procedural E P cache hfile
  have hc1 : (build E P fuel1 fc1 cache).state.cache = (resolveProcedural E P cache).2 :=
    build_cache E P _ fuel1 fc1 cache _ hG1
  have hG2 : resolveGlyph E P (resolveProcedural E P cache).2 =
      some ((resolveProcedural E P cache).1, (resolveProcedural E P cache).2) := by
    rw [resolveGlyph_procedural E P _ hfile, resolveProcedural_again]
  refine ⟨fun cache1 => resolveProcedural_key E P cache1, ?_, getBitmap_storeBitmap, ?_, ?_, ?_,
    ?_⟩
  · intro P1 h1 h2 h3 h4 h5
    unfold shapeKey
    rw [h1, h2, h3, h4, h5]
  · rw [hc1]
    exact resolveProcedural_cached E P cache
  · rw [hc1]
    exact hG2
  · rw [hc1]
    exact build_cache E P _ fuel2 fc2 _ _ hG2
  · rw [hc1]
    exact build_inv fuel2 fc2 _ _ hG2 (bitmap_preserved E P _) (by simp [BuildState.initial])

/-- C13, at a sample input: two `build` calls with the red ellipse parameters, the first on
an empty cache. The first stores one bitmap, the second stores nothing. -/
theorem cache_reuse_witness :
    redEllipseParams.file = "" ∧
    (build sampleEnv redEllipseParams 0 singlePoint []).state.cache.length = 1 ∧
    (build sampleEnv redEllipseParams 0 samplePoints
        (build sampleEnv redEllipseParams 0 singlePoint []).state.cache).state.cache =
      (build sampleEnv redEllipseParams 0 singlePoint []).state.cache :=
  ⟨rfl, by decide!,
    (cache_reuse sampleEnv redEllipseParams 0 0 singlePoint samplePoints [] rfl).2.2.2.2.2.1⟩

end MarkersSymbolizer

namespace MarkersSymbolizer

/-! ## End-to-end ellipse marker (C14) -/

/-- The canvas of an ellipse without stroke, at an integral size, has exactly that size. -/
theorem makeEllipseBitmap_size (n m : ℕ) (color strokeColor : Color) :
    (makeEllipseBitmap n m color 0 strokeColor).width = n ∧
    (makeEllipseBitmap n m color 0 strokeColor).height = m := by
  simp [makeEllipseBitmap, BitmapCanvas.buildBitmap, BitmapCanvas.draw, BitmapCanvas.create]

/-- C14. End-to-end ellipse marker. One point feature with one vertex; marker type
`ellipse`, width bound to 20, height not bound, no file, overlap not allowed, stroke width
0; `lexical_cast` prints 20 as "20" and 0 as "0"; the supersampling factor is a positive
whole number `n`; the key is not in the cache yet. Then `build` returns for every fuel,
having delivered exactly one placement in one batch on the label path (group 0, at the
vertex); the cache key is `__default_marker_ellipse_20_20_<fill value>_0_<stroke value>.bmp`;
the bitmap is rasterized at `20 n` pixels per side and stored under the key; and the scale
of the style makes its logical size `20 * fontScale` in both dimensions. -/
theorem ellipse_end_to_end (E : Env) (P : Params) (fuel : Nat) (localId globalId : Int)
    (v : Vec2) (cache : BitmapCache) (n : ℕ)
    (hmarker : P.markerType = "ellipse") (hfile : P.file = "")
    (hwidth : P.width = 20) (hwd : P.widthDefined = true) (hhd : P.heightDefined = false)
    (hoverlap : P.allowOverlap = false) (hstroke : P.strokeWidth = 0)
    (h20 : E.floatToString 20 = "20") (h0 : E.floatToString 0 = "0")
    (hn : 0 < n) (hF : E.SUPERSAMPLING_FACTOR = n)
    (hmiss : getBitmap cache (shapeKey E P) = none) :
    ∃ s G call, build E P fuel [⟨localId, globalId, .point [v]⟩] cache = .done s ∧
      resolveGlyph E P cache = some (G, s.cache) ∧
      s.handed = [⟨localId, globalId, .vertex v⟩] ∧
      s.calls = [call] ∧
      call.isAddPoints = false ∧
      call.labelRecords = [(localId, ⟨E.getBitmapId globalId G.file, 0, .vertex v, 0⟩)] ∧
      call.bitmap = some G.bitmap ∧
      call.transform = P.transform.mul (scale3_matrix G.bitmapScaleX G.bitmapScaleY 1) ∧
      G.file = "__default_marker_" ++ "ellipse" ++ "_" ++ "20" ++ "_" ++ "20" ++ "_" ++
        toString (E.fromColorOpacity P.fill P.fillOpacity).value ++ "_" ++ "0" ++ "_" ++
        toString (E.fromColorOpacity P.stroke P.strokeOpacity).value ++ ".bmp" ∧
      G.bitmap.width = 20 * n ∧ G.bitmap.height = 20 * n ∧
      getBitmap s.cache G.file = some G.bitmap ∧
      (G.bitmap.width : ℚ) * G.bitmapScaleX = 20 * E.fontScale ∧
      (G.bitmap.height : ℚ) * G.bitmapScaleY = 20 * E.fontScale := by
  have hshape : selectShape E P = .ellipse := by simp [selectShape, hmarker]
  have hsize : ellipseSize E P = (20, 20) := by
    simp [ellipseSize, hwd, hhd, hwidth]
  have hkey : shapeKey E P = markerKey E "ellipse" 20 20
      (E.fromColorOpacity P.fill P.fillOpacity) 0
      (E.fromColorOpacity P.stroke P.strokeOpacity) := by
    simp [shapeKey, shapeSize, shapeName, hshape, hsize, hstroke]
  have hbitmap : (resolveProcedural E P cache).1.bitmap =
      makeEllipseBitmap ((20 * n : ℕ) : ℚ) ((20 * n : ℕ) : ℚ)
        (E.fromColorOpacity P.fill P.fillOpacity) 0
        (E.fromColorOpacity P.stroke P.strokeOpacity) := by
    have h := (resolveProcedural_ellipse E P cache hshape).2
    rw [hsize] at h
    simp only [hstroke] at h
    have hmiss1 : getBitmap cache (markerKey E "ellipse" 20 20
        (E.fromColorOpacity P.fill P.fillOpacity) 0
        (E.fromColorOpacity P.stroke P.strokeOpacity)) = none := by
      rw [← hkey]; exact hmiss
    rw [h hmiss1, hF]
    simp
  have hdims := makeEllipseBitmap_size (20 * n) (20 * n)
    (E.fromColorOpacity P.fill P.fillOpacity) (E.fromColorOpacity P.stroke P.strokeOpacity)
  have hscale : (resolveProcedural E P cache).1.bitmapScaleX =
        20 * E.fontScale / ((resolveProcedural E P cache).1.bitmap.width : ℚ) ∧
      (resolveProcedural E P cache).1.bitmapScaleY =
        20 * E.fontScale / ((resolveProcedural E P cache).1.bitmap.height : ℚ) := by
    simp only [resolveProcedural, hshape, hsize]
    split <;> exact ⟨rfl, rfl⟩
  have hG := resolveGlyph_procedural E P cache hfile
  have hb : build E P fuel [⟨localId, globalId, .point [v]⟩] cache =
      .done (flushPoints E P (resolveProcedural E P cache).1
        (addPoint E P (resolveProcedural E P cache).1
          (BuildState.initial (resolveProcedural E P cache).2) localId globalId (.vertex v))
        P.transform) := by
    simp only [build, hG, featureLoop, buildFeature, addVertices]
  have hfileKey := resolveProcedural_key E P cache
  have hw : (resolveProcedural E P cache).1.bitmap.width = 20 * n := by
    rw [hbitmap]; exact_mod_cast hdims.1
  have hh : (resolveProcedural E P cache).1.bitmap.height = 20 * n := by
    rw [hbitmap]; exact_mod_cast hdims.2
  have hnq : (0 : ℚ) < 20 * n := by positivity
  refine ⟨_, (resolveProcedural E P cache).1,
    .addBitmapLabels
      [(localId, ⟨E.getBitmapId globalId (resolveProcedural E P cache).1.file, 0, .vertex v, 0⟩)]
      ⟨orientationOf E P, 0xffffffff, (resolveProcedural E P cache).1.fillOpacity,
        some (resolveProcedural E P cache).1.bitmap,
        P.transform.mul (scale3_matrix (resolveProcedural E P cache).1.bitmapScaleX
          (resolveProcedural E P cache).1.bitmapScaleY 1)⟩,
    hb, ?_, ?_, ?_, rfl, rfl, rfl, rfl, ?_, hw, hh, ?_, ?_, ?_⟩
  · rw [hG]
    simp [flushPoints, addPoint, hoverlap, BuildState.initial]
  · simp [flushPoints, addPoint, hoverlap, BuildState.initial]
  · simp [flushPoints, addPoint, hoverlap, BuildState.initial, groupIdOf]
  · rw [hfileKey, hkey]
    simp only [markerKey, h20, h0]
  · rw [hfileKey]
    have hc : (flushPoints E P (resolveProcedural E P cache).1
        (addPoint E P (resolveProcedural E P cache).1
          (BuildState.initial (resolveProcedural E P cache).2) localId globalId (.vertex v))
        P.transform).cache = (resolveProcedural E P cache).2 := by
      simp [flushPoints, addPoint, hoverlap, BuildState.initial]
    rw [hc]
    exact resolveProcedural_cached E P cache
  · rw [hscale.1, hw]
    push_cast
    field_simp
  · rw [hscale.2, hh]
    push_cast
    field_simp

/-- C14, at a sample input: the red ellipse parameters on an empty cache, supersampling
factor 4: one label placement, a bitmap of 80 by 80 pixels. -/
theorem ellipse_end_to_end_witness :
    getBitmap [] (shapeKey sampleEnv redEllipseParams) = none ∧
    sampleEnv.floatToString 20 = "20" ∧ sampleEnv.floatToString 0 = "0" ∧
    ∃ (s : BuildState) (G : Glyph) (call : BuilderCall),
      build sampleEnv redEllipseParams 0 singlePoint [] = .done s ∧
      s.calls = [call] ∧ call.isAddPoints = false ∧
      G.file = "__default_marker_ellipse_20_20_4294901760_0_0.bmp" ∧
      G.bitmap.width = 80 ∧ G.bitmap.height = 80 := by
  obtain ⟨s, G, call, h1, _, _, h4, h5, _, _, _, h9, h10, h11, _⟩ :=
    ellipse_end_to_end sampleEnv redEllipseParams 0 1 101 ⟨1 / 2, 1 / 2⟩ [] 4 rfl rfl rfl rfl rfl
      rfl rfl (by decide!) (by decide!) (by decide) rfl rfl
  refine ⟨rfl, by decide!, by decide!, s, G, call, h1, h4, h5, ?_, ?_, ?_⟩
  · rw [h9]; decide!
  · rw [h10]; rfl
  · rw [h11]; rfl

end MarkersSymbolizer

namespace MarkersSymbolizer

/-! ## Unsupported geometry (C15) -/

/-- The lambda `addPoint` neither reads nor writes the log. -/
theorem addPoint_eraseLog (E : Env) (P : Params) (G : Glyph) (s : BuildState)
    (localId globalId : Int) (position : Position) :
    eraseLog (addPoint E P G s localId globalId position) =
      addPoint E P G (eraseLog s) localId globalId position := by
  unfold addPoint eraseLog
  split
  · split
    · rfl
    · split <;> rfl
  · rfl

/-- A flush neither reads nor writes the log. -/
theorem flushPoints_eraseLog (E : Env) (P : Params) (G : Glyph) (s : BuildState)
    (transform : Mat3) :
    eraseLog (flushPoints E P G s transform) = flushPoints E P G (eraseLog s) transform := by
  unfold flushPoints eraseLog
  split <;> rfl

/-- The body of the `while` loop neither reads nor writes the log. -/
theorem walkEmit_eraseLog (E : Env) (P : Params) (G : Glyph) (localId : Int) (v0 v1 : Vec2)
    (lineLen linePos : ℚ) (s : BuildState) :
    eraseLog (walkEmit E P G localId v0 v1 lineLen linePos s) =
      walkEmit E P G localId v0 v1 lineLen linePos (eraseLog s) := by
  by_cases hin : insideTile (v0.add ((v1.sub v0).smul (linePos / lineLen))) = true
  · simp only [walkEmit, hin, if_true, flushPoints_eraseLog, addPoint_eraseLog]
  · simp only [walkEmit, hin]
    rfl

/-- The `while` loop neither reads nor writes the log. -/
theorem whileLoop_eraseLog (E : Env) (P : Params) (G : Glyph) (localId : Int) (v0 v1 : Vec2)
    (lineLen : ℚ) (fuel : Nat) :
    ∀ (linePos : ℚ) (s : BuildState),
      (whileLoop E P G localId v0 v1 lineLen fuel linePos s).mapWalk eraseLog =
        whileLoop E P G localId v0 v1 lineLen fuel linePos (eraseLog s) := by
  induction fuel with
  | zero =>
    intro linePos s
    unfold whileLoop
    split <;> rfl
  | succ n ih =>
    intro linePos s
    unfold whileLoop
    split
    · rw [ih, walkEmit_eraseLog]
    · rfl

/-- The segment loop neither reads nor writes the log. -/
theorem segmentLoop_eraseLog (E : Env) (P : Params) (G : Glyph) (fuel : Nat) (localId : Int)
    (vertices : List Vec2) :
    ∀ (i : Nat) (linePos : ℚ) (s : BuildState),
      (segmentLoop E P G fuel localId i vertices linePos s).mapState eraseLog =
        segmentLoop E P G fuel localId i vertices linePos (eraseLog s) := by
  induction vertices with
  | nil => intro i linePos s; simp only [segmentLoop, Outcome.mapState]
  | cons v0 tl ih =>
    intro i linePos s
    cases tl with
    | nil => simp only [segmentLoop, Outcome.mapState]
    | cons v1 rest =>
      simp only [segmentLoop]
      rw [← whileLoop_eraseLog]
      cases whileLoop E P G localId v0 v1 (floatMul (E.length (v1.sub v0)) E.tileSize) fuel
        (if i = 1 then floatMul (min (floatMul (E.length (v1.sub v0)) E.tileSize) P.spacing)
          (1 / 2) else linePos)
        s with
      | done r =>
        obtain ⟨lp, s1⟩ := r
        simp only [Outcome.mapWalk]
        exact ih (i + 1) _ s1
      | outOfFuel s1 => rfl

/-- The loop over the vertex sequences neither reads nor writes the log. -/
theorem verticesListLoop_eraseLog (E : Env) (P : Params) (G : Glyph) (fuel : Nat)
    (localId globalId : Int) (verticesList : List (List Vec2)) :
    ∀ (s : BuildState),
      (verticesListLoop E P G fuel localId globalId verticesList s).mapState eraseLog =
        verticesListLoop E P G fuel localId globalId verticesList (eraseLog s) := by
  induction verticesList with
  | nil => intro s; simp only [verticesListLoop, Outcome.mapState]
  | cons vertices rest ih =>
    intro s
    unfold verticesListLoop
    split
    · rw [ih, addPoint_eraseLog]
    · simp only [walkVertices]
      rw [← flushPoints_eraseLog, ← segmentLoop_eraseLog]
      cases segmentLoop E P G fuel localId 1 vertices 0 (flushPoints E P G s P.transform) with
      | done s1 => simp only [Outcome.mapState]; exact ih s1
      | outOfFuel s1 => rfl

/-- The loops over vertices neither read nor write the log. -/
theorem addVertices_eraseLog (E : Env) (P : Params) (G : Glyph) (localId globalId : Int)
    (vertices : List Vec2) :
    ∀ (s : BuildState),
      eraseLog (addVertices E P G localId globalId vertices s) =
        addVertices E P G localId globalId vertices (eraseLog s) := by
  induction vertices with
  | nil => intro s; rfl
  | cons v rest ih =>
    intro s
    simp only [addVertices]
    rw [ih, addPoint_eraseLog]

/-- For a feature of supported geometry the body of the geometry loop neither reads nor
writes the log. -/
theorem buildFeature_eraseLog (E : Env) (P : Params) (G : Glyph) (fuel : Nat) (f : Feature)
    (s : BuildState) (hf : isUnsupported f = false) :
    (buildFeature E P G fuel f s).mapState eraseLog = buildFeature E P G fuel f (eraseLog s) := by
  unfold buildFeature
  unfold isUnsupported at hf
  cases hg : f.geometry with
  | point vertices => simp only [Outcome.mapState, addVertices_eraseLog]
  | line verticesList =>
    simp only
    split
    · exact verticesListLoop_eraseLog E P G fuel _ _ _ s
    · simp only [Outcome.mapState, addVertices_eraseLog]
  | polygon polygonList => simp only [Outcome.mapState, addVertices_eraseLog]
  | other => rw [hg] at hf; cases hf

/-- Up to the log, the geometry loop over a collection is the geometry loop over the
collection without its features of unsupported geometry. -/
theorem featureLoop_skip (E : Env) (P : Params) (G : Glyph) (fuel : Nat)
    (fc : FeatureCollection) :
    ∀ (s : BuildState),
      (featureLoop E P G fuel fc s).mapState eraseLog =
        featureLoop E P G fuel (fc.filter (fun f => !isUnsupported f)) (eraseLog s) := by
  induction fc with
  | nil => intro s; rfl
  | cons f rest ih =>
    intro s
    cases hf : isUnsupported f with
    | true =>
      have hb : buildFeature E P G fuel f s =
          .done (logWrite s .WARNING "Unsupported geometry for MarkersSymbolizer") := by
        unfold isUnsupported at hf
        unfold buildFeature
        cases hg : f.geometry with
        | other => rfl
        | point vertices => rw [hg] at hf; cases hf
        | line verticesList => rw [hg] at hf; cases hf
        | polygon polygonList => rw [hg] at hf; cases hf
      simp only [featureLoop, hb, List.filter, hf, Bool.not_true]
      rw [ih]
      rfl
    | false =>
      simp only [featureLoop, List.filter, hf, Bool.not_false]
      rw [← buildFeature_eraseLog E P G fuel f s hf]
      cases buildFeature E P G fuel f s with
      | done s1 => simp only [Outcome.mapState]; exact ih s1
      | outOfFuel s1 => rfl

/-- C15. Unsupported geometry is skipped, not fatal. For every feature collection (and every
fuel), `build` delivers to the builder the same sequence of batches as for the collection
without its features of unsupported or null geometry; it also hands the same placements to
`addPoint` and finishes in the same cases. For such a feature the body of the geometry loop
only appends one warning to the log: no placement, no queue entry, no builder call. -/
theorem unsupported_skipped (E : Env) (P : Params) (fuel : Nat) (fc : FeatureCollection)
    (cache : BitmapCache) :
    (build E P fuel fc cache).state.calls =
      (build E P fuel (fc.filter (fun f => !isUnsupported f)) cache).state.calls ∧
    (build E P fuel fc cache).state.handed =
      (build E P fuel (fc.filter (fun f => !isUnsupported f)) cache).state.handed ∧
    (build E P fuel fc cache).isDone =
      (build E P fuel (fc.filter (fun f => !isUnsupported f)) cache).isDone ∧
    (∀ (G : Glyph) (f : Feature) (s : BuildState), isUnsupported f = true →
      ∃ s1, buildFeature E P G fuel f s = .done s1 ∧
        s1.log = s.log ++ [(Severity.WARNING, "Unsupported geometry for MarkersSymbolizer")] ∧
        s1.handed = s.handed ∧ s1.pointInfos = s.pointInfos ∧ s1.labelInfos = s.labelInfos ∧
        s1.calls = s.calls ∧ s1.cache = s.cache) := by
  have key : (build E P fuel fc cache).mapState eraseLog =
      (build E P fuel (fc.filter (fun f => !isUnsupported f)) cache).mapState eraseLog := by
    unfold build
    cases hG : resolveGlyph E P cache with
    | none => rfl
    | some r =>
      obtain ⟨G, cache1⟩ := r
      simp only
      have h1 := featureLoop_skip E P G fuel fc (BuildState.initial cache1)
      have h2 := featureLoop_skip E P G fuel (fc.filter (fun f => !isUnsupported f))
        (BuildState.initial cache1)
      rw [List.filter_filter] at h2
      simp only [Bool.and_self] at h2
      rw [← h2] at h1
      revert h1
      cases featureLoop E P G fuel fc (BuildState.initial cache1) with
      | done s1 =>
        cases featureLoop E P G fuel (fc.filter (fun f => !isUnsupported f))
          (BuildState.initial cache1) with
        | done s2 =>
          intro h1
          simp only [Outcome.mapState] at h1 ⊢
          injection h1 with h1
          rw [flushPoints_eraseLog, flushPoints_eraseLog, h1]
        | outOfFuel s2 => intro h1; cases h1
      | outOfFuel s1 =>
        cases featureLoop E P G fuel (fc.filter (fun f => !isUnsupported f))
          (BuildState.initial cache1) with
        | done s2 => intro h1; cases h1
        | outOfFuel s2 => intro h1; exact h1
  refine ⟨?_, ?_, ?_, ?_⟩
  · have h := congrArg (fun o => (Outcome.state o).calls) key
    revert h
    cases build E P fuel fc cache <;>
      cases build E P fuel (fc.filter (fun f => !isUnsupported f)) cache <;>
      exact fun h => h
  · have h := congrArg (fun o => (Outcome.state o).handed) key
    revert h
    cases build E P fuel fc cache <;>
      cases build E P fuel (fc.filter (fun f => !isUnsupported f)) cache <;>
      exact fun h => h
  · have h := congrArg Outcome.isDone key
    revert h
    cases build E P fuel fc cache <;>
      cases build E P fuel (fc.filter (fun f => !isUnsupported f)) cache <;>
      exact fun h => h
  · intro G f s hf
    refine ⟨logWrite s .WARNING "Unsupported geometry for MarkersSymbolizer", ?_, rfl, rfl, rfl,
      rfl, rfl, rfl⟩
    unfold isUnsupported at hf
    unfold buildFeature
    cases hg : f.geometry with
    | other => rfl
    | point vertices => rw [hg] at hf; cases hf
    | line verticesList => rw [hg] at hf; cases hf
    | polygon polygonList => rw [hg] at hf; cases hf

/-- C15, at a sample input: a point feature, a feature of unsupported geometry and a polygon
feature give the one batch of the point and polygon features alone, and one warning. -/
theorem unsupported_skipped_witness :
    mixedFeatures.filter (fun f => !isUnsupported f) =
      [⟨1, 101, .point [⟨1 / 4, 1 / 4⟩]⟩, ⟨3, 103, .polygon [[[⟨1 / 3, 1 / 3⟩]]]⟩] ∧
    (build sampleEnv sampleParams 0 mixedFeatures []).state.log.length = 1 ∧
    (build sampleEnv sampleParams 0 mixedFeatures []).state.calls =
      (build sampleEnv sampleParams 0 (mixedFeatures.filter (fun f => !isUnsupported f))
        []).state.calls :=
  ⟨by decide!, by decide!, (unsupported_skipped sampleEnv sampleParams 0 mixedFeatures []).1⟩

end MarkersSymbolizer

namespace MarkersSymbolizer

/-! ## The walk as a fold over its candidates -/

/-- The `while` loop is the fold of its body over the candidates, and it ends when
`whileExit` says so. -/
theorem whileLoop_candidates (E : Env) (P : Params) (G : Glyph) (localId : Int) (v0 v1 : Vec2)
    (before lineLen : ℚ) (fuel : Nat) :
    ∀ (linePos : ℚ) (s : BuildState),
      whileLoop E P G localId v0 v1 lineLen fuel linePos s =
        match whileExit lineLen (floatAdd P.spacing (bitmapSize G)) fuel linePos with
        | some lp => .done (lp, (whileCandidates v0 v1 before lineLen
            (floatAdd P.spacing (bitmapSize G)) fuel linePos).foldl (emitCandidate E P G localId) s)
        | none => .outOfFuel ((whileCandidates v0 v1 before lineLen
            (floatAdd P.spacing (bitmapSize G)) fuel linePos).foldl (emitCandidate E P G localId) s) := by
  induction fuel with
  | zero =>
    intro linePos s
    unfold whileLoop whileExit whileCandidates
    split <;> rfl
  | succ n ih =>
    intro linePos s
    unfold whileLoop whileExit whileCandidates
    split
    · rw [ih]
      rfl
    · rfl

/-- The segment loop is the fold of the body of the `while` loop over the candidates of its
iterations. -/
theorem segmentLoop_candidates (E : Env) (P : Params) (G : Glyph) (fuel : Nat) (localId : Int)
    (vertices : List Vec2) :
    ∀ (i : Nat) (before linePos : ℚ) (s : BuildState),
      (segmentLoop E P G fuel localId i vertices linePos s).state =
        ((segmentRuns E P G fuel i vertices before linePos).flatMap
          (runCandidates P G fuel)).foldl (emitCandidate E P G localId) s := by
  induction vertices with
  | nil => intro i before linePos s; rfl
  | cons v0 tl ih =>
    intro i before linePos s
    cases tl with
    | nil => rfl
    | cons v1 rest =>
      simp only [segmentLoop, segmentRuns, List.flatMap_cons, List.foldl_append]
      rw [whileLoop_candidates E P G localId v0 v1 before]
      cases whileExit (floatMul (E.length (v1.sub v0)) E.tileSize)
        (floatAdd P.spacing (bitmapSize G)) fuel
        (if i = 1 then floatMul (min (floatMul (E.length (v1.sub v0)) E.tileSize) P.spacing)
          (1 / 2)
          else linePos) with
      | none => rfl
      | some lp =>
        simp only [runCandidates]
        exact ih (i + 1) _ _ _

/-- The walk over one vertex sequence is the flush that precedes it followed by the fold of
the body of the `while` loop over its candidates. -/
theorem walkVertices_candidates (E : Env) (P : Params) (G : Glyph) (fuel : Nat)
    (localId : Int) (vertices : List Vec2) (s : BuildState) :
    (walkVertices E P G fuel localId vertices s).state =
      (walkCandidates E P G fuel vertices).foldl (emitCandidate E P G localId)
        (flushPoints E P G s P.transform) :=
  segmentLoop_candidates E P G fuel localId vertices 1 0 0 _

/-- The placements a fold over candidates hands to `addPoint`: those of the candidates that
pass the clip test, at their positions. -/
theorem foldl_emit_handed (E : Env) (P : Params) (G : Glyph) (localId : Int)
    (cands : List Candidate) :
    ∀ s : BuildState,
      (cands.foldl (emitCandidate E P G localId) s).handed =
        s.handed ++ (cands.filter (fun c => insideTile c.position)).map
          (fun c => (⟨localId, 0, .vertex c.position⟩ : Placement)) := by
  induction cands with
  | nil => intro s; simp
  | cons c rest ih =>
    intro s
    simp only [List.foldl_cons]
    rw [ih]
    by_cases hin : insideTile c.position = true
    · have hin1 : insideTile (c.v0.add ((c.v1.sub c.v0).smul (c.linePos / c.lineLen))) = true :=
        hin
      simp only [emitCandidate, walkEmit, hin1, if_true, flushPoints_handed, addPoint_handed,
        List.filter_cons, hin, List.map_cons, List.append_assoc, List.singleton_append]
      rfl
    · have hin1 : ¬ insideTile (c.v0.add ((c.v1.sub c.v0).smul (c.linePos / c.lineLen))) = true :=
        hin
      simp only [emitCandidate, walkEmit, hin1, List.filter_cons, hin]
      rfl

/-- The clip test in coordinates. -/
theorem insideTile_iff (pos : Vec2) :
    insideTile pos = true ↔ 0 < pos.x ∧ pos.x < 1 ∧ 0 < pos.y ∧ pos.y < 1 := by
  simp only [insideTile, gt_iff_lt, lt_min_iff, max_lt_iff, decide_eq_true_eq]
  tauto

/-- The placements the walk over one vertex sequence hands to `addPoint`: those of its
candidates that pass the clip test, in order. -/
theorem walkVertices_handed (E : Env) (P : Params) (G : Glyph) (fuel : Nat) (localId : Int)
    (vertices : List Vec2) (s : BuildState) :
    (walkVertices E P G fuel localId vertices s).state.handed =
      s.handed ++ ((walkCandidates E P G fuel vertices).filter
        (fun c => insideTile c.position)).map
          (fun c => (⟨localId, 0, .vertex c.position⟩ : Placement)) := by
  rw [walkVertices_candidates, foldl_emit_handed, flushPoints_handed]

/-! ## Tile-boundary clipping (C12) -/

/-- C12. Tile-boundary clipping. For every vertex sequence walked (every state, every fuel):
the placements the walk hands to `addPoint` are those of its candidates whose position
passes the clip test, in order; each of them has both coordinates strictly between 0 and 1;
a candidate with a coordinate at most 0 or at least 1 leaves the state as it is (it is not
emitted); and whether or not a candidate is emitted, the `while` loop goes on from
`linePos + (spacing + bitmapSize)`, both sums taken in binary32. -/
theorem tile_clipping (E : Env) (P : Params) (G : Glyph) (fuel : Nat) (localId : Int)
    (vertices : List Vec2) (s : BuildState) :
    (walkVertices E P G fuel localId vertices s).state.handed =
      s.handed ++ ((walkCandidates E P G fuel vertices).filter
        (fun c => insideTile c.position)).map
          (fun c => (⟨localId, 0, .vertex c.position⟩ : Placement)) ∧
    (∀ pl ∈ (walkVertices E P G fuel localId vertices s).state.handed.drop s.handed.length,
      ∃ pos, pl.position = .vertex pos ∧ 0 < pos.x ∧ pos.x < 1 ∧ 0 < pos.y ∧ pos.y < 1) ∧
    (∀ (c : Candidate) (s0 : BuildState),
      ¬ (0 < c.position.x ∧ c.position.x < 1 ∧ 0 < c.position.y ∧ c.position.y < 1) →
      emitCandidate E P G localId s0 c = s0) ∧
    (∀ (v0 v1 : Vec2) (lineLen linePos : ℚ) (fuel0 : Nat) (s0 : BuildState),
      linePos < lineLen →
      whileLoop E P G localId v0 v1 lineLen (fuel0 + 1) linePos s0 =
        whileLoop E P G localId v0 v1 lineLen fuel0
          (floatAdd linePos (floatAdd P.spacing (bitmapSize G)))
          (emitCandidate E P G localId s0 ⟨v0, v1, 0, lineLen, linePos⟩)) := by
  have hh := walkVertices_handed E P G fuel localId vertices s
  refine ⟨hh, ?_, ?_, ?_⟩
  · intro pl hpl
    rw [hh, List.drop_left] at hpl
    simp only [List.mem_map, List.mem_filter] at hpl
    obtain ⟨c, ⟨_, hin⟩, hc⟩ := hpl
    subst hc
    exact ⟨c.position, rfl, (insideTile_iff _).1 hin⟩
  · intro c s0 hout
    have hin : ¬ insideTile (c.v0.add ((c.v1.sub c.v0).smul (c.linePos / c.lineLen))) = true :=
      fun h => hout ((insideTile_iff _).1 h)
    simp only [emitCandidate, walkEmit, hin]
    rfl
  · intro v0 v1 lineLen linePos fuel0 s0 hlt
    simp only [whileLoop, hlt, if_true, emitCandidate]

/-- C12, at a sample input: the walk over the vertex sequence that starts on the left edge
visits `x = 0`, `1/2`, `1` and `3/2` and emits only the placement at `x = 1/2`. -/
theorem tile_clipping_witness :
    (walkCandidates sampleEnv lineParams flatGlyph 8 edgeSegments).map Candidate.position =
      [⟨0, 1 / 2⟩, ⟨1 / 2, 1 / 2⟩, ⟨1, 1 / 2⟩, ⟨3 / 2, 1 / 2⟩] ∧
    (walkVertices sampleEnv lineParams flatGlyph 8 7 edgeSegments
      (BuildState.initial [])).state.handed = [⟨7, 0, .vertex ⟨1 / 2, 1 / 2⟩⟩] ∧
    ∀ pl ∈ (walkVertices sampleEnv lineParams flatGlyph 8 7 edgeSegments
        (BuildState.initial [])).state.handed.drop (BuildState.initial []).handed.length,
      ∃ pos, pl.position = .vertex pos ∧ 0 < pos.x ∧ pos.x < 1 ∧ 0 < pos.y ∧ pos.y < 1 :=
  ⟨by decide!, by decide!,
    (tile_clipping sampleEnv lineParams flatGlyph 8 7 edgeSegments (BuildState.initial [])).2.1⟩

end MarkersSymbolizer

namespace MarkersSymbolizer

/-! ## The candidates lie on their segments (C19) -/

/-- The candidates of a `while` loop that is entered at a non-negative `linePos` (when it is
entered at all) have `0 ≤ linePos < lineLen`. -/
theorem whileCandidates_bounds (v0 v1 : Vec2) (before lineLen step : ℚ) (hstep : 0 ≤ step)
    (fuel : Nat) :
    ∀ linePos : ℚ, (linePos < lineLen → 0 ≤ linePos) →
      ∀ c ∈ whileCandidates v0 v1 before lineLen step fuel linePos,
        c.v0 = v0 ∧ c.v1 = v1 ∧ c.before = before ∧ c.lineLen = lineLen ∧
          0 ≤ c.linePos ∧ c.linePos < lineLen := by
  induction fuel with
  | zero => intro linePos _ c hc; simp [whileCandidates] at hc
  | succ n ih =>
    intro linePos hpos c hc
    unfold whileCandidates at hc
    split at hc
    · next hlt =>
      rcases List.mem_cons.1 hc with h | h
      · subst h
        exact ⟨rfl, rfl, rfl, rfl, hpos hlt, hlt⟩
      · exact ih (floatAdd linePos step)
          (fun _ => roundFloat_nonneg (add_nonneg (hpos hlt) hstep)) c h
    · simp at hc

/-- The `while` loop is left at or past the end of the segment. -/
theorem whileExit_ge (lineLen step : ℚ) (fuel : Nat) :
    ∀ linePos lp : ℚ, whileExit lineLen step fuel linePos = some lp → lineLen ≤ lp := by
  induction fuel with
  | zero =>
    intro linePos lp h
    unfold whileExit at h
    split at h
    · cases h
    · injection h with h; linarith
  | succ n ih =>
    intro linePos lp h
    unfold whileExit at h
    split at h
    · exact ih _ _ h
    · injection h with h; linarith

/-- Every iteration of the `for` loop works on two consecutive vertices, with the scaled
length of that segment, and enters its `while` loop at a non-negative `linePos` whenever
the loop body is going to run (and always, when lengths are not negative). -/
theorem segmentRuns_bounds (E : Env) (P : Params) (G : Glyph) (fuel : Nat) (hS : 0 < P.spacing)
    (vertices : List Vec2) :
    ∀ (i : Nat) (before linePos : ℚ), (i = 1 ∨ 0 ≤ linePos) →
      ∀ r ∈ segmentRuns E P G fuel i vertices before linePos,
        (r.start < r.lineLen → 0 ≤ r.start) ∧
        ((∀ v, 0 ≤ E.length v) → 0 ≤ E.tileSize → 0 ≤ r.start) ∧
        r.lineLen = floatMul (E.length (r.v1.sub r.v0)) E.tileSize ∧
        ∃ pre post, vertices = pre ++ r.v0 :: r.v1 :: post := by
  induction vertices with
  | nil => intro i before linePos _ r hr; simp [segmentRuns] at hr
  | cons v0 tl ih =>
    intro i before linePos hi r hr
    cases tl with
    | nil => simp [segmentRuns] at hr
    | cons v1 rest =>
      simp only [segmentRuns] at hr
      have hstart : 0 ≤ floatMul (E.length (v1.sub v0)) E.tileSize →
          0 ≤ floatMul (min (floatMul (E.length (v1.sub v0)) E.tileSize) P.spacing) (1 / 2) :=
        fun h0 => roundFloat_nonneg (mul_nonneg (le_min h0 (le_of_lt hS)) (by norm_num))
      rcases List.mem_cons.1 hr with h | h
      · subst h
        refine ⟨?_, ?_, rfl, [], rest, rfl⟩
        · intro hlt
          simp only at hlt ⊢
          by_cases h1 : i = 1
          · simp only [h1, if_true] at hlt ⊢
            rcases le_total 0 (floatMul (E.length (v1.sub v0)) E.tileSize) with h0 | h0
            · exact hstart h0
            · exfalso
              rw [min_eq_left (le_trans h0 (le_of_lt hS))] at hlt
              have hid : roundFloat (floatMul (E.length (v1.sub v0)) E.tileSize) =
                  floatMul (E.length (v1.sub v0)) E.tileSize := roundFloat_idem _
              have hle : floatMul (E.length (v1.sub v0)) E.tileSize ≤
                  floatMul (E.length (v1.sub v0)) E.tileSize * (1 / 2) := by linarith
              have hmono := roundFloat_mono hle
              rw [hid] at hmono
              exact absurd hlt (not_lt.2 hmono)
          · simp only [h1, if_false]
            rcases hi with hi | hi
            · exact absurd hi h1
            · exact hi
        · intro hlen htile
          simp only
          by_cases h1 : i = 1
          · simp only [h1, if_true]
            exact hstart (roundFloat_nonneg (mul_nonneg (hlen _) htile))
          · simp only [h1, if_false]
            rcases hi with hi | hi
            · exact absurd hi h1
            · exact hi
      · cases hx : whileExit (floatMul (E.length (v1.sub v0)) E.tileSize)
          (floatAdd P.spacing (bitmapSize G)) fuel
          (if i = 1 then floatMul (min (floatMul (E.length (v1.sub v0)) E.tileSize) P.spacing)
            (1 / 2) else linePos) with
        | none => rw [hx] at h; simp at h
        | some lp =>
          rw [hx] at h
          have hge := whileExit_ge _ _ _ _ _ hx
          obtain ⟨a1, a2, a3, pre, post, a4⟩ :=
            ih (i + 1) _ _ (Or.inr (roundFloat_nonneg (sub_nonneg.2 hge))) r h
          exact ⟨a1, a2, a3, v0 :: pre, post, by rw [a4]; rfl⟩

/-- The body of the `while` loop at a candidate that passes the clip test, in a state whose
active queue is empty: exactly one builder call is added, it holds the one record of the
candidate, under the direction transform of the segment, and the queue is empty again. -/
theorem emitCandidate_batch (E : Env) (P : Params) (G : Glyph) (localId : Int)
    (c : Candidate) (s : BuildState) (hin : insideTile c.position = true)
    (hp : P.allowOverlap = true → s.pointInfos = [])
    (hl : P.allowOverlap = false → s.labelInfos = []) :
    ∃ b, (emitCandidate E P G localId s c).calls = s.calls ++ [b] ∧
      b.recordCount = 1 ∧ b.positions = [.vertex c.position] ∧
      b.isAddPoints = P.allowOverlap ∧
      b.transform = ((dirTransform (E.unit (c.v1.sub c.v0))).mul P.transform).mul
        (scale3_matrix G.bitmapScaleX G.bitmapScaleY 1) ∧
      (P.allowOverlap = true → (emitCandidate E P G localId s c).pointInfos = []) ∧
      (P.allowOverlap = false → (emitCandidate E P G localId s c).labelInfos = []) := by
  have hin1 : insideTile (c.v0.add ((c.v1.sub c.v0).smul (c.linePos / c.lineLen))) = true := hin
  cases hA : P.allowOverlap with
  | true =>
    refine ⟨.addPoints [(localId, c.position)]
      ⟨E.convertCompOp P.compOp, E.convertLabelToPointOrientation (orientationOf E P),
        "#ffffff", G.fillOpacity, some G.bitmap,
        ((dirTransform (E.unit (c.v1.sub c.v0))).mul P.transform).mul
          (scale3_matrix G.bitmapScaleX G.bitmapScaleY 1)⟩, ?_, rfl, rfl, rfl, rfl, ?_, ?_⟩
    · simp [emitCandidate, walkEmit, hin1, flushPoints, addPoint, hA, hp hA, Candidate.position]
    · intro _
      simp [emitCandidate, walkEmit, hin1, flushPoints, hA]
    · intro hf; cases hf
  | false =>
    refine ⟨.addBitmapLabels
      [(localId, ⟨E.getBitmapId 0 G.file, groupIdOf P, .vertex c.position, 0⟩)]
      ⟨orientationOf E P, 0xffffffff, G.fillOpacity, some G.bitmap,
        ((dirTransform (E.unit (c.v1.sub c.v0))).mul P.transform).mul
          (scale3_matrix G.bitmapScaleX G.bitmapScaleY 1)⟩, ?_, rfl, rfl, rfl, rfl, ?_, ?_⟩
    · simp [emitCandidate, walkEmit, hin1, flushPoints, addPoint, hA, hl hA, Candidate.position]
    · intro hf; cases hf
    · intro _
      simp [emitCandidate, walkEmit, hin1, flushPoints, hA]

/-- The builder calls of a fold over candidates, from a state whose active queue is empty:
one call per candidate that passes the clip test, in order, each with the one record of its
candidate under the direction transform of its segment. -/
theorem foldl_emit_batches (E : Env) (P : Params) (G : Glyph) (localId : Int)
    (cands : List Candidate) :
    ∀ s : BuildState, (P.allowOverlap = true → s.pointInfos = []) →
      (P.allowOverlap = false → s.labelInfos = []) →
      ∃ batches, (cands.foldl (emitCandidate E P G localId) s).calls = s.calls ++ batches ∧
        List.Forall₂ (fun (c : Candidate) (b : BuilderCall) =>
          b.recordCount = 1 ∧ b.positions = [.vertex c.position] ∧
          b.isAddPoints = P.allowOverlap ∧
          b.transform = ((dirTransform (E.unit (c.v1.sub c.v0))).mul P.transform).mul
            (scale3_matrix G.bitmapScaleX G.bitmapScaleY 1))
          (cands.filter (fun c => insideTile c.position)) batches := by
  induction cands with
  | nil => intro s _ _; exact ⟨[], by simp, by simp⟩
  | cons c rest ih =>
    intro s hp hl
    by_cases hin : insideTile c.position = true
    · obtain ⟨b, h1, h2, h3, h4, h5, h6, h7⟩ := emitCandidate_batch E P G localId c s hin hp hl
      obtain ⟨batches, g1, g2⟩ := ih (emitCandidate E P G localId s c) h6 h7
      refine ⟨b :: batches, ?_, ?_⟩
      · simp only [List.foldl_cons, g1, h1, List.append_assoc, List.singleton_append]
      · simp only [List.filter_cons, hin, if_true]
        exact List.Forall₂.cons ⟨h2, h3, h4, h5⟩ g2
    · have hin1 : ¬ insideTile (c.v0.add ((c.v1.sub c.v0).smul (c.linePos / c.lineLen))) = true :=
        hin
      have hs : emitCandidate E P G localId s c = s := by
        simp only [emitCandidate, walkEmit, hin1]
        rfl
      obtain ⟨batches, g1, g2⟩ := ih s hp hl
      refine ⟨batches, ?_, ?_⟩
      · simp only [List.foldl_cons, hs, g1]
      · simp only [List.filter_cons, hin]
        exact g2

/-- C17. One rotated placement per batch. For every vertex sequence walked (line placement,
spacing above 0; every state, every fuel): after the call of the flush that precedes the
walk, the builder receives one call per emitted candidate, in order; each holds exactly the
one record of that candidate, at its position, on the path chosen by `allow-overlap`; its
style transform is the matrix `[[dx, -dy], [dy, dx]]` of `(dx, dy) = unit(v1 - v0)`, for the
two consecutive vertices `v0`, `v1` of the segment of the candidate, times the base
transform of the symbolizer, times the bitmap scale. So no two placements of the walk
share a batch. -/
theorem rotated_batches (E : Env) (P : Params) (G : Glyph) (fuel : Nat) (localId : Int)
    (vertices : List Vec2) (s : BuildState) :
    (∃ batches,
      (walkVertices E P G fuel localId vertices s).state.calls =
        (flushPoints E P G s P.transform).calls ++ batches ∧
      List.Forall₂ (fun (c : Candidate) (b : BuilderCall) =>
        b.recordCount = 1 ∧ b.positions = [.vertex c.position] ∧
        b.isAddPoints = P.allowOverlap ∧
        b.transform = ((dirTransform (E.unit (c.v1.sub c.v0))).mul P.transform).mul
          (scale3_matrix G.bitmapScaleX G.bitmapScaleY 1))
        ((walkCandidates E P G fuel vertices).filter (fun c => insideTile c.position))
        batches) ∧
    (∀ dir : Vec2, dirTransform dir = ⟨dir.x, -dir.y, 0, dir.y, dir.x, 0, 0, 0, 1⟩) ∧
    (0 < P.spacing → ∀ c ∈ walkCandidates E P G fuel vertices,
      ∃ pre post, vertices = pre ++ c.v0 :: c.v1 :: post) := by
  refine ⟨?_, fun dir => rfl, ?_⟩
  · rw [walkVertices_candidates]
    have hq := flushPoints_queue E P G s P.transform
    exact foldl_emit_batches E P G localId _ _ hq.1 hq.2
  · intro hS c hc
    simp only [walkCandidates, List.mem_flatMap] at hc
    obtain ⟨r, hr, hcr⟩ := hc
    obtain ⟨_, _, _, b4⟩ := segmentRuns_bounds E P G fuel hS vertices 1 0 0 (Or.inl rfl) r hr
    have hv : c.v0 = r.v0 ∧ c.v1 = r.v1 := by
      clear b4 hr
      unfold runCandidates at hcr
      generalize r.start = lp at hcr
      induction fuel generalizing lp with
      | zero => simp [whileCandidates] at hcr
      | succ n ih =>
        unfold whileCandidates at hcr
        split at hcr
        · rcases List.mem_cons.1 hcr with h | h
          · subst h; exact ⟨rfl, rfl⟩
          · exact ih _ h
        · simp at hcr
    rw [hv.1, hv.2]
    exact b4

/-- C17, at a sample input: the sample line walked with the sample parameters: one batch of
one record after the flush that precedes the walk, under the direction transform of the
segment (the identity rotation of a segment along the x axis). -/
theorem rotated_batches_witness :
    (walkVertices sampleEnv lineParams flatGlyph 4 7 threeSegments
      (BuildState.initial [])).state.calls.map BuilderCall.recordCount = [0, 1, 1] ∧
    ∃ batches,
      (walkVertices sampleEnv lineParams flatGlyph 4 7 threeSegments
        (BuildState.initial [])).state.calls =
        (flushPoints sampleEnv lineParams flatGlyph (BuildState.initial [])
          lineParams.transform).calls ++ batches ∧
      List.Forall₂ (fun (c : Candidate) (b : BuilderCall) =>
        b.recordCount = 1 ∧ b.positions = [.vertex c.position] ∧
        b.isAddPoints = lineParams.allowOverlap ∧
        b.transform = ((dirTransform (sampleEnv.unit (c.v1.sub c.v0))).mul
          lineParams.transform).mul
          (scale3_matrix flatGlyph.bitmapScaleX flatGlyph.bitmapScaleY 1))
        ((walkCandidates sampleEnv lineParams flatGlyph 4 threeSegments).filter
          (fun c => insideTile c.position))
        batches :=
  ⟨by decide!,
    (rotated_batches sampleEnv lineParams flatGlyph 4 7 threeSegments (BuildState.initial [])).1⟩

end MarkersSymbolizer

namespace MarkersSymbolizer

/-! ## The walk in exact arithmetic -/

/-- Subtracting a natural number below the ceiling lowers the ceiling by that number. -/
theorem ceil_sub_add (x : ℚ) (n : ℕ) (h : n ≤ ⌈x⌉₊) : ⌈x - n⌉₊ + n = ⌈x⌉₊ := by
  rcases le_or_lt 0 (x - n) with h0 | h0
  · have := Nat.ceil_add_nat h0 n
    rw [sub_add_cancel] at this
    exact this.symm
  · have h1 : ⌈x - n⌉₊ = 0 := Nat.ceil_eq_zero.2 (le_of_lt h0)
    have h2 : ⌈x⌉₊ ≤ n := Nat.ceil_le.2 (by linarith)
    omega

/-- The total scaled length is not negative when no length is. -/
theorem totalLength_nonneg (E : Env) (hlen : ∀ v, 0 ≤ E.length v * E.tileSize)
    (vertices : List Vec2) : 0 ≤ totalLength E vertices := by
  induction vertices with
  | nil => simp [totalLength]
  | cons v0 tl ih =>
    cases tl with
    | nil => simp [totalLength]
    | cons v1 rest =>
      simp only [totalLength]
      exact add_nonneg (hlen _) ih

/-- A `while` loop without rounding is left at or past the end of the segment. -/
theorem whileExitExact_ge (lineLen step : ℚ) (fuel : Nat) :
    ∀ linePos lp : ℚ, whileExitExact lineLen step fuel linePos = some lp → lineLen ≤ lp := by
  induction fuel with
  | zero =>
    intro linePos lp h
    unfold whileExitExact at h
    split at h
    · cases h
    · injection h with h; linarith
  | succ n ih =>
    intro linePos lp h
    unfold whileExitExact at h
    split at h
    · exact ih _ _ h
    · injection h with h; linarith

/-- With enough fuel a `while` loop without rounding visits the offsets
`before + linePos + k step` below the end of its segment, and it is left at the first such
value at or past the end. -/
theorem whileCandidatesExact_offsets (v0 v1 : Vec2) (before lineLen step : ℚ) (hstep : 0 < step)
    (fuel : Nat) :
    ∀ linePos : ℚ, lineLen - linePos ≤ fuel * step →
      (whileCandidatesExact v0 v1 before lineLen step fuel linePos).map Candidate.offset =
        (List.range ⌈(lineLen - linePos) / step⌉₊).map (fun (k : ℕ) => before + linePos + (k : ℚ) * step) ∧
      whileExitExact lineLen step fuel linePos =
        some (linePos + ⌈(lineLen - linePos) / step⌉₊ * step) := by
  induction fuel with
  | zero =>
    intro linePos h
    simp only [Nat.cast_zero, zero_mul] at h
    have hle : ¬ linePos < lineLen := by intro hlt; linarith
    have h0 : ⌈(lineLen - linePos) / step⌉₊ = 0 :=
      Nat.ceil_eq_zero.2 (div_nonpos_of_nonpos_of_nonneg (by linarith) (le_of_lt hstep))
    simp [whileCandidatesExact, whileExitExact, hle, h0]
  | succ n ih =>
    intro linePos h
    by_cases hlt : linePos < lineLen
    · have hn : lineLen - (linePos + step) ≤ n * step := by
        push_cast at h
        linarith
      obtain ⟨i1, i2⟩ := ih (linePos + step) hn
      have hx : (lineLen - linePos) / step = (lineLen - (linePos + step)) / step + 1 := by
        field_simp
        ring
      have hgt : -1 < (lineLen - (linePos + step)) / step := by
        rw [lt_div_iff₀ hstep]
        linarith
      have hc : ⌈(lineLen - linePos) / step⌉₊ = ⌈(lineLen - (linePos + step)) / step⌉₊ + 1 := by
        rw [hx, ceil_add_one_of_gt _ hgt]
      constructor
      · simp only [whileCandidatesExact, hlt, if_true, List.map_cons, i1, hc, List.range_succ_eq_map,
          List.map_map]
        congr 1
        · simp [Candidate.offset]
        · apply List.map_congr_left
          intro k _
          simp only [Function.comp, Nat.succ_eq_add_one]
          push_cast
          ring
      · simp only [whileExitExact, hlt, if_true, i2, hc]
        congr 1
        push_cast
        ring
    · have h0 : ⌈(lineLen - linePos) / step⌉₊ = 0 :=
        Nat.ceil_eq_zero.2 (div_nonpos_of_nonpos_of_nonneg (by linarith) (le_of_lt hstep))
      simp [whileCandidatesExact, whileExitExact, hlt, h0]

/-- With enough fuel, the offsets of the candidates of a segment loop without rounding are
the values `entry + k step` below the total length, where `entry` is the offset at which the
first `while` loop is entered. -/
theorem segmentRunsExact_offsets (E : Env) (P : Params) (G : Glyph) (hS : 0 < P.spacing)
    (hstep : 0 < P.spacing + bitmapSize G) (hlen : ∀ v, 0 ≤ E.length v * E.tileSize)
    (vertices : List Vec2) :
    ∃ N : Nat, ∀ fuel, N ≤ fuel → ∀ (i : Nat) (before linePos : ℚ), 1 ≤ i →
      (i = 1 ∨ 0 ≤ linePos) →
      ((segmentRunsExact E P G fuel i vertices before linePos).flatMap
        (runCandidatesExact P G fuel)).map Candidate.offset =
      (List.range ⌈(totalLength E vertices -
          (if i = 1 then startOffset E P vertices else linePos)) /
            (P.spacing + bitmapSize G)⌉₊).map
        (fun (k : ℕ) => before + (if i = 1 then startOffset E P vertices else linePos) +
          (k : ℚ) * (P.spacing + bitmapSize G)) := by
  induction vertices with
  | nil =>
    refine ⟨0, fun fuel _ i before linePos _ hi => ?_⟩
    have h0 : ⌈(totalLength E [] - (if i = 1 then startOffset E P [] else linePos)) /
        (P.spacing + bitmapSize G)⌉₊ = 0 := by
      apply Nat.ceil_eq_zero.2
      apply div_nonpos_of_nonpos_of_nonneg _ (le_of_lt hstep)
      by_cases h1 : i = 1
      · simp [h1, totalLength, startOffset]
      · rcases hi with hi | hi
        · exact absurd hi h1
        · simp [h1, totalLength, hi]
    simp [segmentRunsExact, h0]
  | cons v0 tl ih =>
    cases tl with
    | nil =>
      refine ⟨0, fun fuel _ i before linePos _ hi => ?_⟩
      have h0 : ⌈(totalLength E [v0] - (if i = 1 then startOffset E P [v0] else linePos)) /
          (P.spacing + bitmapSize G)⌉₊ = 0 := by
        apply Nat.ceil_eq_zero.2
        apply div_nonpos_of_nonpos_of_nonneg _ (le_of_lt hstep)
        by_cases h1 : i = 1
        · simp [h1, totalLength, startOffset]
        · rcases hi with hi | hi
          · exact absurd hi h1
          · simp [h1, totalLength, hi]
      simp [segmentRunsExact, h0]
    | cons v1 rest =>
      obtain ⟨N, hN⟩ := ih
      refine ⟨max ⌈E.length (v1.sub v0) * E.tileSize / (P.spacing + bitmapSize G)⌉₊ N, ?_⟩
      intro fuel hfuel i before linePos hi1 hi
      have hfuel1 : ⌈E.length (v1.sub v0) * E.tileSize / (P.spacing + bitmapSize G)⌉₊ ≤ fuel :=
        le_trans (le_max_left _ _) hfuel
      have hfuel2 : N ≤ fuel := le_trans (le_max_right _ _) hfuel
      have hl1 : 0 ≤ E.length (v1.sub v0) * E.tileSize := hlen _
      have hcover : E.length (v1.sub v0) * E.tileSize ≤ fuel * (P.spacing + bitmapSize G) := by
        have h1 : E.length (v1.sub v0) * E.tileSize / (P.spacing + bitmapSize G) ≤ (fuel : ℚ) :=
          le_trans (Nat.le_ceil _) (by exact_mod_cast hfuel1)
        exact (div_le_iff₀ hstep).mp h1
      -- the value of `linePos` with which the first `while` loop is entered
      have hentry : (if i = 1 then min (E.length (v1.sub v0) * E.tileSize) P.spacing * (1 / 2)
          else linePos) = (if i = 1 then startOffset E P (v0 :: v1 :: rest) else linePos) := by
        by_cases h1 : i = 1
        · simp only [h1, if_true, startOffset]; ring
        · simp only [h1, if_false]
      generalize he : (if i = 1 then startOffset E P (v0 :: v1 :: rest) else linePos) = e
        at hentry ⊢
      have he0 : 0 ≤ e := by
        rw [← he]
        by_cases h1 : i = 1
        · simp only [h1, if_true, startOffset]
          have := le_min hl1 (le_of_lt hS)
          linarith
        · simp only [h1, if_false]
          rcases hi with hi | hi
          · exact absurd hi h1
          · exact hi
      obtain ⟨w1, w2⟩ := whileCandidatesExact_offsets v0 v1 before
        (E.length (v1.sub v0) * E.tileSize) (P.spacing + bitmapSize G) hstep fuel e
        (by linarith)
      have hT := totalLength_nonneg E hlen (v1 :: rest)
      have hi2 : ¬ i + 1 = 1 := by omega
      have hrest := hN fuel hfuel2 (i + 1)
        (before + E.length (v1.sub v0) * E.tileSize)
        (e + ⌈(E.length (v1.sub v0) * E.tileSize - e) / (P.spacing + bitmapSize G)⌉₊ *
          (P.spacing + bitmapSize G) - E.length (v1.sub v0) * E.tileSize)
        (by omega)
        (Or.inr (by
          have := whileExitExact_ge _ _ _ _ _ w2
          linarith))
      simp only [hi2, if_false] at hrest
      simp only [segmentRunsExact, hentry, w2, List.flatMap_cons, List.map_append, runCandidatesExact, w1,
        hrest, totalLength]
      -- the two counts add up
      have hmono : ⌈(E.length (v1.sub v0) * E.tileSize - e) / (P.spacing + bitmapSize G)⌉₊ ≤
          ⌈(E.length (v1.sub v0) * E.tileSize + totalLength E (v1 :: rest) - e) /
            (P.spacing + bitmapSize G)⌉₊ := by
        apply Nat.ceil_mono
        apply div_le_div_of_nonneg_right _ (le_of_lt hstep)
        linarith
      have hsplit := ceil_sub_add
        ((E.length (v1.sub v0) * E.tileSize + totalLength E (v1 :: rest) - e) /
          (P.spacing + bitmapSize G))
        ⌈(E.length (v1.sub v0) * E.tileSize - e) / (P.spacing + bitmapSize G)⌉₊ hmono
      have harg : (totalLength E (v1 :: rest) -
          (e + ⌈(E.length (v1.sub v0) * E.tileSize - e) / (P.spacing + bitmapSize G)⌉₊ *
            (P.spacing + bitmapSize G) - E.length (v1.sub v0) * E.tileSize)) /
            (P.spacing + bitmapSize G) =
          (E.length (v1.sub v0) * E.tileSize + totalLength E (v1 :: rest) - e) /
            (P.spacing + bitmapSize G) -
          ⌈(E.length (v1.sub v0) * E.tileSize - e) / (P.spacing + bitmapSize G)⌉₊ := by
        field_simp
        ring
      rw [harg, ← hsplit, Nat.add_comm, List.range_add, List.map_append, List.map_map]
      congr 1
      apply List.map_congr_left
      intro k _
      simp only [Function.comp]
      push_cast
      ring

/-- Every iteration of a `for` loop without rounding works on two consecutive vertices, and
its `before` is the scaled length of the vertex sequence up to the first of them. -/
theorem segmentRunsExact_before (E : Env) (P : Params) (G : Glyph) (fuel : Nat)
    (vertices : List Vec2) :
    ∀ (i : Nat) (before linePos : ℚ),
      ∀ r ∈ segmentRunsExact E P G fuel i vertices before linePos,
        ∃ pre post, vertices = pre ++ r.v0 :: r.v1 :: post ∧
          r.before = before + totalLength E (pre ++ [r.v0]) := by
  induction vertices with
  | nil => intro i before linePos r hr; simp [segmentRunsExact] at hr
  | cons v0 tl ih =>
    intro i before linePos r hr
    cases tl with
    | nil => simp [segmentRunsExact] at hr
    | cons v1 rest =>
      simp only [segmentRunsExact] at hr
      rcases List.mem_cons.1 hr with h | h
      · subst h
        exact ⟨[], rest, rfl, by simp [totalLength]⟩
      · cases hx : whileExitExact (E.length (v1.sub v0) * E.tileSize) (P.spacing + bitmapSize G) fuel
          (if i = 1 then min (E.length (v1.sub v0) * E.tileSize) P.spacing * (1 / 2)
            else linePos) with
        | none => rw [hx] at h; simp at h
        | some lp =>
          rw [hx] at h
          obtain ⟨pre, post, a1, a2⟩ := ih (i + 1) _ _ r h
          refine ⟨v0 :: pre, post, by rw [a1]; rfl, ?_⟩
          rw [a2]
          cases pre with
          | nil =>
            simp only [List.nil_append, List.cons.injEq] at a1
            simp only [List.nil_append, List.cons_append, totalLength, ← a1.1]
            ring
          | cons p ps =>
            simp only [List.cons_append, List.cons.injEq] at a1
            simp only [List.cons_append, totalLength, ← a1.1]
            rw [add_assoc]
            rfl

/-- The sample length is not negative. -/
theorem sampleLength_nonneg (v : Vec2) : 0 ≤ sampleLength v := by
  unfold sampleLength
  split
  · exact abs_nonneg _
  · split
    · exact abs_nonneg _
    · exact Rat.sqrt_nonneg _

end MarkersSymbolizer

namespace MarkersSymbolizer

/-! ## The rounded walk on inputs that need no rounding -/

/-- A product of two powers of two: the half quantum. -/
theorem two_zpow_pred (k : ℤ) : (2 : ℚ) ^ k = 2 * 2 ^ (k - 1) := by
  rw [zpow_sub_one₀ (by norm_num)]
  field_simp

/-- The binary32 sum of two multiples of `2^j` whose sum is at most `2^24` times `2^j`. -/
theorem floatAdd_grid (j : ℤ) (hj : -149 ≤ j) (n t : ℕ) (h : n + t ≤ 2 ^ 24) :
    floatAdd ((n : ℚ) * 2 ^ j) ((t : ℚ) * 2 ^ j) = ((n + t : ℕ) : ℚ) * 2 ^ j := by
  unfold floatAdd
  rw [← add_mul, ← Nat.cast_add]
  exact roundFloat_grid j hj (n + t) h

/-- The binary32 difference of two multiples of `2^j` below `2^24` times `2^j`. -/
theorem floatSub_grid (j : ℤ) (hj : -149 ≤ j) (n m : ℕ) (hmn : m ≤ n) (h : n - m ≤ 2 ^ 24) :
    floatSub ((n : ℚ) * 2 ^ j) ((m : ℚ) * 2 ^ j) = ((n - m : ℕ) : ℚ) * 2 ^ j := by
  unfold floatSub
  rw [← sub_mul, ← Nat.cast_sub hmn]
  exact roundFloat_grid j hj (n - m) h

/-- On multiples of `2^j`, with the length and one step within `2^24` times `2^j`, the `while`
loop visits the candidates of the loop without rounding, and with enough fuel it is left at
a multiple of `2^j` at or past the length and less than one step past it. -/
theorem whileCandidates_grid (j : ℤ) (hj : -149 ≤ j) (v0 v1 : Vec2) (before : ℚ) (M t : ℕ)
    (hb : M + t ≤ 2 ^ 24) (fuel : Nat) :
    ∀ n : ℕ, M ≤ n + fuel * t → n < M + t →
      whileCandidates v0 v1 before ((M : ℚ) * 2 ^ j) ((t : ℚ) * 2 ^ j) fuel ((n : ℚ) * 2 ^ j) =
        whileCandidatesExact v0 v1 before ((M : ℚ) * 2 ^ j) ((t : ℚ) * 2 ^ j) fuel
          ((n : ℚ) * 2 ^ j) ∧
      ∃ n1 : ℕ, M ≤ n1 ∧ n1 < M + t ∧
        whileExit ((M : ℚ) * 2 ^ j) ((t : ℚ) * 2 ^ j) fuel ((n : ℚ) * 2 ^ j) =
          some ((n1 : ℚ) * 2 ^ j) ∧
        whileExitExact ((M : ℚ) * 2 ^ j) ((t : ℚ) * 2 ^ j) fuel ((n : ℚ) * 2 ^ j) =
          some ((n1 : ℚ) * 2 ^ j) := by
  have h2 : (0 : ℚ) < (2 : ℚ) ^ j := zpow_pos (by norm_num) _
  have hlt : ∀ n : ℕ, ((n : ℚ) * 2 ^ j < (M : ℚ) * 2 ^ j) ↔ n < M := by
    intro n
    rw [mul_lt_mul_right h2]
    exact Nat.cast_lt
  induction fuel with
  | zero =>
    intro n hcov hn
    have hge : ¬ n < M := by omega
    have hge1 : ¬ ((n : ℚ) * 2 ^ j < (M : ℚ) * 2 ^ j) := fun h => hge ((hlt n).1 h)
    refine ⟨by simp [whileCandidates, whileCandidatesExact], n, by omega, hn, ?_, ?_⟩
    · simp [whileExit, hge1]
    · simp [whileExitExact, hge1]
  | succ f ih =>
    intro n hcov hn
    by_cases hnM : n < M
    · have hlt1 : (n : ℚ) * 2 ^ j < (M : ℚ) * 2 ^ j := (hlt n).2 hnM
      have hadd := floatAdd_grid j hj n t (by omega)
      have hadd1 : (n : ℚ) * 2 ^ j + (t : ℚ) * 2 ^ j = ((n + t : ℕ) : ℚ) * 2 ^ j := by
        push_cast
        ring
      obtain ⟨i1, n1, i2, i3, i4, i5⟩ := ih (n + t)
        (by rw [Nat.succ_mul] at hcov; omega) (by omega)
      refine ⟨?_, n1, i2, i3, ?_, ?_⟩
      · simp only [whileCandidates, whileCandidatesExact, hlt1, if_true, hadd, hadd1, i1]
      · simp only [whileExit, hlt1, if_true, hadd, i4]
      · simp only [whileExitExact, hlt1, if_true, hadd1, i5]
    · have hge1 : ¬ ((n : ℚ) * 2 ^ j < (M : ℚ) * 2 ^ j) := fun h => hnM ((hlt n).1 h)
      refine ⟨by simp [whileCandidates, whileCandidatesExact, hge1], n, by omega, hn, ?_, ?_⟩
      · simp [whileExit, hge1]
      · simp [whileExitExact, hge1]

/-- Under the hypotheses of `ExactWalk`, with enough fuel, the `for` loop of the program
makes the iterations of the loop without rounding, each with the same candidates, and it
runs to its end. The running offset is a multiple of `2^(k - 1)` throughout. -/
theorem segmentRuns_grid (E : Env) (P : Params) (G : Glyph) (k : ℤ) (hk : -148 ≤ k)
    (a b : ℕ) (ha : 0 < a) (hSa : P.spacing = (a : ℚ) * 2 ^ k)
    (hBb : bitmapSize G = (b : ℚ) * 2 ^ k) (vertices : List Vec2)
    (hseg : ExactSegments E P G k vertices) :
    ∃ N : Nat, ∀ fuel, N ≤ fuel → ∀ (i : Nat) (before : ℚ) (n : ℕ),
      (i = 1 ∨ n < 2 * a + 2 * b) →
      segmentRuns E P G fuel i vertices before ((n : ℚ) * 2 ^ (k - 1)) =
        segmentRunsExact E P G fuel i vertices before ((n : ℚ) * 2 ^ (k - 1)) ∧
      (∀ r ∈ segmentRuns E P G fuel i vertices before ((n : ℚ) * 2 ^ (k - 1)),
        runCandidates P G fuel r = runCandidatesExact P G fuel r) ∧
      ∀ (localId : Int) (s : BuildState),
        ∃ s1, segmentLoop E P G fuel localId i vertices ((n : ℚ) * 2 ^ (k - 1)) s = .done s1 := by
  have h2 : (0 : ℚ) < (2 : ℚ) ^ (k - 1) := zpow_pos (by norm_num) _
  have h2k := two_zpow_pred k
  have hj : -149 ≤ k - 1 := by omega
  have hstepx : P.spacing + bitmapSize G = ((2 * a + 2 * b : ℕ) : ℚ) * 2 ^ (k - 1) := by
    rw [hSa, hBb, h2k]
    push_cast
    ring
  induction vertices with
  | nil =>
    exact ⟨0, fun fuel _ i before n _ =>
      ⟨by simp [segmentRuns, segmentRunsExact], by simp [segmentRuns],
        fun localId s => ⟨s, by simp [segmentLoop]⟩⟩⟩
  | cons v0 tl ih =>
    cases tl with
    | nil =>
      exact ⟨0, fun fuel _ i before n _ =>
        ⟨by simp [segmentRuns, segmentRunsExact], by simp [segmentRuns],
          fun localId s => ⟨s, by simp [segmentLoop]⟩⟩⟩
    | cons v1 rest =>
      simp only [ExactSegments] at hseg
      obtain ⟨⟨⟨m, hm⟩, hbound⟩, hrest⟩ := hseg
      obtain ⟨N, hN⟩ := ih hrest
      refine ⟨max (2 * m) N, fun fuel hfuel i before n hi => ?_⟩
      have hL : E.length (v1.sub v0) * E.tileSize = ((2 * m : ℕ) : ℚ) * 2 ^ (k - 1) := by
        rw [hm, h2k]
        push_cast
        ring
      have hb : 2 * m + (2 * a + 2 * b) ≤ 2 ^ 24 := by
        rw [hL, hstepx, h2k, ← add_mul] at hbound
        have h3 : (((2 * m : ℕ) : ℚ) + ((2 * a + 2 * b : ℕ) : ℚ)) * 2 ^ (k - 1) ≤
            (2 ^ 24 : ℚ) * 2 ^ (k - 1) := by
          calc (((2 * m : ℕ) : ℚ) + ((2 * a + 2 * b : ℕ) : ℚ)) * 2 ^ (k - 1)
              ≤ 2 ^ 23 * (2 * 2 ^ (k - 1)) := hbound
            _ = (2 ^ 24 : ℚ) * 2 ^ (k - 1) := by ring
        have h4 := le_of_mul_le_mul_right h3 h2
        exact_mod_cast h4
      have hfl : floatMul (E.length (v1.sub v0)) E.tileSize =
          ((2 * m : ℕ) : ℚ) * 2 ^ (k - 1) := by
        unfold floatMul
        rw [hL]
        exact roundFloat_grid _ hj _ (by omega)
      have hfs : floatAdd P.spacing (bitmapSize G) =
          ((2 * a + 2 * b : ℕ) : ℚ) * 2 ^ (k - 1) := by
        unfold floatAdd
        rw [hstepx]
        exact roundFloat_grid _ hj _ (by omega)
      have hmin : min (((2 * m : ℕ) : ℚ) * 2 ^ (k - 1)) P.spacing * (1 / 2) =
          ((min m a : ℕ) : ℚ) * 2 ^ (k - 1) := by
        rw [hSa, h2k]
        rcases le_total m a with hma | hma
        · rw [Nat.min_eq_left hma, min_eq_left]
          · push_cast; ring
          · have : (m : ℚ) ≤ (a : ℚ) := by exact_mod_cast hma
            push_cast
            nlinarith
        · rw [Nat.min_eq_right hma, min_eq_right]
          · ring
          · have : (a : ℚ) ≤ (m : ℚ) := by exact_mod_cast hma
            push_cast
            nlinarith
      have hentryE : (if i = 1 then min (((2 * m : ℕ) : ℚ) * 2 ^ (k - 1)) P.spacing * (1 / 2)
          else (n : ℚ) * 2 ^ (k - 1)) =
          (((if i = 1 then min m a else n : ℕ)) : ℚ) * 2 ^ (k - 1) := by
        by_cases h1 : i = 1
        · simp only [h1, if_true, hmin]
        · simp only [h1, if_false]
      have hentryF : (if i = 1 then
          floatMul (min (((2 * m : ℕ) : ℚ) * 2 ^ (k - 1)) P.spacing) (1 / 2)
          else (n : ℚ) * 2 ^ (k - 1)) =
          (((if i = 1 then min m a else n : ℕ)) : ℚ) * 2 ^ (k - 1) := by
        by_cases h1 : i = 1
        · simp only [h1, if_true]
          unfold floatMul
          rw [hmin]
          exact roundFloat_grid _ hj _ (by have := Nat.min_le_left m a; omega)
        · simp only [h1, if_false]
      have hn0 : (if i = 1 then min m a else n) < 2 * m + (2 * a + 2 * b) := by
        by_cases h1 : i = 1
        · simp only [h1, if_true]
          have := Nat.min_le_left m a
          omega
        · simp only [h1, if_false]
          rcases hi with hi | hi
          · exact absurd hi h1
          · omega
      have hcov : 2 * m ≤ (if i = 1 then min m a else n) + fuel * (2 * a + 2 * b) := by
        have h3 : 2 * m ≤ fuel := le_trans (le_max_left _ _) hfuel
        have h4 : fuel ≤ fuel * (2 * a + 2 * b) := Nat.le_mul_of_pos_right _ (by omega)
        omega
      obtain ⟨w1, n1, w2, w3, w4, w5⟩ := whileCandidates_grid (k - 1) hj v0 v1 before (2 * m)
        (2 * a + 2 * b) hb fuel _ hcov hn0
      have hcF : floatSub ((n1 : ℚ) * 2 ^ (k - 1)) (((2 * m : ℕ) : ℚ) * 2 ^ (k - 1)) =
          ((n1 - 2 * m : ℕ) : ℚ) * 2 ^ (k - 1) :=
        floatSub_grid _ hj _ _ w2 (by omega)
      have hcE : (n1 : ℚ) * 2 ^ (k - 1) - ((2 * m : ℕ) : ℚ) * 2 ^ (k - 1) =
          ((n1 - 2 * m : ℕ) : ℚ) * 2 ^ (k - 1) := by
        rw [← sub_mul, ← Nat.cast_sub w2]
      obtain ⟨r1, r2, r3⟩ := hN fuel (le_trans (le_max_right _ _) hfuel) (i + 1)
        (before + ((2 * m : ℕ) : ℚ) * 2 ^ (k - 1)) (n1 - 2 * m) (Or.inr (by omega))
      refine ⟨?_, ?_, ?_⟩
      · simp only [segmentRuns, segmentRunsExact, hfl, hL, hentryF, hentryE, hfs, hstepx, w4, w5,
          hcF, hcE, r1]
      · intro r hr
        simp only [segmentRuns, hfl, hentryF, hfs, w4, hcF] at hr
        rcases List.mem_cons.1 hr with h | h
        · subst h
          simp only [runCandidates, runCandidatesExact, hfs, hstepx]
          exact w1
        · exact r2 r h
      · intro localId s
        simp only [segmentLoop, hfl, hentryF]
        rw [whileLoop_candidates E P G localId v0 v1 before]
        simp only [hfs, w4, hcF]
        exact r3 localId _

/-- Under `ExactWalk`, with spacing above 0 and enough fuel, the walk over a vertex sequence
visits the candidates of the walk without rounding, and it returns. -/
theorem walkVertices_grid (E : Env) (P : Params) (G : Glyph) (k : ℤ) (vertices : List Vec2)
    (hS : 0 < P.spacing) (hX : ExactWalk E P G k vertices) :
    ∃ N : Nat, ∀ fuel, N ≤ fuel →
      walkRuns E P G fuel vertices = segmentRunsExact E P G fuel 1 vertices 0 0 ∧
      walkCandidates E P G fuel vertices = walkCandidatesExact E P G fuel vertices ∧
      ∀ (localId : Int) (s : BuildState),
        ∃ s1, walkVertices E P G fuel localId vertices s = .done s1 := by
  obtain ⟨hk, ⟨a, hSa⟩, ⟨b, hBb⟩, hseg⟩ := hX
  have ha : 0 < a := by
    rcases Nat.eq_zero_or_pos a with h0 | h0
    · rw [h0] at hSa
      simp only [Nat.cast_zero, zero_mul] at hSa
      rw [hSa] at hS
      exact absurd hS (lt_irrefl _)
    · exact h0
  obtain ⟨N, hN⟩ := segmentRuns_grid E P G k hk a b ha hSa hBb vertices hseg
  refine ⟨N, fun fuel hfuel => ?_⟩
  obtain ⟨r1, r2, r3⟩ := hN fuel hfuel 1 0 0 (Or.inl rfl)
  simp only [Nat.cast_zero, zero_mul] at r1 r2 r3
  refine ⟨r1, ?_, fun localId s => r3 localId _⟩
  unfold walkCandidates walkCandidatesExact walkRuns
  rw [List.flatMap_congr r2, r1]

/-- Under `ExactWalk` for every vertex sequence, enough fuel lets the loop over the vertex
sequences of a line run to its end. -/
theorem verticesListLoop_grid (E : Env) (P : Params) (G : Glyph) (localId globalId : Int)
    (verticesList : List (List Vec2))
    (hX : ∀ vertices ∈ verticesList, ∃ k, ExactWalk E P G k vertices) :
    ∃ N : Nat, ∀ fuel, N ≤ fuel → ∀ (s : BuildState),
      ∃ s1, verticesListLoop E P G fuel localId globalId verticesList s = .done s1 := by
  induction verticesList with
  | nil => exact ⟨0, fun fuel _ s => ⟨s, by simp [verticesListLoop]⟩⟩
  | cons vertices rest ih =>
    obtain ⟨N, hN⟩ := ih (fun v hv => hX v (List.mem_cons_of_mem _ hv))
    by_cases hS : P.spacing ≤ 0
    · refine ⟨N, fun fuel hfuel s => ?_⟩
      obtain ⟨s1, hs1⟩ := hN fuel hfuel (addPoint E P G s localId globalId (.vertices vertices))
      exact ⟨s1, by simp only [verticesListLoop, hS, if_true]; exact hs1⟩
    · have hS1 : 0 < P.spacing := lt_of_not_ge hS
      obtain ⟨k, hk⟩ := hX vertices (List.mem_cons_self _ _)
      obtain ⟨M, hM⟩ := walkVertices_grid E P G k vertices hS1 hk
      refine ⟨max M N, fun fuel hfuel s => ?_⟩
      obtain ⟨s1, hs1⟩ := (hM fuel (le_trans (le_max_left _ _) hfuel)).2.2 localId s
      obtain ⟨s2, hs2⟩ := hN fuel (le_trans (le_max_right _ _) hfuel) s1
      refine ⟨s2, ?_⟩
      simp only [verticesListLoop, hS, if_false, hs1]
      exact hs2

/-- Under `ExactWalks`, enough fuel lets the geometry loop run to its end. -/
theorem featureLoop_grid (E : Env) (P : Params) (G : Glyph) (fc : FeatureCollection)
    (hX : ExactWalks E P G fc) :
    ∃ N : Nat, ∀ fuel, N ≤ fuel → ∀ (s : BuildState),
      ∃ s1, featureLoop E P G fuel fc s = .done s1 := by
  induction fc with
  | nil => exact ⟨0, fun fuel _ s => ⟨s, by simp [featureLoop]⟩⟩
  | cons f rest ih =>
    obtain ⟨N, hN⟩ := ih (fun g hg => hX g (List.mem_cons_of_mem _ hg))
    have hf : ∃ M : Nat, ∀ fuel, M ≤ fuel → ∀ (s : BuildState),
        ∃ s1, buildFeature E P G fuel f s = .done s1 := by
      cases hg : f.geometry with
      | point vertices => exact ⟨0, fun fuel _ s => ⟨_, by simp only [buildFeature, hg]; rfl⟩⟩
      | line verticesList =>
        by_cases hp : placementOf E P = .LINE
        · obtain ⟨M, hM⟩ := verticesListLoop_grid E P G f.localId f.globalId verticesList
            (hX f (List.mem_cons_self _ _) verticesList hg)
          refine ⟨M, fun fuel hfuel s => ?_⟩
          obtain ⟨s1, hs1⟩ := hM fuel hfuel s
          exact ⟨s1, by simp only [buildFeature, hg, hp, if_true]; exact hs1⟩
        · exact ⟨0, fun fuel _ s => ⟨_, by simp only [buildFeature, hg, hp, if_false]; rfl⟩⟩
      | polygon polygonList => exact ⟨0, fun fuel _ s => ⟨_, by simp only [buildFeature, hg]; rfl⟩⟩
      | other => exact ⟨0, fun fuel _ s => ⟨_, by simp only [buildFeature, hg]; rfl⟩⟩
    obtain ⟨M, hM⟩ := hf
    refine ⟨max M N, fun fuel hfuel s => ?_⟩
    obtain ⟨s1, hs1⟩ := hM fuel (le_trans (le_max_left _ _) hfuel) s
    obtain ⟨s2, hs2⟩ := hN fuel (le_trans (le_max_right _ _) hfuel) s1
    exact ⟨s2, by simp only [featureLoop, hs1]; exact hs2⟩

/-- A `build` call that resolves its glyph returns, given enough fuel, when every vertex
sequence it walks satisfies `ExactWalk`. -/
theorem build_grid (E : Env) (P : Params) (G : Glyph) (fc : FeatureCollection)
    (cache cache1 : BitmapCache) (hG : resolveGlyph E P cache = some (G, cache1))
    (hX : ExactWalks E P G fc) :
    ∃ N : Nat, ∀ fuel, N ≤ fuel → ∃ s, build E P fuel fc cache = .done s := by
  obtain ⟨N, hN⟩ := featureLoop_grid E P G fc hX
  refine ⟨N, fun fuel hfuel => ?_⟩
  obtain ⟨s1, hs1⟩ := hN fuel hfuel (BuildState.initial cache1)
  exact ⟨_, by simp only [build, hG, hs1]; rfl⟩

end MarkersSymbolizer

namespace MarkersSymbolizer

/-! ## The queues while a walk is running -/

/-- The body of the `while` loop leaves the active queue empty. -/
theorem walkEmit_queue (E : Env) (P : Params) (G : Glyph) (localId : Int) (v0 v1 : Vec2)
    (lineLen linePos : ℚ) (s : BuildState) (hs : QueueEmpty P s) :
    QueueEmpty P (walkEmit E P G localId v0 v1 lineLen linePos s) := by
  by_cases hin : insideTile (v0.add ((v1.sub v0).smul (linePos / lineLen))) = true
  · simp only [walkEmit, hin, if_true]
    exact flushPoints_queue E P G _ _
  · simp only [walkEmit, hin]
    exact hs

/-- The `while` loop leaves the active queue empty, whether or not it comes to its end. -/
theorem whileLoop_queue (E : Env) (P : Params) (G : Glyph) (localId : Int) (v0 v1 : Vec2)
    (lineLen : ℚ) (fuel : Nat) :
    ∀ (linePos : ℚ) (s : BuildState), QueueEmpty P s →
      QueueEmpty P (whileLoop E P G localId v0 v1 lineLen fuel linePos s).walkState := by
  induction fuel with
  | zero =>
    intro linePos s hs
    unfold whileLoop
    split <;> exact hs
  | succ n ih =>
    intro linePos s hs
    unfold whileLoop
    split
    · exact ih _ _ (walkEmit_queue E P G localId v0 v1 lineLen linePos s hs)
    · exact hs

/-- The segment loop leaves the active queue empty, whether or not it comes to its end. -/
theorem segmentLoop_queue (E : Env) (P : Params) (G : Glyph) (fuel : Nat) (localId : Int)
    (vertices : List Vec2) :
    ∀ (i : Nat) (linePos : ℚ) (s : BuildState), QueueEmpty P s →
      QueueEmpty P (segmentLoop E P G fuel localId i vertices linePos s).state := by
  induction vertices with
  | nil => intro i linePos s hs; simpa [segmentLoop, Outcome.state] using hs
  | cons v0 tl ih =>
    intro i linePos s hs
    cases tl with
    | nil => simpa [segmentLoop, Outcome.state] using hs
    | cons v1 rest =>
      simp only [segmentLoop]
      have hw := whileLoop_queue E P G localId v0 v1 (floatMul (E.length (v1.sub v0)) E.tileSize)
        fuel
        (if i = 1 then floatMul (min (floatMul (E.length (v1.sub v0)) E.tileSize) P.spacing)
          (1 / 2) else linePos)
        s hs
      revert hw
      cases whileLoop E P G localId v0 v1 (floatMul (E.length (v1.sub v0)) E.tileSize) fuel
        (if i = 1 then floatMul (min (floatMul (E.length (v1.sub v0)) E.tileSize) P.spacing)
          (1 / 2) else linePos)
        s with
      | done r =>
        obtain ⟨lp, s1⟩ := r
        intro hw
        exact ih (i + 1) _ s1 hw
      | outOfFuel s1 => intro hw; exact hw

/-- When the fuel runs out in the loop over the vertex sequences, the active queue is empty. -/
theorem verticesListLoop_outOfFuel (E : Env) (P : Params) (G : Glyph) (fuel : Nat)
    (localId globalId : Int) (verticesList : List (List Vec2)) :
    ∀ (s s1 : BuildState),
      verticesListLoop E P G fuel localId globalId verticesList s = .outOfFuel s1 →
      QueueEmpty P s1 := by
  induction verticesList with
  | nil => intro s s1 h; simp [verticesListLoop] at h
  | cons vertices rest ih =>
    intro s s1 h
    unfold verticesListLoop at h
    split at h
    · exact ih _ _ h
    · have hq := segmentLoop_queue E P G fuel localId vertices 1 0
        (flushPoints E P G s P.transform) (flushPoints_queue E P G s P.transform)
      unfold walkVertices at h
      revert hq h
      cases segmentLoop E P G fuel localId 1 vertices 0 (flushPoints E P G s P.transform) with
      | done s2 =>
        intro h _
        exact ih _ _ h
      | outOfFuel s2 =>
        intro h hq
        injection h with h
        rw [← h]
        exact hq

/-- When the fuel runs out in the geometry loop, the active queue is empty. -/
theorem featureLoop_outOfFuel (E : Env) (P : Params) (G : Glyph) (fuel : Nat)
    (fc : FeatureCollection) :
    ∀ (s s1 : BuildState), featureLoop E P G fuel fc s = .outOfFuel s1 → QueueEmpty P s1 := by
  induction fc with
  | nil => intro s s1 h; simp [featureLoop] at h
  | cons f rest ih =>
    intro s s1 h
    unfold featureLoop at h
    cases hb : buildFeature E P G fuel f s with
    | done s2 =>
      rw [hb] at h
      exact ih _ _ h
    | outOfFuel s2 =>
      rw [hb] at h
      injection h with h
      rw [← h]
      unfold buildFeature at hb
      split at hb
      · cases hb
      · split at hb
        · exact verticesListLoop_outOfFuel E P G fuel _ _ _ _ _ hb
        · cases hb
      · cases hb
      · cases hb

/-- When the fuel of a `build` call runs out (which happens only inside a walk), both queues
are empty and the builder has received the records of all the placements handed to
`addPoint` so far. -/
theorem build_outOfFuel (E : Env) (P : Params) (G : Glyph) (fuel : Nat)
    (fc : FeatureCollection) (cache cache1 : BitmapCache) (s : BuildState)
    (hG : resolveGlyph E P cache = some (G, cache1))
    (hd : build E P fuel fc cache = .outOfFuel s) :
    s.pointInfos = [] ∧ s.labelInfos = [] ∧
    (P.allowOverlap = true → deliveredPoints s = s.handed.filterMap pointRecordOf) ∧
    (P.allowOverlap = false → deliveredLabels s = s.handed.map (labelRecordOf E P G)) := by
  have hstate : (build E P fuel fc cache).state = s := by rw [hd]; rfl
  have hR := build_inv fuel fc cache cache1 hG (routing_preserved E P G)
    (by simp [BuildState.initial])
  have hD := build_inv fuel fc cache cache1 hG (delivery_preserved E P G)
    (by simp [BuildState.initial, deliveredPoints, deliveredLabels])
  rw [hstate] at hR hD
  have hq : QueueEmpty P s := by
    simp only [build, hG] at hd
    cases hf : featureLoop E P G fuel fc (BuildState.initial cache1) with
    | done s1 =>
      rw [hf] at hd
      cases hd
    | outOfFuel s1 =>
      rw [hf] at hd
      injection hd with hd
      rw [← hd]
      exact featureLoop_outOfFuel E P G fuel fc _ _ hf
  cases hA : P.allowOverlap with
  | true =>
    have hp := hq.1 hA
    have hl := hR.2.1 hA
    refine ⟨hp, hl, fun _ => ?_, fun hf => (by cases hf)⟩
    have h := hD.1 hA
    rwa [hp, List.append_nil] at h
  | false =>
    have hl := hq.2 hA
    have hp := (hR.2.2 hA).1
    refine ⟨hp, hl, fun hf => (by cases hf), fun _ => ?_⟩
    have h := hD.2 hA
    rwa [hl, List.append_nil] at h

end MarkersSymbolizer

namespace MarkersSymbolizer

/-! ## Delivery of the placements (C2) -/

/-- C2, as stated, fails: under `allow-overlap` with line placement and spacing 0, a line
feature whose vertex sequence is empty is handed to `addPoint` (one placement), yet the
finished `build` call has delivered no record: its only batch is empty. -/
theorem placement_delivery_counterexample :
    (build sampleEnv overlapLineParams 0 emptyLine []).isDone = true ∧
    (build sampleEnv overlapLineParams 0 emptyLine []).state.handed = [⟨7, 70, .vertices []⟩] ∧
    (build sampleEnv overlapLineParams 0 emptyLine []).state.calls.map
      BuilderCall.pointRecords = [[]] ∧
    deliveredPoints (build sampleEnv overlapLineParams 0 emptyLine []).state = [] ∧
    deliveredLabels (build sampleEnv overlapLineParams 0 emptyLine []).state = [] := by
  decide!

/-- C2, amended. For a `build` call that resolves a glyph: in every state it reaches, the
records delivered to the builder followed by the records still queued are the records of the
placements handed to `addPoint`, in the order they were handed, each once; the only
placement without a record is the empty polyline on the direct-point path. When the call has
finished both queues are empty, so every record has been delivered in exactly one batch; the
same holds when the fuel runs out, which happens only inside a line-spacing walk, whether or
not that walk would come to an end. Every flush returns with the queue of the active path
empty. Given enough fuel, the call finishes when the running offset of every walk needs no
rounding (`ExactWalks`). -/
theorem placement_delivery (E : Env) (P : Params) (G : Glyph) (fuel : Nat)
    (fc : FeatureCollection) (cache cache1 : BitmapCache)
    (hG : resolveGlyph E P cache = some (G, cache1)) :
    ((P.allowOverlap = true →
        deliveredPoints (build E P fuel fc cache).state ++
          (build E P fuel fc cache).state.pointInfos =
        (build E P fuel fc cache).state.handed.filterMap pointRecordOf) ∧
     (P.allowOverlap = false →
        deliveredLabels (build E P fuel fc cache).state ++
          (build E P fuel fc cache).state.labelInfos =
        (build E P fuel fc cache).state.handed.map (labelRecordOf E P G))) ∧
    (∀ pl : Placement, pointRecordOf pl = none ↔ pl.position = .vertices []) ∧
    (∀ s, build E P fuel fc cache = .done s →
      s.pointInfos = [] ∧ s.labelInfos = [] ∧
      (P.allowOverlap = true → deliveredPoints s = s.handed.filterMap pointRecordOf) ∧
      (P.allowOverlap = false → deliveredLabels s = s.handed.map (labelRecordOf E P G))) ∧
    (∀ s, build E P fuel fc cache = .outOfFuel s →
      s.pointInfos = [] ∧ s.labelInfos = [] ∧
      (P.allowOverlap = true → deliveredPoints s = s.handed.filterMap pointRecordOf) ∧
      (P.allowOverlap = false → deliveredLabels s = s.handed.map (labelRecordOf E P G))) ∧
    (∀ s0 transform,
      (P.allowOverlap = true → (flushPoints E P G s0 transform).pointInfos = []) ∧
      (P.allowOverlap = false → (flushPoints E P G s0 transform).labelInfos = [])) ∧
    (ExactWalks E P G fc →
      ∃ N : Nat, ∀ fuel1, N ≤ fuel1 → ∃ s, build E P fuel1 fc cache = .done s) := by
  refine ⟨?_, pointRecordOf_none, ?_, ?_, ?_, ?_⟩
  · exact build_inv fuel fc cache cache1 hG (delivery_preserved E P G)
      (by simp [BuildState.initial, deliveredPoints, deliveredLabels])
  · intro s hd
    exact build_done_delivery E P G fuel fc cache cache1 s hG hd
  · intro s hd
    exact build_outOfFuel E P G fuel fc cache cache1 s hG hd
  · intro s0 transform
    exact flushPoints_queue E P G s0 transform
  · intro hX
    exact build_grid E P G fc cache cache1 hG hX

/-- C2 amended, at a sample input: the sample point collection resolves a procedural glyph;
the finished call has delivered the three label records of the three placements. -/
theorem placement_delivery_witness :
    resolveGlyph sampleEnv sampleParams [] = some (resolveProcedural sampleEnv sampleParams []) ∧
    ∃ s, build sampleEnv sampleParams 0 samplePoints [] = .done s ∧ s.handed.length = 3 ∧
      deliveredLabels s =
        s.handed.map (labelRecordOf sampleEnv sampleParams
          (resolveProcedural sampleEnv sampleParams []).1) :=
  ⟨rfl, _, rfl, by decide!,
    ((placement_delivery sampleEnv sampleParams (resolveProcedural sampleEnv sampleParams []).1
      0 samplePoints [] (resolveProcedural sampleEnv sampleParams []).2 rfl).2.2.1 _ rfl).2.2.2
      rfl⟩

/-! ## The number of flushes (C7) -/

/-- The builder calls of a `build` over one line feature with one vertex sequence, when the
fuel has run out: the flush that precedes the walk and one per placement. -/
theorem single_line_running (E : Env) (P : Params) (G : Glyph) (fuel : Nat)
    (localId globalId : Int) (vertices : List Vec2) (cache cache1 : BitmapCache)
    (s : BuildState) (hG : resolveGlyph E P cache = some (G, cache1))
    (hline : placementOf E P = .LINE) (hS : 0 < P.spacing)
    (hd : build E P fuel [⟨localId, globalId, .line [vertices]⟩] cache = .outOfFuel s) :
    s.calls.length = s.handed.length + 1 := by
  have hS1 : ¬ P.spacing ≤ 0 := not_le.2 hS
  simp only [build, hG, featureLoop, buildFeature, hline, if_true, verticesListLoop, hS1,
    if_false, walkVertices] at hd
  have hc := segmentLoop_counts E P G fuel localId vertices 1 0
    (flushPoints E P G (BuildState.initial cache1) P.transform)
  revert hd hc
  cases segmentLoop E P G fuel localId 1 vertices 0
    (flushPoints E P G (BuildState.initial cache1) P.transform) with
  | done s1 =>
    intro hd
    cases hd
  | outOfFuel s1 =>
    intro hd hc
    simp only [Outcome.state, flushPoints_calls_length, flushPoints_handed] at hc
    injection hd with hd
    rw [← hd]
    simp only [BuildState.initial, List.length_nil] at hc
    omega

/-- C7, as stated, fails: over the sample line (one segment, line placement, spacing 1/2) the
walk emits one placement and `build` returns having flushed three times, not twice: the
batches are the empty one of the flush that precedes the walk, the one of the placement,
and the empty one of the final flush. -/
theorem flush_count_counterexample :
    (build sampleEnv lineParams 4 sampleLine []).isDone = true ∧
    (build sampleEnv lineParams 4 sampleLine []).state.handed.length = 1 ∧
    (build sampleEnv lineParams 4 sampleLine []).state.calls.length = 3 ∧
    (build sampleEnv lineParams 4 sampleLine []).state.calls.map
      (fun c => c.labelRecords.length) = [0, 1, 0] := by
  decide!

/-- C7, amended. Flush count. For a `build` call that resolves its glyph, over a single line
feature with one vertex sequence, with line placement and spacing > 0: if the call returns
having emitted `N` placements, it has called flush exactly `N + 2` times (the flush that
precedes the walk, `N` per-placement flushes, the final flush), and the records delivered
are those of the placements, each once and in order, so that no placement appears in two
batches. While the walk is running (the fuel has run out) the count is `N + 1`. The call
returns, given enough fuel, when the running offset of the walk needs no rounding
(`ExactWalk`). -/
theorem flush_count (E : Env) (P : Params) (G : Glyph) (localId globalId : Int)
    (vertices : List Vec2) (cache cache1 : BitmapCache)
    (hG : resolveGlyph E P cache = some (G, cache1))
    (hline : placementOf E P = .LINE) (hS : 0 < P.spacing) :
    (∀ fuel s, build E P fuel [⟨localId, globalId, .line [vertices]⟩] cache = .done s →
      s.calls.length = s.handed.length + 2 ∧
      (P.allowOverlap = true → deliveredPoints s = s.handed.filterMap pointRecordOf) ∧
      (P.allowOverlap = false → deliveredLabels s = s.handed.map (labelRecordOf E P G))) ∧
    (∀ fuel s, build E P fuel [⟨localId, globalId, .line [vertices]⟩] cache = .outOfFuel s →
      s.calls.length = s.handed.length + 1) ∧
    (∀ k : ℤ, ExactWalk E P G k vertices →
      ∃ N : Nat, ∀ fuel, N ≤ fuel →
        ∃ s, build E P fuel [⟨localId, globalId, .line [vertices]⟩] cache = .done s ∧
          s.calls.length = s.handed.length + 2) := by
  refine ⟨?_, ?_, ?_⟩
  · intro fuel s hd
    have h := build_done_delivery E P G fuel _ cache cache1 s hG hd
    exact ⟨single_line_flushes E P G fuel localId globalId vertices cache cache1 s hG hline hS hd,
      h.2.2.1, h.2.2.2⟩
  · intro fuel s hd
    exact single_line_running E P G fuel localId globalId vertices cache cache1 s hG hline hS hd
  · intro k hX
    have hXs : ExactWalks E P G [⟨localId, globalId, .line [vertices]⟩] := by
      intro f hf verticesList hg v hv
      simp only [List.mem_singleton] at hf
      subst hf
      simp only [Geometry.line.injEq] at hg
      subst hg
      simp only [List.mem_singleton] at hv
      subst hv
      exact ⟨k, hX⟩
    obtain ⟨N, hN⟩ := build_grid E P G _ cache cache1 hG hXs
    refine ⟨N, fun fuel hfuel => ?_⟩
    obtain ⟨s, hs⟩ := hN fuel hfuel
    exact ⟨s, hs,
      single_line_flushes E P G fuel localId globalId vertices cache cache1 s hG hline hS hs⟩

/-- C7 amended, at a sample input: the sample line (one segment of length 1, spacing 1/2, the
arrow glyph of footprint 28): all quantities are multiples of 1/2, so the call returns given
enough fuel, with two flushes more than placements. -/
theorem flush_count_witness :
    resolveGlyph sampleEnv lineParams [] = some (resolveProcedural sampleEnv lineParams []) ∧
    placementOf sampleEnv lineParams = .LINE ∧ 0 < lineParams.spacing ∧
    ExactWalk sampleEnv lineParams (resolveProcedural sampleEnv lineParams []).1 (-1)
      oneSegment ∧
    ∃ N : Nat, ∀ fuel, N ≤ fuel →
      ∃ s, build sampleEnv lineParams fuel [⟨7, 70, .line [oneSegment]⟩] [] = .done s ∧
        s.calls.length = s.handed.length + 2 := by
  have hX : ExactWalk sampleEnv lineParams (resolveProcedural sampleEnv lineParams []).1 (-1)
      oneSegment :=
    ⟨by decide, ⟨1, by decide!⟩, ⟨56, by decide!⟩, ⟨⟨2, by decide!⟩, by decide!⟩, trivial⟩
  exact ⟨rfl, rfl, by decide!, hX,
    (flush_count sampleEnv lineParams (resolveProcedural sampleEnv lineParams []).1 7 70
      oneSegment [] (resolveProcedural sampleEnv lineParams []).2 rfl rfl (by decide!)).2.2
      (-1) hX⟩

end MarkersSymbolizer

namespace MarkersSymbolizer

/-! ## The count of the line-spacing walk (C5) -/

/-- The candidates of the walk over a single segment are those of its one `while` loop. -/
theorem walkCandidates_single (E : Env) (P : Params) (G : Glyph) (fuel : Nat) (v0 v1 : Vec2) :
    walkCandidates E P G fuel [v0, v1] =
      whileCandidates v0 v1 0 (floatMul (E.length (v1.sub v0)) E.tileSize)
        (floatAdd P.spacing (bitmapSize G)) fuel
        (floatMul (min (floatMul (E.length (v1.sub v0)) E.tileSize) P.spacing) (1 / 2)) := by
  simp only [walkCandidates, walkRuns, segmentRuns, if_true]
  cases whileExit (floatMul (E.length (v1.sub v0)) E.tileSize) (floatAdd P.spacing (bitmapSize G))
    fuel (floatMul (min (floatMul (E.length (v1.sub v0)) E.tileSize) P.spacing) (1 / 2)) <;>
    simp [runCandidates, segmentRuns]

/-- The candidates of the walk without rounding over a single segment are those of its one
`while` loop. -/
theorem walkCandidatesExact_single (E : Env) (P : Params) (G : Glyph) (fuel : Nat)
    (v0 v1 : Vec2) :
    walkCandidatesExact E P G fuel [v0, v1] =
      whileCandidatesExact v0 v1 0 (E.length (v1.sub v0) * E.tileSize)
        (P.spacing + bitmapSize G) fuel
        (min (E.length (v1.sub v0) * E.tileSize) P.spacing * (1 / 2)) := by
  simp only [walkCandidatesExact, segmentRunsExact, if_true]
  cases whileExitExact (E.length (v1.sub v0) * E.tileSize) (P.spacing + bitmapSize G)
    fuel (min (E.length (v1.sub v0) * E.tileSize) P.spacing * (1 / 2)) <;>
    simp [runCandidatesExact, segmentRunsExact]

/-- C5, as stated, fails in three ways (tile size 1, zero footprint, every segment strictly
inside the tile). A segment of length 1/4 walked with spacing 1 has `L < S/2`, yet the walk
emits one placement (at offset `L/2`), not none. A segment of length 3/4 walked with spacing
1/2 has `(L - S/2)/S = 1`, so the stated formula gives 2, yet the walk emits one placement:
the candidate at offset 3/4 is not strictly below the length. And on the segment of length
`5033165 / 2^24` (0.3 to within rounding) walked with spacing `13421773 / 2^26` (the
binary32 value nearest to 0.2) the formula gives 2, yet the walk emits one placement: the
binary32 sum of the starting offset and the spacing is rounded up to the length. -/
theorem straight_segment_count_counterexample :
    (sampleEnv.length (Vec2.sub ⟨1 / 2, 1 / 2⟩ ⟨1 / 4, 1 / 2⟩) * sampleEnv.tileSize = 1 / 4 ∧
      (1 / 4 : ℚ) < wideParams.spacing / 2 ∧
      (walkVertices sampleEnv wideParams flatGlyph 4 7 [⟨1 / 4, 1 / 2⟩, ⟨1 / 2, 1 / 2⟩]
        (BuildState.initial [])).state.handed = [⟨7, 0, .vertex ⟨3 / 8, 1 / 2⟩⟩]) ∧
    (sampleEnv.length (Vec2.sub ⟨7 / 8, 1 / 2⟩ ⟨1 / 8, 1 / 2⟩) * sampleEnv.tileSize = 3 / 4 ∧
      ⌊((3 / 4 : ℚ) - lineParams.spacing / 2) / lineParams.spacing⌋₊ + 1 = 2 ∧
      (walkVertices sampleEnv lineParams flatGlyph 4 7 [⟨1 / 8, 1 / 2⟩, ⟨7 / 8, 1 / 2⟩]
        (BuildState.initial [])).state.handed = [⟨7, 0, .vertex ⟨3 / 8, 1 / 2⟩⟩]) ∧
    (sampleEnv.length (Vec2.sub ⟨13421773 / 16777216, 1 / 2⟩ ⟨1 / 2, 1 / 2⟩) *
        sampleEnv.tileSize = 5033165 / 16777216 ∧
      fifthParams.spacing / 2 ≤ (5033165 / 16777216 : ℚ) ∧
      ⌊((5033165 / 16777216 : ℚ) - fifthParams.spacing / 2) / fifthParams.spacing⌋₊ + 1 = 2 ∧
      (walkVertices sampleEnv fifthParams flatGlyph 4 7 shortSegment
        (BuildState.initial [])).isDone = true ∧
      (walkCandidates sampleEnv fifthParams flatGlyph 4 shortSegment).map Candidate.linePos =
        [13421773 / 134217728] ∧
      (walkVertices sampleEnv fifthParams flatGlyph 4 7 shortSegment
        (BuildState.initial [])).state.handed.length = 1) := by
  decide!

/-- C5, amended. Line-spacing walk count. For a single straight segment of scaled length `L`
whose end points lie strictly inside the unit tile, spacing `S > 0` and glyph footprint 0,
with `S` and `L` whole multiples of one power of two `q` (at least `2^-148`) and
`L + S` at most `2^23 q`, so that the running offset needs no rounding: the walk ends (given
enough fuel) having emitted as many placements as there are values `min(L, S)/2 + k S`,
`k = 0, 1, 2, ...`, strictly below `L`. That number is `floor((L - S/2)/S) + 1` when
`L >= S/2`, unless `(L - S/2)/S` is a positive integer `m`, in which case it is `m`; it is 1
when `0 < L < S/2`, and 0 when `L <= 0`. -/
theorem straight_segment_count (E : Env) (P : Params) (G : Glyph) (localId : Int)
    (v0 v1 : Vec2) (s : BuildState) (k : ℤ) (hS : 0 < P.spacing) (hB : bitmapSize G = 0)
    (h0 : insideTile v0 = true) (h1 : insideTile v1 = true)
    (hX : ExactWalk E P G k [v0, v1]) :
    (∃ N : Nat, ∀ fuel, N ≤ fuel →
      ∃ s1, walkVertices E P G fuel localId [v0, v1] s = .done s1 ∧
        s1.handed.length =
          s.handed.length + walkCount (E.length (v1.sub v0) * E.tileSize) P.spacing) ∧
    (P.spacing / 2 ≤ E.length (v1.sub v0) * E.tileSize →
      (¬ ∃ m : ℕ, 0 < m ∧ (E.length (v1.sub v0) * E.tileSize - P.spacing / 2) / P.spacing = m) →
      walkCount (E.length (v1.sub v0) * E.tileSize) P.spacing =
        ⌊(E.length (v1.sub v0) * E.tileSize - P.spacing / 2) / P.spacing⌋₊ + 1) ∧
    (∀ m : ℕ, 0 < m →
      (E.length (v1.sub v0) * E.tileSize - P.spacing / 2) / P.spacing = m →
      walkCount (E.length (v1.sub v0) * E.tileSize) P.spacing = m) ∧
    (0 < E.length (v1.sub v0) * E.tileSize →
      E.length (v1.sub v0) * E.tileSize < P.spacing / 2 →
      walkCount (E.length (v1.sub v0) * E.tileSize) P.spacing = 1) ∧
    (E.length (v1.sub v0) * E.tileSize ≤ 0 →
      walkCount (E.length (v1.sub v0) * E.tileSize) P.spacing = 0) := by
  refine ⟨?_, walkCount_cases (E.length (v1.sub v0) * E.tileSize) P.spacing hS⟩
  obtain ⟨N1, hN1⟩ := walkVertices_grid E P G k [v0, v1] hS hX
  have hL0 : 0 ≤ E.length (v1.sub v0) * E.tileSize := by
    obtain ⟨_, _, _, hseg⟩ := hX
    simp only [ExactSegments] at hseg
    obtain ⟨⟨⟨m, hm⟩, _⟩, _⟩ := hseg
    rw [hm]
    exact mul_nonneg (Nat.cast_nonneg _) (le_of_lt (zpow_pos (by norm_num) _))
  have hstep : 0 < P.spacing + bitmapSize G := by rw [hB]; linarith
  refine ⟨max N1 ⌈E.length (v1.sub v0) * E.tileSize / P.spacing⌉₊, fun fuel hfuel => ?_⟩
  obtain ⟨_, hc, hdone⟩ := hN1 fuel (le_trans (le_max_left _ _) hfuel)
  obtain ⟨s1, hs1⟩ := hdone localId s
  refine ⟨s1, hs1, ?_⟩
  have hh := walkVertices_handed E P G fuel localId [v0, v1] s
  rw [hs1] at hh
  simp only [Outcome.state] at hh
  have hLf : 0 ≤ floatMul (E.length (v1.sub v0)) E.tileSize := roundFloat_nonneg hL0
  have hin : ∀ c ∈ walkCandidates E P G fuel [v0, v1], insideTile c.position = true := by
    rw [walkCandidates_single]
    intro c hc1
    obtain ⟨c1, c2, _, c4, c5, c6⟩ := whileCandidates_bounds v0 v1 0
      (floatMul (E.length (v1.sub v0)) E.tileSize) (floatAdd P.spacing (bitmapSize G))
      (roundFloat_nonneg (le_of_lt hstep)) fuel
      (floatMul (min (floatMul (E.length (v1.sub v0)) E.tileSize) P.spacing) (1 / 2))
      (fun _ => roundFloat_nonneg (mul_nonneg (le_min hLf (le_of_lt hS)) (by norm_num))) c hc1
    have hpos : 0 < floatMul (E.length (v1.sub v0)) E.tileSize := lt_of_le_of_lt c5 c6
    unfold Candidate.position
    rw [c1, c2, c4]
    exact inside_segment v0 v1 _ h0 h1 (div_nonneg c5 (le_of_lt hpos))
      ((div_lt_one hpos).2 c6)
  rw [hh, List.length_append, List.length_map, List.filter_eq_self.2 hin, hc,
    walkCandidatesExact_single]
  have hfuel2 : ⌈E.length (v1.sub v0) * E.tileSize / P.spacing⌉₊ ≤ fuel :=
    le_trans (le_max_right _ _) hfuel
  have hcov : E.length (v1.sub v0) * E.tileSize ≤ fuel * P.spacing := by
    have h1 : E.length (v1.sub v0) * E.tileSize / P.spacing ≤ (fuel : ℚ) :=
      le_trans (Nat.le_ceil _) (by exact_mod_cast hfuel2)
    exact (div_le_iff₀ hS).mp h1
  have hmin : 0 ≤ min (E.length (v1.sub v0) * E.tileSize) P.spacing := le_min hL0 (le_of_lt hS)
  have hoff := (whileCandidatesExact_offsets v0 v1 0 (E.length (v1.sub v0) * E.tileSize)
    (P.spacing + bitmapSize G) hstep fuel
    (min (E.length (v1.sub v0) * E.tileSize) P.spacing * (1 / 2))
    (by rw [hB, add_zero]; linarith)).1
  have hlen := congrArg List.length hoff
  simp only [List.length_map, List.length_range] at hlen
  rw [hlen, hB, add_zero]
  unfold walkCount
  congr 3
  ring

/-- C5 amended, at a sample input: the segment from (1/8, 1/2) to (7/8, 1/2), spacing 1/2,
zero footprint; all quantities are multiples of 1/4. -/
theorem straight_segment_count_witness :
    0 < lineParams.spacing ∧ bitmapSize flatGlyph = 0 ∧
    insideTile ⟨1 / 8, 1 / 2⟩ = true ∧ insideTile ⟨7 / 8, 1 / 2⟩ = true ∧
    ExactWalk sampleEnv lineParams flatGlyph (-2) [⟨1 / 8, 1 / 2⟩, ⟨7 / 8, 1 / 2⟩] ∧
    walkCount (sampleEnv.length (Vec2.sub ⟨7 / 8, 1 / 2⟩ ⟨1 / 8, 1 / 2⟩) *
      sampleEnv.tileSize) lineParams.spacing = 1 ∧
    ∃ N : Nat, ∀ fuel, N ≤ fuel →
      ∃ s1, walkVertices sampleEnv lineParams flatGlyph fuel 7 [⟨1 / 8, 1 / 2⟩, ⟨7 / 8, 1 / 2⟩]
          (BuildState.initial []) = .done s1 ∧
        s1.handed.length = (BuildState.initial []).handed.length +
          walkCount (sampleEnv.length (Vec2.sub ⟨7 / 8, 1 / 2⟩ ⟨1 / 8, 1 / 2⟩) *
            sampleEnv.tileSize) lineParams.spacing := by
  have hX : ExactWalk sampleEnv lineParams flatGlyph (-2) [⟨1 / 8, 1 / 2⟩, ⟨7 / 8, 1 / 2⟩] :=
    ⟨by decide, ⟨2, by decide!⟩, ⟨0, by decide!⟩, ⟨⟨3, by decide!⟩, by decide!⟩, trivial⟩
  exact ⟨by decide!, by decide!, by decide!, by decide!, hX, by decide!,
    (straight_segment_count sampleEnv lineParams flatGlyph 7 ⟨1 / 8, 1 / 2⟩ ⟨7 / 8, 1 / 2⟩
      (BuildState.initial []) (-2) (by decide!) (by decide!) (by decide!) (by decide!) hX).1⟩

end MarkersSymbolizer

namespace MarkersSymbolizer

/-! ## Arc-length carry-over (C6) -/

/-- C6, as stated, fails: with spacing 1/2, zero footprint and tile size 1, the walk over the
three segments with vertices at `x = 0`, 0.3, 0.6 and 1 (0.3 and 0.6 as their nearest
binary32 values) and the walk over the single segment of length 1 both end, but they do not
emit their placements at the same cumulative arc-length offsets. -/
theorem carry_over_counterexample :
    (walkVertices sampleEnv lineParams flatGlyph 4 7 threeSegments
      (BuildState.initial [])).isDone = true ∧
    (walkVertices sampleEnv lineParams flatGlyph 4 7 oneSegment
      (BuildState.initial [])).isDone = true ∧
    emittedOffsets sampleEnv lineParams flatGlyph 4 threeSegments ≠
      emittedOffsets sampleEnv lineParams flatGlyph 4 oneSegment := by
  decide!

/-- C6, amended. Arc-length carry-over. With spacing 1/2, zero footprint and tile size 1, the
walk over the collinear three-segment line with vertices at `x = 0`, 0.3, 0.6 and 1 (0.3 and
0.6 as their nearest binary32 values, which makes the segment lengths `5033165 / 2^24`
twice and `3355443 / 2^23`) and the walk over the single segment of length 1 emit the same
number of placements, two. The offsets are `5033165 / 2^25` and `5452595 / 2^23` (0.15 and
0.65 to within rounding) on the three-segment line, the second on the third segment, and
1/4 and 3/4 on the single segment: the starting offset is half of the smaller of the first
segment length and the spacing. -/
theorem carry_over_offsets :
    (walkVertices sampleEnv lineParams flatGlyph 4 7 threeSegments
      (BuildState.initial [])).isDone = true ∧
    (walkVertices sampleEnv lineParams flatGlyph 4 7 oneSegment
      (BuildState.initial [])).isDone = true ∧
    (walkRuns sampleEnv lineParams flatGlyph 4 threeSegments).map SegmentRun.lineLen =
      [5033165 / 16777216, 5033165 / 16777216, 3355443 / 8388608] ∧
    (walkRuns sampleEnv lineParams flatGlyph 4 oneSegment).map SegmentRun.lineLen = [1] ∧
    (walkVertices sampleEnv lineParams flatGlyph 4 7 threeSegments
      (BuildState.initial [])).state.handed.length = 2 ∧
    (walkVertices sampleEnv lineParams flatGlyph 4 7 oneSegment
      (BuildState.initial [])).state.handed.length = 2 ∧
    emittedOffsets sampleEnv lineParams flatGlyph 4 threeSegments =
      [5033165 / 33554432, 5452595 / 8388608] ∧
    emittedOffsets sampleEnv lineParams flatGlyph 4 oneSegment = [1 / 4, 3 / 4] ∧
    ((walkCandidates sampleEnv lineParams flatGlyph 4 threeSegments).map
      (fun c => (c.v0.x, c.v1.x))) =
      [(0, 5033165 / 16777216), (5033165 / 8388608, 1)] ∧
    (5033165 / 33554432 : ℚ) = min (5033165 / 16777216) lineParams.spacing / 2 ∧
    (1 / 4 : ℚ) = min 1 lineParams.spacing / 2 := by
  decide!

/-! ## Continuous spacing across the vertices (C18) -/

/-- The scaled length of every iteration of a `for` loop without rounding is the exact
product. -/
theorem segmentRunsExact_lineLen (E : Env) (P : Params) (G : Glyph) (fuel : Nat)
    (vertices : List Vec2) :
    ∀ (i : Nat) (before linePos : ℚ),
      ∀ r ∈ segmentRunsExact E P G fuel i vertices before linePos,
        r.lineLen = E.length (r.v1.sub r.v0) * E.tileSize := by
  induction vertices with
  | nil => intro i before linePos r hr; simp [segmentRunsExact] at hr
  | cons v0 tl ih =>
    intro i before linePos r hr
    cases tl with
    | nil => simp [segmentRunsExact] at hr
    | cons v1 rest =>
      simp only [segmentRunsExact] at hr
      rcases List.mem_cons.1 hr with h | h
      · subst h
        rfl
      · cases hx : whileExitExact (E.length (v1.sub v0) * E.tileSize)
          (P.spacing + bitmapSize G) fuel
          (if i = 1 then min (E.length (v1.sub v0) * E.tileSize) P.spacing * (1 / 2)
            else linePos) with
        | none => rw [hx] at h; simp at h
        | some lp =>
          rw [hx] at h
          exact ih (i + 1) _ _ r h

/-- C18, as stated, fails: on the three-segment line with vertices at `x = 0`, 0.3, 0.6 and
1 (0.3 and 0.6 as their nearest binary32 values; total length 1), spacing 1/2 and zero
footprint, `p0 = 5033165 / 2^25` and `p0 + (S + B)` is below the total length, yet the
second candidate is at offset `5452595 / 2^23`, not at `p0 + (S + B)`: the binary32 sum of
line 193 is rounded. -/
theorem continuous_spacing_counterexample :
    0 < lineParams.spacing ∧ 0 ≤ bitmapSize flatGlyph ∧
    (walkVertices sampleEnv lineParams flatGlyph 4 7 threeSegments
      (BuildState.initial [])).isDone = true ∧
    startOffset sampleEnv lineParams threeSegments = 5033165 / 33554432 ∧
    totalLength sampleEnv threeSegments = 1 ∧
    startOffset sampleEnv lineParams threeSegments +
      1 * (lineParams.spacing + bitmapSize flatGlyph) < totalLength sampleEnv threeSegments ∧
    (walkCandidates sampleEnv lineParams flatGlyph 4 threeSegments).map Candidate.offset =
      [5033165 / 33554432, 5452595 / 8388608] ∧
    (5452595 / 8388608 : ℚ) ≠ startOffset sampleEnv lineParams threeSegments +
      1 * (lineParams.spacing + bitmapSize flatGlyph) := by
  decide!

/-- C18, amended. Continuous spacing across vertices. For every vertex sequence of total
scaled length `T` (lengths not negative), spacing `S > 0` and glyph footprint `B >= 0`, with
`S`, `B` and every scaled segment length whole multiples of one power of two `q` (at least
`2^-148`) and every scaled segment length plus `S + B` at most `2^23 q`, so that the running
offset needs no rounding: given enough fuel, the walk returns and does nothing but evaluate
its body at its candidates; the cumulative arc-length offsets of the candidates, in order,
are `p0 + k (S + B)` for `k = 0, ..., K - 1`, where `p0 = min(l1, S)/2` and `k < K` exactly
when `p0 + k (S + B) < T`; and each candidate is placed on the segment of two consecutive
vertices that contains its offset: `before <= offset < before + lineLen`, with `before` the
scaled length of the vertex sequence up to the segment, at the position
`v0 + (v1 - v0) (offset - before) / lineLen`. -/
theorem continuous_spacing (E : Env) (P : Params) (G : Glyph) (vertices : List Vec2) (k : ℤ)
    (hS : 0 < P.spacing) (hlen : ∀ v, 0 ≤ E.length v) (htile : 0 ≤ E.tileSize)
    (hX : ExactWalk E P G k vertices) :
    ∃ N : Nat, ∀ fuel, N ≤ fuel →
      (∀ (localId : Int) (s : BuildState),
        walkVertices E P G fuel localId vertices s =
          .done ((walkCandidates E P G fuel vertices).foldl (emitCandidate E P G localId)
            (flushPoints E P G s P.transform))) ∧
      (walkCandidates E P G fuel vertices).map Candidate.offset =
        (List.range ⌈(totalLength E vertices - startOffset E P vertices) /
            (P.spacing + bitmapSize G)⌉₊).map
          (fun (k : ℕ) => startOffset E P vertices + (k : ℚ) * (P.spacing + bitmapSize G)) ∧
      (∀ k : ℕ, k < ⌈(totalLength E vertices - startOffset E P vertices) /
            (P.spacing + bitmapSize G)⌉₊ ↔
          startOffset E P vertices + (k : ℚ) * (P.spacing + bitmapSize G) <
            totalLength E vertices) ∧
      (∀ c ∈ walkCandidates E P G fuel vertices,
        ∃ pre post, vertices = pre ++ c.v0 :: c.v1 :: post ∧
          c.before = totalLength E (pre ++ [c.v0]) ∧
          c.lineLen = E.length (c.v1.sub c.v0) * E.tileSize ∧
          c.before ≤ c.offset ∧ c.offset < c.before + c.lineLen ∧
          c.position = c.v0.add ((c.v1.sub c.v0).smul ((c.offset - c.before) / c.lineLen))) := by
  have hB : 0 ≤ bitmapSize G := by
    obtain ⟨_, _, ⟨b, hb⟩, _⟩ := hX
    rw [hb]
    exact mul_nonneg (Nat.cast_nonneg _) (le_of_lt (zpow_pos (by norm_num) _))
  have hstep : 0 < P.spacing + bitmapSize G := by linarith
  obtain ⟨N1, hN1⟩ := walkVertices_grid E P G k vertices hS hX
  obtain ⟨N2, hN2⟩ := segmentRunsExact_offsets E P G hS hstep
    (fun v => mul_nonneg (hlen v) htile) vertices
  refine ⟨max N1 N2, fun fuel hfuel => ?_⟩
  obtain ⟨hr, hc, hdone⟩ := hN1 fuel (le_trans (le_max_left _ _) hfuel)
  have hoff := hN2 fuel (le_trans (le_max_right _ _) hfuel) 1 0 0 (le_refl 1) (Or.inl rfl)
  simp only [if_true, zero_add] at hoff
  refine ⟨?_, ?_, ?_, ?_⟩
  · intro localId s
    obtain ⟨s1, hs1⟩ := hdone localId s
    have h1 := walkVertices_candidates E P G fuel localId vertices s
    rw [hs1] at h1 ⊢
    simp only [Outcome.state] at h1
    rw [h1]
  · rw [hc]
    exact hoff
  · intro k
    rw [Nat.lt_ceil, lt_div_iff₀ hstep]
    constructor <;> intro h <;> linarith
  · intro c hc1
    simp only [walkCandidates, List.mem_flatMap] at hc1
    obtain ⟨r, hr1, hcr⟩ := hc1
    obtain ⟨b1, _, _, _⟩ := segmentRuns_bounds E P G fuel hS vertices 1 0 0 (Or.inl rfl) r hr1
    have hr2 : r ∈ segmentRunsExact E P G fuel 1 vertices 0 0 := by
      rw [← hr]
      exact hr1
    obtain ⟨pre, post, d1, d2⟩ := segmentRunsExact_before E P G fuel vertices 1 0 0 r hr2
    have d3 := segmentRunsExact_lineLen E P G fuel vertices 1 0 0 r hr2
    obtain ⟨c1, c2, c3, c4, c5, c6⟩ :=
      whileCandidates_bounds r.v0 r.v1 r.before r.lineLen _
        (roundFloat_nonneg (le_of_lt hstep)) fuel r.start b1 c hcr
    refine ⟨pre, post, by rw [c1, c2]; exact d1, by rw [c3, c1, d2, zero_add], ?_, ?_, ?_, ?_⟩
    · rw [c4, c1, c2]; exact d3
    · simp only [Candidate.offset]; linarith
    · simp only [Candidate.offset]; rw [c4]; linarith
    · simp only [Candidate.position, Candidate.offset, add_sub_cancel_left]

/-- C18 amended, at a sample input: the three-segment line of lengths 1/4, 1/4, 1/2,
spacing 1/2, zero footprint (all multiples of 1/4): the offsets are 1/8 and 5/8, the second
on the third segment. -/
theorem continuous_spacing_witness :
    0 < lineParams.spacing ∧ (∀ v, 0 ≤ sampleEnv.length v) ∧ 0 ≤ sampleEnv.tileSize ∧
    ExactWalk sampleEnv lineParams flatGlyph (-2) dyadicSegments ∧
    startOffset sampleEnv lineParams dyadicSegments = 1 / 8 ∧
    totalLength sampleEnv dyadicSegments = 1 ∧
    (walkCandidates sampleEnv lineParams flatGlyph 4 dyadicSegments).map Candidate.offset =
      [1 / 8, 5 / 8] ∧
    ∃ N : Nat, ∀ fuel, N ≤ fuel →
      (walkCandidates sampleEnv lineParams flatGlyph fuel dyadicSegments).map Candidate.offset =
        (List.range ⌈(totalLength sampleEnv dyadicSegments -
            startOffset sampleEnv lineParams dyadicSegments) /
            (lineParams.spacing + bitmapSize flatGlyph)⌉₊).map
          (fun (k : ℕ) => startOffset sampleEnv lineParams dyadicSegments +
            (k : ℚ) * (lineParams.spacing + bitmapSize flatGlyph)) := by
  have hX : ExactWalk sampleEnv lineParams flatGlyph (-2) dyadicSegments :=
    ⟨by decide, ⟨2, by decide!⟩, ⟨0, by decide!⟩, ⟨⟨1, by decide!⟩, by decide!⟩,
      ⟨⟨1, by decide!⟩, by decide!⟩, ⟨⟨2, by decide!⟩, by decide!⟩, trivial⟩
  obtain ⟨N, hN⟩ := continuous_spacing sampleEnv lineParams flatGlyph dyadicSegments (-2)
    (by decide!) sampleLength_nonneg (by decide!) hX
  exact ⟨by decide!, sampleLength_nonneg, by decide!, hX, by decide!, by decide!,
    by decide!, N, fun fuel hfuel => (hN fuel hfuel).2.1⟩

/-! ## Termination of the walk (C20) -/

/-- On a segment of scaled length `2^23 + 2`, with spacing 1/2 and zero footprint, a running
offset between 0 and `2^23` stays there: at `2^23` the binary32 sum `linePos + 1/2` is
`linePos` again. The `while` loop does not come to its end, whatever the fuel. -/
theorem whileLoop_absorbed (localId : Int) (v0 v1 : Vec2) (fuel : Nat) :
    ∀ (linePos : ℚ) (s : BuildState), 0 ≤ linePos → linePos ≤ 8388608 →
      (whileLoop sampleEnv lineParams flatGlyph localId v0 v1 8388610 fuel linePos s).isDone =
        false := by
  have hstep : floatAdd lineParams.spacing (bitmapSize flatGlyph) = 1 / 2 := by decide!
  have htop : roundFloat (8388608 + 1 / 2) = 8388608 := by decide!
  induction fuel with
  | zero =>
    intro linePos s _ h1
    have hlt : linePos < 8388610 := by linarith
    simp only [whileLoop, hlt, if_true, Outcome.isDone]
  | succ n ih =>
    intro linePos s h0 h1
    have hlt : linePos < 8388610 := by linarith
    simp only [whileLoop, hlt, if_true, hstep]
    apply ih
    · exact roundFloat_nonneg (by linarith)
    · have h2 := roundFloat_mono (show linePos + 1 / 2 ≤ 8388608 + 1 / 2 by linarith)
      rw [htop] at h2
      exact h2

/-- C20 fails on the code. With spacing 1/2 and zero footprint (so `S > 0` and `B >= 0`), the
walk over the single segment from `(0, 2)` to `(8388610, 2)` at tile size 1 does not
terminate: for every amount of fuel, every identifier and every state, the run is still
inside the `while` loop when the fuel is used up. The running offset climbs from 1/4 to
`8388608 = 2^23`, where binary32 values are 1 apart, and the sum `8388608 + 1/2` is rounded
back to `8388608`, which is below the length `8388610`. -/
theorem walk_step_absorbed :
    0 < lineParams.spacing ∧ 0 ≤ bitmapSize flatGlyph ∧
    (walkRuns sampleEnv lineParams flatGlyph 0 longSegment).map SegmentRun.lineLen =
      [8388610] ∧
    floatAdd 8388608 (floatAdd lineParams.spacing (bitmapSize flatGlyph)) = 8388608 ∧
    ∀ (fuel : Nat) (localId : Int) (s : BuildState),
      (walkVertices sampleEnv lineParams flatGlyph fuel localId longSegment s).isDone =
        false := by
  refine ⟨by decide!, by decide!, by decide!, by decide!, ?_⟩
  intro fuel localId s
  have hL : floatMul (sampleEnv.length (Vec2.sub ⟨8388610, 2⟩ ⟨0, 2⟩)) sampleEnv.tileSize =
      8388610 := by decide!
  have hst : floatMul (min (8388610 : ℚ) lineParams.spacing) (1 / 2) = 1 / 4 := by decide!
  have hw := whileLoop_absorbed localId ⟨0, 2⟩ ⟨8388610, 2⟩ fuel (1 / 4)
    (flushPoints sampleEnv lineParams flatGlyph s lineParams.transform) (by norm_num)
    (by norm_num)
  simp only [walkVertices, longSegment, segmentLoop, if_true, hL, hst]
  revert hw
  cases whileLoop sampleEnv lineParams flatGlyph localId ⟨0, 2⟩ ⟨8388610, 2⟩ 8388610 fuel
    (1 / 4) (flushPoints sampleEnv lineParams flatGlyph s lineParams.transform) with
  | done r =>
    intro hw
    simp [Outcome.isDone] at hw
  | outOfFuel s1 =>
    intro _
    rfl

end MarkersSymbolizer
